import Mathlib

/-!
# Verification of the btclib PSBT codec and state machine

Shallow embedding of `src/btclib/psbt.py` (Partially Signed Bitcoin
Transaction container: codec, validator, combiner, finalizer, extractor),
`src/btclib/tx.py` (transaction codec) and the partial-signature
deserializer of `src/btclib/psbt_in.py`.

Conventions of the embedding:

* Python `bytes` are `List Nat` (one entry per byte); Python hex `str`
  fields (btclib stores many byte strings as lowercase hex text) are
  modelled as the byte strings they denote, so `bytes.fromhex`/`.hex()`
  are identities and `.upper()` is the identity on the denoted bytes.
* Python exceptions (`assert`, `IndexError`, `NameError`, raising
  helpers) are modelled with `Except String`; a raised exception is an
  `Except.error` carrying a short tag of the Python error.
* Python `dict` fields are insertion-ordered association lists; `dict`
  assignment/update is `dictInsert`/`dictUpdate` below, which mirror
  CPython semantics (existing key keeps its position, new key appends).
* The base64 transport wrapper of `Psbt.serialize`/`Psbt.deserialize`
  (`b64encode`/`b64decode`, a standard-library bijection) is elided:
  the embedding works on the underlying bytes.

Collaborator modules that the claims' code imports but that are not part
of `src/` (`varint`, `script`, `scriptpubkey`, `tx_in`, `tx_out`,
`utils` hashes) are modelled from the spec, each with a doc comment
starting `Modelled from the spec:`.
-/

abbrev Bytes := List Nat

deriving instance DecidableEq for Except

@[simp]
theorem ok_bind {α β : Type} (a : α) (f : α → Except String β) :
    (Except.ok a : Except String α) >>= f = f a := rfl

@[simp]
theorem error_bind {α β : Type} (e : String) (f : α → Except String β) :
    (Except.error e : Except String α) >>= f = .error e := rfl

@[simp]
theorem ok_map {α β : Type} (a : α) (f : α → β) :
    (Except.ok a : Except String α).map f = .ok (f a) := rfl

@[simp]
theorem error_map {α β : Type} (e : String) (f : α → β) :
    (Except.error e : Except String α).map f = .error e := rfl

@[simp]
theorem pure_eq_ok {α : Type} (a : α) : (pure a : Except String α) = .ok a := rfl

/-- Little-endian value of a byte list (Python `int.from_bytes(b, "little")`). -/
def fromLE : Bytes → Nat
  | [] => 0
  | b :: t => b + 256 * fromLE t

/-- `w` little-endian bytes of `n` (the payload of Python
`n.to_bytes(w, "little")`). -/
def toLE : Nat → Nat → Bytes
  | 0, _ => []
  | w + 1, n => n % 256 :: toLE w (n / 256)

/-- Python `n.to_bytes(w, "little")`: raises `OverflowError` when `n`
does not fit in `w` bytes. -/
def to_bytes (n w : Nat) : Except String Bytes :=
  if n < 256 ^ w then .ok (toLE w n) else .error "OverflowError"

namespace varint

/-- Modelled from the spec: the varint codec collaborator (§4.1), the
Bitcoin compact-size encoding.  Encodes to the minimal 1/3/5/9-byte
form; values not representable in 8 bytes raise. -/
def encode (n : Nat) : Except String Bytes :=
  if n < 0xfd then .ok [n]
  else if n ≤ 0xffff then .ok (0xfd :: toLE 2 n)
  else if n ≤ 0xffffffff then .ok (0xfe :: toLE 4 n)
  else if n ≤ 0xffffffffffffffff then .ok (0xff :: toLE 8 n)
  else .error "integer too large"

/-- Modelled from the spec: varint decoding from a byte buffer, choosing
the form by the first byte; a truncated buffer fails with a length
error.  Only the value is returned (the callers in `psbt.py` recover
the consumed length by re-encoding). -/
def decode : Bytes → Except String Nat
  | [] => .error "not enough binary data"
  | b :: r =>
    if b = 0xfd then
      if 2 ≤ r.length then .ok (fromLE (r.take 2)) else .error "not enough binary data"
    else if b = 0xfe then
      if 4 ≤ r.length then .ok (fromLE (r.take 4)) else .error "not enough binary data"
    else if b = 0xff then
      if 8 ≤ r.length then .ok (fromLE (r.take 8)) else .error "not enough binary data"
    else .ok b

/-- Modelled from the spec: varint decoding with stream semantics (as
`varint.decode(stream)` inside `tx.py`): returns the value and the
unconsumed tail. -/
def decodeFrom : Bytes → Except String (Nat × Bytes)
  | [] => .error "not enough binary data"
  | b :: r =>
    if b = 0xfd then
      if 2 ≤ r.length then .ok (fromLE (r.take 2), r.drop 2)
      else .error "not enough binary data"
    else if b = 0xfe then
      if 4 ≤ r.length then .ok (fromLE (r.take 4), r.drop 4)
      else .error "not enough binary data"
    else if b = 0xff then
      if 8 ≤ r.length then .ok (fromLE (r.take 8), r.drop 8)
      else .error "not enough binary data"
    else .ok (b, r)

end varint

theorem toLE_length (w n : Nat) : (toLE w n).length = w := by
  induction w generalizing n with
  | zero => rfl
  | succ w ih => simp [toLE, ih]

theorem fromLE_toLE {w n : Nat} (h : n < 256 ^ w) : fromLE (toLE w n) = n := by
  induction w generalizing n with
  | zero =>
    have hn : n = 0 := by simpa using h
    simp [toLE, fromLE, hn]
  | succ w ih =>
    have hdiv : n / 256 < 256 ^ w := by
      rw [Nat.div_lt_iff_lt_mul (by norm_num)]
      calc n < 256 ^ (w + 1) := h
        _ = 256 ^ w * 256 := by ring
    simp [toLE, fromLE, ih hdiv, Nat.mod_add_div' n 256]
    omega

theorem take_append_length {α : Type} {l r : List α} {w : Nat} (hl : l.length = w) :
    (l ++ r).take w = l := by
  subst hl; exact List.take_left l r

theorem drop_append_length {α : Type} {l r : List α} {w : Nat} (hl : l.length = w) :
    (l ++ r).drop w = r := by
  subst hl; exact List.drop_left l r

theorem fromLE_append_take {l r : Bytes} {w : Nat} (hl : l.length = w) :
    fromLE ((l ++ r).take w) = fromLE l := by
  rw [take_append_length hl]

namespace varint

theorem encode_length_pos {n : Nat} {e : Bytes} (h : encode n = .ok e) :
    1 ≤ e.length := by
  unfold encode at h
  split_ifs at h <;> simp only [Except.ok.injEq] at h <;> subst h <;> simp

theorem encode_head_ne_zero {n : Nat} {e : Bytes} (h : encode n = .ok e) (hn : n ≠ 0) :
    ∃ b t, e = b :: t ∧ b ≠ 0 := by
  unfold encode at h
  split_ifs at h with h1 h2 h3 h4 <;> simp only [Except.ok.injEq] at h
  · exact ⟨n, [], h.symm, hn⟩
  · exact ⟨0xfd, _, h.symm, by norm_num⟩
  · exact ⟨0xfe, _, h.symm, by norm_num⟩
  · exact ⟨0xff, _, h.symm, by norm_num⟩

theorem decode_encode {n : Nat} {e : Bytes} (h : encode n = .ok e) (r : Bytes) :
    decode (e ++ r) = .ok n := by
  unfold encode at h
  split_ifs at h with h1 h2 h3 h4 <;> simp only [Except.ok.injEq] at h <;> subst h
  · simp [decode, show n ≠ 253 by omega, show n ≠ 254 by omega, show n ≠ 255 by omega]
  · have hlen : (2:Nat) ≤ (toLE 2 n ++ r).length := by simp [toLE_length]
    simp [decode, hlen, toLE_length, fromLE_append_take (toLE_length 2 n),
      fromLE_toLE (show n < 256 ^ 2 by omega)]
  · have hlen : (4:Nat) ≤ (toLE 4 n ++ r).length := by simp [toLE_length]
    simp [decode, hlen, toLE_length, fromLE_append_take (toLE_length 4 n),
      fromLE_toLE (show n < 256 ^ 4 by omega)]
  · have hlen : (8:Nat) ≤ (toLE 8 n ++ r).length := by simp [toLE_length]
    simp [decode, hlen, toLE_length, fromLE_append_take (toLE_length 8 n),
      fromLE_toLE (show n < 256 ^ 8 by omega)]

theorem decodeFrom_encode {n : Nat} {e : Bytes} (h : encode n = .ok e) (r : Bytes) :
    decodeFrom (e ++ r) = .ok (n, r) := by
  unfold encode at h
  split_ifs at h with h1 h2 h3 h4 <;> simp only [Except.ok.injEq] at h <;> subst h
  · simp [decodeFrom, show n ≠ 253 by omega, show n ≠ 254 by omega, show n ≠ 255 by omega]
  · have hlen : (2:Nat) ≤ (toLE 2 n ++ r).length := by simp [toLE_length]
    simp [decodeFrom, hlen, toLE_length, fromLE_append_take (toLE_length 2 n),
      fromLE_toLE (show n < 256 ^ 2 by omega), drop_append_length (toLE_length 2 n)]
  · have hlen : (4:Nat) ≤ (toLE 4 n ++ r).length := by simp [toLE_length]
    simp [decodeFrom, hlen, toLE_length, fromLE_append_take (toLE_length 4 n),
      fromLE_toLE (show n < 256 ^ 4 by omega), drop_append_length (toLE_length 4 n)]
  · have hlen : (8:Nat) ≤ (toLE 8 n ++ r).length := by simp [toLE_length]
    simp [decodeFrom, hlen, toLE_length, fromLE_append_take (toLE_length 8 n),
      fromLE_toLE (show n < 256 ^ 8 by omega), drop_append_length (toLE_length 8 n)]

end varint

/-- A Bitcoin Script token (btclib `alias.Token`): an opcode (Python
`int` token) or a data push (Python hex-`str` token, modelled as the
pushed bytes). -/
inductive Token where
  | num : Nat → Token
  | hex : Bytes → Token
deriving DecidableEq, Repr

namespace script

/-- The reading loop of the script decoder, structurally recursive on
a fuel bound (`decode` supplies the buffer length, which always
suffices since every step consumes at least one byte). -/
def decodeFuel : Nat → Bytes → Except String (List Token)
  | _, [] => .ok []
  | 0, _ :: _ => .error "unreachable: fuel"
  | fuel + 1, b :: r =>
    if 1 ≤ b ∧ b ≤ 75 then do
      let ts ← decodeFuel fuel (r.drop b)
      pure (Token.hex (r.take b) :: ts)
    else do
      let ts ← decodeFuel fuel r
      pure (Token.num b :: ts)

/-- Modelled from the spec: the script codec collaborator (§6:
`decode(bytes) -> token sequence`).  Single bytes `1..75` are direct
data pushes of that many following bytes (the standard Script push
form); every other byte is an opcode token. -/
def decode (bs : Bytes) : Except String (List Token) :=
  decodeFuel bs.length bs

/-- Modelled from the spec: the inverse direction of the script codec
collaborator (btclib `script.encode`, producing the raw script bytes).
Pushes longer than 75 bytes and opcodes outside one byte raise. -/
def encode : List Token → Except String Bytes
  | [] => .ok []
  | .num n :: ts =>
    if n < 256 then do
      let rest ← encode ts
      pure (n :: rest)
    else .error "invalid opcode"
  | .hex bs :: ts =>
    if 1 ≤ bs.length ∧ bs.length ≤ 75 then do
      let rest ← encode ts
      pure (bs.length :: (bs ++ rest))
    else .error "unsupported data push"

/-- Modelled from the spec: btclib `script.serialize` = the encoded
script prefixed with its varint length (the form embedded in
transactions and PSBT maps). -/
def serialize (ts : List Token) : Except String Bytes := do
  let e ← encode ts
  let l ← varint.encode e.length
  pure (l ++ e)

end script

/-- Well-formedness of one token as produced by `script.decode`: pushes
carry 1..75 bytes and opcode tokens are single non-push bytes. -/
def tokenWf : Token → Prop
  | .hex bs => 1 ≤ bs.length ∧ bs.length ≤ 75
  | .num n => n < 256 ∧ ¬(1 ≤ n ∧ n ≤ 75)

instance : DecidablePred tokenWf := fun t =>
  match t with
  | .hex bs => inferInstanceAs (Decidable (1 ≤ bs.length ∧ bs.length ≤ 75))
  | .num n => inferInstanceAs (Decidable (n < 256 ∧ ¬(1 ≤ n ∧ n ≤ 75)))

/-- Structural well-formedness of a token sequence as produced by
`script.decode`. -/
def wfScript (ts : List Token) : Prop := ∀ t ∈ ts, tokenWf t

instance : DecidablePred wfScript := fun ts => List.decidableBAll _ ts

namespace script

theorem encode_isOk {ts : List Token} (h : wfScript ts) : ∃ e, encode ts = .ok e := by
  induction ts with
  | nil => exact ⟨[], rfl⟩
  | cons t ts ih =>
    obtain ⟨e, he⟩ := ih (fun u hu => h u (List.mem_cons_of_mem t hu))
    have ht := h t (List.mem_cons_self t ts)
    match t with
    | .num n =>
      simp only [tokenWf] at ht
      exact ⟨n :: e, by simp [encode, ht.1, he]⟩
    | .hex bs =>
      simp only [tokenWf] at ht
      exact ⟨bs.length :: (bs ++ e), by simp [encode, ht.1, ht.2, he]⟩

theorem decode_nil : decode [] = .ok [] := rfl

theorem decodeFuel_encode {ts : List Token} {e : Bytes} (hwf : wfScript ts)
    (h : encode ts = .ok e) :
    ∀ fuel, e.length ≤ fuel → decodeFuel fuel e = .ok ts := by
  induction ts generalizing e with
  | nil =>
    simp only [encode, Except.ok.injEq] at h
    subst h
    intro fuel _
    cases fuel <;> rfl
  | cons t ts ih =>
    have ht := hwf t (List.mem_cons_self t ts)
    have hwf' : wfScript ts := fun u hu => hwf u (List.mem_cons_of_mem t hu)
    match t with
    | .num n =>
      obtain ⟨hn, hop⟩ := ht
      simp only [encode, if_pos hn] at h
      cases hrest : encode ts with
      | error e' => simp [hrest] at h
      | ok rest =>
        simp only [hrest, ok_bind, pure_eq_ok, Except.ok.injEq] at h
        subst h
        intro fuel hf
        match fuel with
        | 0 => simp at hf
        | fuel + 1 =>
          simp only [decodeFuel]
          rw [if_neg hop, ih hwf' hrest fuel (by simp at hf; omega)]
          simp
    | .hex bs =>
      obtain ⟨h1, h2⟩ := ht
      simp only [encode, if_pos (And.intro h1 h2)] at h
      cases hrest : encode ts with
      | error e' => simp [hrest] at h
      | ok rest =>
        simp only [hrest, ok_bind, pure_eq_ok, Except.ok.injEq] at h
        subst h
        intro fuel hf
        match fuel with
        | 0 => simp at hf
        | fuel + 1 =>
          simp only [decodeFuel]
          rw [if_pos (And.intro h1 h2), take_append_length rfl,
            drop_append_length rfl,
            ih hwf' hrest fuel (by simp at hf; omega)]
          simp

theorem decode_encode_tokens {ts : List Token} {e : Bytes} (hwf : wfScript ts)
    (h : encode ts = .ok e) : decode e = .ok ts :=
  decodeFuel_encode hwf h e.length (le_refl _)

end script

/-- Modelled from the spec: the witness codec collaborator (§6,
`tx_in.witness_serialize`): item count as varint, then each stack item
length-prefixed.  Helper for the per-item body. -/
def witnessItemsBytes : List Bytes → Except String Bytes
  | [] => .ok []
  | i :: is => do
    let l ← varint.encode i.length
    let rest ← witnessItemsBytes is
    pure (l ++ i ++ rest)

/-- Modelled from the spec: `tx_in.witness_serialize(list) -> bytes`. -/
def witness_serialize (w : List Bytes) : Except String Bytes := do
  let c ← varint.encode w.length
  let body ← witnessItemsBytes w
  pure (c ++ body)

/-- Modelled from the spec: reading `n` length-prefixed witness items
from a stream. -/
def witnessReadItems : Nat → Bytes → Except String (List Bytes × Bytes)
  | 0, d => .ok ([], d)
  | n + 1, d => do
    let (len, d1) ← varint.decodeFrom d
    let item := d1.take len
    let (rest, d2) ← witnessReadItems n (d1.drop len)
    pure (item :: rest, d2)

/-- Modelled from the spec: `tx_in.witness_deserialize` with stream
semantics, returning the unconsumed tail. -/
def witness_deserializeFrom (d : Bytes) : Except String (List Bytes × Bytes) := do
  let (n, d1) ← varint.decodeFrom d
  witnessReadItems n d1

/-- Modelled from the spec: `tx_in.witness_deserialize(bytes) -> list`
(`psbt.py` applies it to the exact map value; trailing bytes are
ignored as by the Python stream). -/
def witness_deserialize (d : Bytes) : Except String (List Bytes) :=
  (witness_deserializeFrom d).map (·.1)

theorem witnessReadItems_itemsBytes {w : List Bytes} {body : Bytes}
    (h : witnessItemsBytes w = .ok body) (r : Bytes) :
    witnessReadItems w.length (body ++ r) = .ok (w, r) := by
  induction w generalizing body with
  | nil =>
    simp only [witnessItemsBytes, Except.ok.injEq] at h
    subst h; rfl
  | cons i is ih =>
    simp only [witnessItemsBytes] at h
    cases hl : varint.encode i.length with
    | error e' => simp [hl] at h
    | ok l =>
      cases hrest : witnessItemsBytes is with
      | error e' => simp [hl, hrest] at h
      | ok rest =>
        simp only [hl, hrest, ok_bind, pure_eq_ok, Except.ok.injEq] at h
        subst h
        simp only [List.length_cons, witnessReadItems, List.append_assoc]
        rw [varint.decodeFrom_encode hl]
        simp only [ok_bind]
        rw [take_append_length rfl, drop_append_length rfl, ih hrest]
        simp

theorem witness_deserializeFrom_serialize {w : List Bytes} {e : Bytes}
    (h : witness_serialize w = .ok e) (r : Bytes) :
    witness_deserializeFrom (e ++ r) = .ok (w, r) := by
  rw [witness_serialize] at h
  cases hc : varint.encode w.length with
  | error e' => simp [hc] at h
  | ok c =>
    cases hb : witnessItemsBytes w with
    | error e' => simp [hc, hb] at h
    | ok body =>
      simp only [hc, hb, ok_bind, pure_eq_ok, Except.ok.injEq] at h
      subst h
      rw [witness_deserializeFrom]
      simp only [List.append_assoc]
      rw [varint.decodeFrom_encode hc]
      simp only [ok_bind]
      exact witnessReadItems_itemsBytes hb r

theorem witness_deserialize_serialize {w : List Bytes} {e : Bytes}
    (h : witness_serialize w = .ok e) :
    witness_deserialize e = .ok w := by
  have h2 := witness_deserializeFrom_serialize h []
  rw [List.append_nil] at h2
  rw [witness_deserialize, h2]
  rfl

/-- Modelled from the spec: the HASH256 collaborator (§6), used only
through equality comparisons here; an injective tagged stand-in. -/
def hash256 (b : Bytes) : Bytes := 0xd2 :: b

/-- Modelled from the spec: the HASH160 collaborator (§6), used only
through equality comparisons here; an injective tagged stand-in. -/
def hash160 (b : Bytes) : Bytes := 0xa0 :: b

/-- Modelled from the spec: the single-round SHA-256 collaborator (§6),
used only through equality comparisons here; an injective tagged
stand-in. -/
def sha256 (b : Bytes) : Bytes := 0x51 :: b

/-- A previous-output reference (btclib `OutPoint`): transaction id
(hex string, modelled as bytes) and output index. -/
structure OutPoint where
  hash : Bytes
  n : Nat
deriving DecidableEq, Repr

/-- A transaction input (btclib `tx_in.TxIn`, the fields used by
`psbt.py` and `tx.py`). -/
structure TxIn where
  prevout : OutPoint
  scriptSig : List Token
  txinwitness : List Bytes
  nSequence : Nat
deriving DecidableEq, Repr

/-- Modelled from the spec: the TxIn codec collaborator (standard
Bitcoin input framing: 32-byte prevout hash, 4-byte LE index,
varint-prefixed script, 4-byte LE sequence).  The witness is carried
separately by the transaction codec. -/
def TxIn.serialize (i : TxIn) : Except String Bytes := do
  let nb ← to_bytes i.prevout.n 4
  let ss ← script.serialize i.scriptSig
  let sq ← to_bytes i.nSequence 4
  pure (i.prevout.hash ++ nb ++ ss ++ sq)

/-- Modelled from the spec: TxIn decoding with stream semantics. -/
def TxIn.deserializeFrom (d : Bytes) : Except String (TxIn × Bytes) := do
  let hash := d.take 32
  let d1 := d.drop 32
  let n := fromLE (d1.take 4)
  let d2 := d1.drop 4
  let (slen, d3) ← varint.decodeFrom d2
  let ss ← script.decode (d3.take slen)
  let d4 := d3.drop slen
  let sq := fromLE (d4.take 4)
  let d5 := d4.drop 4
  pure (⟨⟨hash, n⟩, ss, [], sq⟩, d5)

/-- A transaction output (btclib `tx_out.TxOut`): value in satoshi and
locking script. -/
structure TxOut where
  nValue : Nat
  scriptPubKey : List Token
deriving DecidableEq, Repr

/-- Modelled from the spec: the TxOut codec collaborator (8-byte LE
value, varint-prefixed locking script). -/
def TxOut.serialize (o : TxOut) : Except String Bytes := do
  let vb ← to_bytes o.nValue 8
  let sb ← script.serialize o.scriptPubKey
  pure (vb ++ sb)

/-- Modelled from the spec: TxOut decoding with stream semantics. -/
def TxOut.deserializeFrom (d : Bytes) : Except String (TxOut × Bytes) := do
  let v := fromLE (d.take 8)
  let d1 := d.drop 8
  let (slen, d2) ← varint.decodeFrom d1
  let spk ← script.decode (d2.take slen)
  pure (⟨v, spk⟩, d2.drop slen)

/-- Modelled from the spec: `TxOut.deserialize` applied to an exact
byte string (as by `PsbtInput.decode` for the witness utxo). -/
def TxOut.deserialize (d : Bytes) : Except String TxOut :=
  (TxOut.deserializeFrom d).map (·.1)

/-- A transaction (`tx.py` `Tx`). -/
structure Tx where
  nVersion : Nat
  nLockTime : Nat
  vin : List TxIn
  vout : List TxOut
deriving DecidableEq, Repr

/-- `Tx.assert_valid` (`tx.py` lines 113-123): at least one input and
one output.  The per-component `TxIn.assert_valid`/`TxOut.assert_valid`
calls are collaborators outside `src/` and are modelled as passing. -/
def Tx.assert_valid (t : Tx) : Except String Unit :=
  if t.vin = [] then .error "A transaction must have at least one input"
  else if t.vout = [] then .error "A transaction must have at least one output"
  else .ok ()

/-- The concatenated serializations of the inputs (the input loop of
`Tx.serialize`). -/
def txInsBytes : List TxIn → Except String Bytes
  | [] => .ok []
  | i :: is => do
    let b ← i.serialize
    let rest ← txInsBytes is
    pure (b ++ rest)

/-- The concatenated serializations of the outputs (the output loop of
`Tx.serialize`). -/
def txOutsBytes : List TxOut → Except String Bytes
  | [] => .ok []
  | o :: os => do
    let b ← o.serialize
    let rest ← txOutsBytes os
    pure (b ++ rest)

/-- The concatenated witness sections, one per input (the witness loop
of `Tx.serialize`). -/
def witnessesBytes : List TxIn → Except String Bytes
  | [] => .ok []
  | i :: is => do
    let b ← witness_serialize i.txinwitness
    let rest ← witnessesBytes is
    pure (b ++ rest)

/-- `Tx.serialize` (`tx.py` lines 68-91): version, inputs, outputs,
optional witness section, locktime; when any input has a witness (and
witnesses are included) the `0x00 0x01` marker is spliced in after the
version bytes. -/
def Tx.serialize (t : Tx) (include_witness : Bool) (assert_valid : Bool) :
    Except String Bytes := do
  if assert_valid then t.assert_valid
  let vb ← to_bytes t.nVersion 4
  let witness_flag := t.vin.any (fun i => i.txinwitness ≠ [])
  let ic ← varint.encode t.vin.length
  let ins ← txInsBytes t.vin
  let oc ← varint.encode t.vout.length
  let outs ← txOutsBytes t.vout
  let wits ← if witness_flag && include_witness then witnessesBytes t.vin
    else pure ([] : Bytes)
  let lb ← to_bytes t.nLockTime 4
  let out := vb ++ ic ++ ins ++ oc ++ outs ++ wits ++ lb
  pure (if witness_flag && include_witness then out.take 4 ++ [0, 1] ++ out.drop 4
    else out)

/-- Reading `n` serialized inputs from a stream (the input loop of
`Tx.deserialize`). -/
def readTxIns : Nat → Bytes → Except String (List TxIn × Bytes)
  | 0, d => .ok ([], d)
  | n + 1, d => do
    let (i, d1) ← TxIn.deserializeFrom d
    let (is, d2) ← readTxIns n d1
    pure (i :: is, d2)

/-- Reading `n` serialized outputs from a stream (the output loop of
`Tx.deserialize`). -/
def readTxOuts : Nat → Bytes → Except String (List TxOut × Bytes)
  | 0, d => .ok ([], d)
  | n + 1, d => do
    let (o, d1) ← TxOut.deserializeFrom d
    let (os, d2) ← readTxOuts n d1
    pure (o :: os, d2)

/-- Assigning a deserialized witness to each input in order (the
witness loop of `Tx.deserialize`). -/
def readWitnesses : List TxIn → Bytes → Except String (List TxIn × Bytes)
  | [], d => .ok ([], d)
  | i :: is, d => do
    let (w, d1) ← witness_deserializeFrom d
    let (rest, d2) ← readWitnesses is d1
    pure ({ i with txinwitness := w } :: rest, d2)

/-- `Tx.deserialize` (`tx.py` lines 40-66) with stream semantics:
4-byte version, optional `0x00 0x01` witness marker, inputs, outputs,
optional witness section, 4-byte locktime; validity is asserted before
returning when requested. -/
def Tx.deserializeFrom (d : Bytes) (assert_valid : Bool) :
    Except String (Tx × Bytes) := do
  let nVersion := fromLE (d.take 4)
  let d1 := d.drop 4
  let (witness_flag, d2) :=
    if d1.take 2 = [0, 1] then (true, d1.drop 2) else (false, d1)
  let (input_count, d3) ← varint.decodeFrom d2
  let (vin, d4) ← readTxIns input_count d3
  let (output_count, d5) ← varint.decodeFrom d4
  let (vout, d6) ← readTxOuts output_count d5
  let (vin2, d7) ← if witness_flag then readWitnesses vin d6 else pure (vin, d6)
  let nLockTime := fromLE (d7.take 4)
  let d8 := d7.drop 4
  let t : Tx := ⟨nVersion, nLockTime, vin2, vout⟩
  if assert_valid then t.assert_valid
  pure (t, d8)

/-- `Tx.deserialize` on an exact byte string (trailing bytes are
ignored, as by the Python stream). -/
def Tx.deserialize (d : Bytes) (assert_valid : Bool) : Except String Tx :=
  (Tx.deserializeFrom d assert_valid).map (·.1)

/-- `Tx.txid` (`tx.py` lines 93-95): the reversed HASH256 of the
serialization without witness data (hex string, modelled as bytes). -/
def Tx.txid (t : Tx) : Except String Bytes := do
  let s ← t.serialize false true
  pure (hash256 s).reverse

/-- Structural well-formedness of an input for the codec: 32-byte
prevout hash and decodable script. -/
def wfTxIn (i : TxIn) : Prop := i.prevout.hash.length = 32 ∧ wfScript i.scriptSig

/-- Structural well-formedness of an output for the codec. -/
def wfTxOut (o : TxOut) : Prop := wfScript o.scriptPubKey

/-- Structural well-formedness of a transaction for the codec. -/
def wfTx (t : Tx) : Prop := (∀ i ∈ t.vin, wfTxIn i) ∧ (∀ o ∈ t.vout, wfTxOut o)

instance : DecidablePred wfTxIn := fun i =>
  inferInstanceAs (Decidable (_ ∧ _))

instance : DecidablePred wfTxOut := fun o =>
  inferInstanceAs (Decidable (wfScript o.scriptPubKey))

instance : DecidablePred wfTx := fun t =>
  inferInstanceAs (Decidable (_ ∧ _))

theorem to_bytes_ok {n w : Nat} {b : Bytes} (h : to_bytes n w = .ok b) :
    b = toLE w n ∧ n < 256 ^ w := by
  unfold to_bytes at h
  split_ifs at h with h1
  simp only [Except.ok.injEq] at h
  exact ⟨h.symm, h1⟩

theorem script.serialize_ok {ts : List Token} {sb : Bytes}
    (h : script.serialize ts = .ok sb) :
    ∃ e l, script.encode ts = .ok e ∧ varint.encode e.length = .ok l ∧ sb = l ++ e := by
  rw [script.serialize] at h
  cases he : script.encode ts with
  | error e' => simp [he] at h
  | ok e =>
    cases hl : varint.encode e.length with
    | error e' => simp [he, hl] at h
    | ok l =>
      simp only [he, hl, ok_bind, pure_eq_ok, Except.ok.injEq] at h
      exact ⟨e, l, rfl, hl, h.symm⟩

theorem txIn_roundtrip {i : TxIn} {b : Bytes}
    (hwf : wfTxIn i) (h : i.serialize = .ok b) (r : Bytes) :
    TxIn.deserializeFrom (b ++ r) = .ok ({ i with txinwitness := [] }, r) := by
  rw [TxIn.serialize] at h
  cases hn : to_bytes i.prevout.n 4 with
  | error e' => simp [hn] at h
  | ok nb =>
  cases hs : script.serialize i.scriptSig with
  | error e' => simp [hn, hs] at h
  | ok ss =>
  cases hq : to_bytes i.nSequence 4 with
  | error e' => simp [hn, hs, hq] at h
  | ok sq =>
  simp only [hn, hs, hq, ok_bind, pure_eq_ok, Except.ok.injEq] at h
  subst h
  obtain ⟨e, l, he, hl, hsb⟩ := script.serialize_ok hs
  obtain ⟨hnb, hn4⟩ := to_bytes_ok hn
  obtain ⟨hsq, hq4⟩ := to_bytes_ok hq
  subst hnb hsq hsb
  simp only [TxIn.deserializeFrom, List.append_assoc]
  rw [take_append_length hwf.1, drop_append_length hwf.1,
    take_append_length (toLE_length 4 _), drop_append_length (toLE_length 4 _),
    fromLE_toLE hn4, varint.decodeFrom_encode hl]
  simp only [ok_bind]
  rw [take_append_length rfl, drop_append_length rfl, script.decode_encode_tokens hwf.2 he]
  simp only [ok_bind]
  rw [take_append_length (toLE_length 4 _), drop_append_length (toLE_length 4 _),
    fromLE_toLE hq4]
  rfl

theorem txOut_roundtrip {o : TxOut} {b : Bytes}
    (hwf : wfTxOut o) (h : o.serialize = .ok b) (r : Bytes) :
    TxOut.deserializeFrom (b ++ r) = .ok (o, r) := by
  rw [TxOut.serialize] at h
  cases hv : to_bytes o.nValue 8 with
  | error e' => simp [hv] at h
  | ok vb =>
  cases hs : script.serialize o.scriptPubKey with
  | error e' => simp [hv, hs] at h
  | ok sb =>
  simp only [hv, hs, ok_bind, pure_eq_ok, Except.ok.injEq] at h
  subst h
  obtain ⟨e, l, he, hl, hsb⟩ := script.serialize_ok hs
  obtain ⟨hvb, hv8⟩ := to_bytes_ok hv
  subst hvb hsb
  simp only [TxOut.deserializeFrom, List.append_assoc]
  rw [take_append_length (toLE_length 8 _), drop_append_length (toLE_length 8 _),
    fromLE_toLE hv8, varint.decodeFrom_encode hl]
  simp only [ok_bind]
  rw [take_append_length rfl, drop_append_length rfl, script.decode_encode_tokens hwf he]
  rfl

theorem txOut_exact_roundtrip {o : TxOut} {b : Bytes}
    (hwf : wfTxOut o) (h : o.serialize = .ok b) :
    TxOut.deserialize b = .ok o := by
  have h2 := txOut_roundtrip hwf h []
  rw [List.append_nil] at h2
  rw [TxOut.deserialize, h2]
  rfl

theorem readTxIns_insBytes {l : List TxIn} {bs : Bytes}
    (hwf : ∀ i ∈ l, wfTxIn i) (h : txInsBytes l = .ok bs) (r : Bytes) :
    readTxIns l.length (bs ++ r) =
      .ok (l.map (fun i => { i with txinwitness := [] }), r) := by
  induction l generalizing bs with
  | nil =>
    simp only [txInsBytes, Except.ok.injEq] at h
    subst h; rfl
  | cons i is ih =>
    simp only [txInsBytes] at h
    cases hb : TxIn.serialize i with
    | error e' => simp [hb] at h
    | ok b =>
    cases hrest : txInsBytes is with
    | error e' => simp [hb, hrest] at h
    | ok rest =>
    simp only [hb, hrest, ok_bind, pure_eq_ok, Except.ok.injEq] at h
    subst h
    simp only [List.length_cons, readTxIns, List.append_assoc]
    rw [txIn_roundtrip (hwf i (List.mem_cons_self i is)) hb]
    simp only [ok_bind]
    rw [ih (fun j hj => hwf j (List.mem_cons_of_mem i hj)) hrest]
    simp

theorem readTxOuts_outsBytes {l : List TxOut} {bs : Bytes}
    (hwf : ∀ o ∈ l, wfTxOut o) (h : txOutsBytes l = .ok bs) (r : Bytes) :
    readTxOuts l.length (bs ++ r) = .ok (l, r) := by
  induction l generalizing bs with
  | nil =>
    simp only [txOutsBytes, Except.ok.injEq] at h
    subst h; rfl
  | cons o os ih =>
    simp only [txOutsBytes] at h
    cases hb : TxOut.serialize o with
    | error e' => simp [hb] at h
    | ok b =>
    cases hrest : txOutsBytes os with
    | error e' => simp [hb, hrest] at h
    | ok rest =>
    simp only [hb, hrest, ok_bind, pure_eq_ok, Except.ok.injEq] at h
    subst h
    simp only [List.length_cons, readTxOuts, List.append_assoc]
    rw [txOut_roundtrip (hwf o (List.mem_cons_self o os)) hb]
    simp only [ok_bind]
    rw [ih (fun p hp => hwf p (List.mem_cons_of_mem o hp)) hrest]
    simp

theorem readWitnesses_witsBytes {l : List TxIn} {bs : Bytes}
    (h : witnessesBytes l = .ok bs) (r : Bytes) :
    readWitnesses (l.map (fun i => { i with txinwitness := [] })) (bs ++ r) =
      .ok (l, r) := by
  induction l generalizing bs with
  | nil =>
    simp only [witnessesBytes, Except.ok.injEq] at h
    subst h; rfl
  | cons i is ih =>
    simp only [witnessesBytes] at h
    cases hb : witness_serialize i.txinwitness with
    | error e' => simp [hb] at h
    | ok b =>
    cases hrest : witnessesBytes is with
    | error e' => simp [hb, hrest] at h
    | ok rest =>
    simp only [hb, hrest, ok_bind, pure_eq_ok, Except.ok.injEq] at h
    subst h
    simp only [List.map_cons, readWitnesses, List.append_assoc]
    rw [witness_deserializeFrom_serialize hb]
    simp only [ok_bind]
    rw [ih hrest]
    simp

theorem Tx.assert_valid_ok {t : Tx} (h : t.assert_valid = .ok ()) :
    t.vin ≠ [] ∧ t.vout ≠ [] := by
  unfold Tx.assert_valid at h
  split_ifs at h with h1 h2
  · exact ⟨h1, h2⟩

theorem cons_take_two_ne_marker {b : Nat} {Y : Bytes} (hb : b ≠ 0) :
    (b :: Y).take 2 ≠ [0, 1] := by
  intro hEq
  rw [List.take_succ_cons] at hEq
  exact hb (List.cons.injEq _ _ _ _ ▸ hEq).1

theorem varint.encode_append_take_two_ne_marker {n : Nat} {e : Bytes}
    (h : varint.encode n = .ok e) (hn : n ≠ 0) (X : Bytes) :
    (e ++ X).take 2 ≠ [0, 1] := by
  obtain ⟨b, tl, he, hb⟩ := varint.encode_head_ne_zero h hn
  subst he
  simp only [List.cons_append]
  exact cons_take_two_ne_marker hb

theorem any_wit_false {l : List TxIn}
    (h : l.any (fun i => i.txinwitness ≠ []) = false) :
    ∀ i ∈ l, i.txinwitness = [] := by
  intro i hi
  simpa using List.any_eq_false.mp h i hi

theorem map_clearWit_id {l : List TxIn} (h : ∀ i ∈ l, i.txinwitness = []) :
    l.map (fun i => { i with txinwitness := [] }) = l := by
  induction l with
  | nil => rfl
  | cons i is ih =>
    have hi := h i (List.mem_cons_self i is)
    simp only [List.map_cons, ih (fun j hj => h j (List.mem_cons_of_mem i hj))]
    cases i
    simp_all

theorem tx_roundtrip {t : Tx} {s : Bytes}
    (hwf : wfTx t) (h : t.serialize true true = .ok s) (r : Bytes) :
    Tx.deserializeFrom (s ++ r) true = .ok (t, r) := by
  rw [Tx.serialize] at h
  cases hav : t.assert_valid with
  | error e => simp [hav] at h
  | ok u =>
  cases u
  cases hvb : to_bytes t.nVersion 4 with
  | error e => simp [hav, hvb] at h
  | ok vb =>
  cases hic : varint.encode t.vin.length with
  | error e => simp [hav, hvb, hic] at h
  | ok ic =>
  cases hins : txInsBytes t.vin with
  | error e => simp [hav, hvb, hic, hins] at h
  | ok ins =>
  cases hoc : varint.encode t.vout.length with
  | error e => simp [hav, hvb, hic, hins, hoc] at h
  | ok oc =>
  cases houts : txOutsBytes t.vout with
  | error e => simp [hav, hvb, hic, hins, hoc, houts] at h
  | ok outs =>
  obtain ⟨hvin_ne, hvout_ne⟩ := Tx.assert_valid_ok hav
  have hv4 : t.nVersion < 256 ^ 4 := (to_bytes_ok hvb).2
  have hvbeq : vb = toLE 4 t.nVersion := (to_bytes_ok hvb).1
  subst hvbeq
  cases hw : t.vin.any (fun i => i.txinwitness ≠ []) with
  | false =>
    cases hlb : to_bytes t.nLockTime 4 with
    | error e =>
      simp only [hav, hvb, hic, hins, hoc, houts, hw, hlb, Bool.false_and,
        Bool.false_eq_true, if_false, ok_bind, error_bind, pure_eq_ok] at h
      exact Except.noConfusion h
    | ok lb =>
    have hlbeq : lb = toLE 4 t.nLockTime := (to_bytes_ok hlb).1
    have hl4 : t.nLockTime < 256 ^ 4 := (to_bytes_ok hlb).2
    subst hlbeq
    simp only [hav, hvb, hic, hins, hoc, houts, hw, hlb, Bool.false_and,
      Bool.false_eq_true, if_false, ok_bind, pure_eq_ok, Except.ok.injEq,
      ite_self] at h
    rw [← h]
    simp only [Tx.deserializeFrom, List.append_assoc, List.nil_append]
    rw [take_append_length (toLE_length 4 _), drop_append_length (toLE_length 4 _),
      fromLE_toLE hv4]
    rw [if_neg (varint.encode_append_take_two_ne_marker hic
      (by simpa using hvin_ne) _)]
    rw [varint.decodeFrom_encode hic]
    simp only [ok_bind]
    rw [readTxIns_insBytes hwf.1 hins]
    simp only [ok_bind]
    rw [varint.decodeFrom_encode hoc]
    simp only [ok_bind]
    rw [readTxOuts_outsBytes hwf.2 houts]
    simp only [ok_bind, Bool.false_eq_true, if_false, pure_eq_ok]
    rw [take_append_length (toLE_length 4 _), drop_append_length (toLE_length 4 _),
      fromLE_toLE hl4, map_clearWit_id (any_wit_false hw)]
    rw [hav]
    simp
  | true =>
    cases hwits : witnessesBytes t.vin with
    | error e =>
      simp only [hav, hvb, hic, hins, hoc, houts, hw, hwits, Bool.true_and,
        eq_self_iff_true, if_true, ok_bind, error_bind, pure_eq_ok] at h
      exact Except.noConfusion h
    | ok wb =>
    cases hlb : to_bytes t.nLockTime 4 with
    | error e => simp [hav, hvb, hic, hins, hoc, houts, hw, hwits, hlb] at h
    | ok lb =>
    have hlbeq : lb = toLE 4 t.nLockTime := (to_bytes_ok hlb).1
    have hl4 : t.nLockTime < 256 ^ 4 := (to_bytes_ok hlb).2
    subst hlbeq
    simp only [hav, hvb, hic, hins, hoc, houts, hw, hwits, hlb, Bool.true_and,
      if_true, ok_bind, pure_eq_ok, Except.ok.injEq] at h
    rw [← h]
    simp only [List.append_assoc]
    rw [take_append_length (toLE_length 4 _), drop_append_length (toLE_length 4 _)]
    simp only [Tx.deserializeFrom, List.append_assoc, List.cons_append,
      List.nil_append]
    rw [take_append_length (toLE_length 4 _), drop_append_length (toLE_length 4 _),
      fromLE_toLE hv4]
    rw [show ∀ X : Bytes, (0 :: 1 :: X).take 2 = [0, 1] from fun X => rfl]
    rw [show ∀ X : Bytes, (0 :: 1 :: X).drop 2 = X from fun X => rfl]
    simp only [eq_self_iff_true, if_true]
    rw [varint.decodeFrom_encode hic]
    simp only [ok_bind]
    rw [readTxIns_insBytes hwf.1 hins]
    simp only [ok_bind]
    rw [varint.decodeFrom_encode hoc]
    simp only [ok_bind]
    rw [readTxOuts_outsBytes hwf.2 houts]
    simp only [ok_bind, if_true]
    rw [readWitnesses_witsBytes hwits]
    simp only [ok_bind]
    rw [take_append_length (toLE_length 4 _), drop_append_length (toLE_length 4 _),
      fromLE_toLE hl4]
    rw [hav]
    simp

theorem tx_exact_roundtrip {t : Tx} {s : Bytes}
    (hwf : wfTx t) (h : t.serialize true true = .ok s) :
    Tx.deserialize s true = .ok t := by
  have h2 := tx_roundtrip hwf h []
  rw [List.append_nil] at h2
  rw [Tx.deserialize, h2]
  rfl

/-- Effectful map over a list in the `Except` monad (the embedding of
the Python `for` loops that build a list and may raise). -/
def exceptMapM {α β : Type} (f : α → Except String β) : List α → Except String (List β)
  | [] => .ok []
  | x :: xs => do
    let y ← f x
    let ys ← exceptMapM f xs
    pure (y :: ys)

/-- CPython dict assignment `d[k] = v` on an insertion-ordered
association list: an existing key keeps its position (value replaced),
a new key is appended. -/
def dictInsert {κ α : Type} [DecidableEq κ] : List (κ × α) → κ → α → List (κ × α)
  | [], k, v => [(k, v)]
  | (k0, v0) :: rest, k, v =>
    if k0 = k then (k0, v) :: rest else (k0, v0) :: dictInsert rest k v

/-- CPython `d.update(e)`: insert `e`'s entries into `d` in order. -/
def dictUpdate {κ α : Type} [DecidableEq κ] (d e : List (κ × α)) : List (κ × α) :=
  e.foldl (fun acc kv => dictInsert acc kv.1 kv.2) d

/-- CPython `d[k]`-lookup (first matching key). -/
def dictLookup {κ α : Type} [DecidableEq κ] (k : κ) : List (κ × α) → Option α
  | [] => none
  | (k0, v) :: rest => if k0 = k then some v else dictLookup k rest

/-- The Python-dict invariant: association-list keys are distinct. -/
def keysNodup {κ α : Type} (d : List (κ × α)) : Prop := (d.map Prod.fst).Nodup

instance {κ α : Type} [DecidableEq κ] : DecidablePred (keysNodup (κ := κ) (α := α)) :=
  fun d => inferInstanceAs (Decidable (d.map Prod.fst).Nodup)

/-- One `hd_keypaths` entry: the dict
`{"xpub": ..., "fingerprint": ..., "derivation_path": ...}` built by
the decoders. -/
structure HdKeypath where
  xpub : Bytes
  fingerprint : Bytes
  derivation_path : Bytes
deriving DecidableEq, Repr

/-- Modelled from the spec: the script-hash-payload extractor
collaborator (`scriptpubkey.payload_from_scriptPubKey`, §6): returns
the (type, payload) pair for the standard locking-script templates;
anything else raises. -/
def payload_from_scriptPubKey : List Token → Except String (String × Bytes)
  | [.num 0xa9, .hex h, .num 0x87] => .ok ("p2sh", h)
  | [.num 0x00, .hex h] => .ok (if h.length = 32 then "p2wsh" else "p2wpkh", h)
  | [.num 0x76, .num 0xa9, .hex h, .num 0x88, .num 0xac] => .ok ("p2pkh", h)
  | _ => .error "unknown scriptPubKey"

/-- Python truthiness of an optional-int field (`None` and `0` are
falsy). -/
def natOptTruthy : Option Nat → Bool
  | none => false
  | some n => n ≠ 0

/-- Python truthiness of an optional byte-string field (`None` and the
empty string are falsy). -/
def bytesOptTruthy : Option Bytes → Bool
  | none => false
  | some b => b ≠ []

/-- Python truthiness of an optional object field. -/
def optTruthy {α : Type} : Option α → Bool
  | none => false
  | some _ => true

/-- The `PsbtInput` record of `psbt.py` (lines 28-41), fields in
dataclass declaration order. -/
structure PsbtInput where
  non_witness_utxo : Option Tx
  witness_utxo : Option TxOut
  partial_sigs : List (Bytes × Bytes)
  sighash : Option Nat
  redeem_script : List Token
  witness_script : List Token
  hd_keypaths : List HdKeypath
  final_script_sig : List Token
  final_script_witness : List Bytes
  por_commitment : Option Bytes
  proprietary : List (Nat × List (Bytes × Bytes))
  unknown : List (Bytes × Bytes)
deriving DecidableEq, Repr

/-- The dataclass defaults of `PsbtInput` / the initial locals of
`PsbtInput.decode` (`sighash` starts at `0`). -/
def PsbtInput.init : PsbtInput :=
  ⟨none, none, [], some 0, [], [], [], [], [], none, [], []⟩

instance : Inhabited PsbtInput := ⟨PsbtInput.init⟩

/-- The proprietary-map insertion of the decoders (`psbt.py` lines
97-102): create the owner's inner dict when absent, then assign the
sub-key. -/
def propInsert : List (Nat × List (Bytes × Bytes)) → Nat → Bytes → Bytes →
    List (Nat × List (Bytes × Bytes))
  | [], owner, k, v => [(owner, [(k, v)])]
  | (o, inner) :: rest, owner, k, v =>
    if o = owner then (o, dictInsert inner k v) :: rest
    else (o, inner) :: propInsert rest owner k v

/-- One iteration of the key-dispatch loop of `PsbtInput.decode`
(`psbt.py` lines 57-104): dispatch on the first key byte, with the
source's shape `assert`s. -/
def PsbtInput.decodeStep (s : PsbtInput) (kv : Bytes × Bytes) :
    Except String PsbtInput :=
  match kv.1 with
  | [] => .error "IndexError: key"
  | t :: ktail =>
    if t = 0x00 then
      if kv.1.length = 1 then do
        let u ← Tx.deserialize kv.2 true
        pure { s with non_witness_utxo := some u }
      else .error "AssertionError: key length"
    else if t = 0x01 then
      if kv.1.length = 1 then do
        let o ← TxOut.deserialize kv.2
        pure { s with witness_utxo := some o }
      else .error "AssertionError: key length"
    else if t = 0x02 then
      if kv.1.length = 33 + 1 then
        pure { s with partial_sigs := dictInsert s.partial_sigs ktail kv.2 }
      else .error "AssertionError: key length"
    else if t = 0x03 then
      if kv.1.length = 1 then
        if kv.2.length = 4 then pure { s with sighash := some (fromLE kv.2) }
        else .error "AssertionError: value length"
      else .error "AssertionError: key length"
    else if t = 0x04 then
      if kv.1.length = 1 then do
        let ts ← script.decode kv.2
        pure { s with redeem_script := ts }
      else .error "AssertionError: key length"
    else if t = 0x05 then
      if kv.1.length = 1 then do
        let ts ← script.decode kv.2
        pure { s with witness_script := ts }
      else .error "AssertionError: key length"
    else if t = 0x06 then
      if kv.1.length = 33 + 1 then
        if kv.2.length % 4 = 0 then
          pure { s with hd_keypaths :=
            s.hd_keypaths ++ [⟨ktail, kv.2.take 4, kv.2.drop 4⟩] }
        else .error "AssertionError: value length"
      else .error "AssertionError: key length"
    else if t = 0x07 then
      if kv.1.length = 1 then do
        let ts ← script.decode kv.2
        pure { s with final_script_sig := ts }
      else .error "AssertionError: key length"
    else if t = 0x08 then
      if kv.1.length = 1 then do
        let w ← witness_deserialize kv.2
        pure { s with final_script_witness := w }
      else .error "AssertionError: key length"
    else if t = 0x09 then
      if kv.1.length = 1 then
        pure { s with por_commitment := some kv.2 }
      else .error "AssertionError: key length"
    else if t = 0xFC then do
      let pfx ← varint.decode ktail
      let enc ← varint.encode pfx
      let subkey := kv.1.drop (1 + enc.length)
      pure { s with proprietary := propInsert s.proprietary pfx subkey kv.2 }
    else
      pure { s with unknown := dictInsert s.unknown kv.1 kv.2 }

/-- `PsbtInput.decode` (`psbt.py` lines 43-123); the constructor takes
the loop's locals verbatim and `PsbtInput.assert_valid` is `pass`. -/
def PsbtInput.decode (input_map : List (Bytes × Bytes)) :
    Except String PsbtInput :=
  input_map.foldlM PsbtInput.decodeStep PsbtInput.init

/-- The partial-signature entries of `PsbtInput.serialize` (`psbt.py`
lines 135-138): fixed `22 02` key framing (1-byte tag + 33-byte
pubkey), length-prefixed signature. -/
def sigsBytes : List (Bytes × Bytes) → Except String Bytes
  | [] => .ok []
  | (k, v) :: rest => do
    let vl ← varint.encode v.length
    let tail ← sigsBytes rest
    pure ([0x22, 0x02] ++ k ++ vl ++ v ++ tail)

/-- The `hd_keypaths` entries of the serializers: fixed key prefix
(varint key length and tag byte), xpub, then length-prefixed
fingerprint+path (`psbt.py` lines 148-153, 245-250, 353-358). -/
def hdBytes (pfxBytes : Bytes) : List HdKeypath → Except String Bytes
  | [] => .ok []
  | h :: rest => do
    let keypath := h.fingerprint ++ h.derivation_path
    let kl ← varint.encode keypath.length
    let tail ← hdBytes pfxBytes rest
    pure (pfxBytes ++ h.xpub ++ kl ++ keypath ++ tail)

/-- The proprietary entries of the serializers, inner loop (`psbt.py`
lines 166-170). -/
def propInnerBytes (owner : Nat) : List (Bytes × Bytes) → Except String Bytes
  | [] => .ok []
  | (k, v) :: rest => do
    let ob ← varint.encode owner
    let key_bytes := 0xfc :: (ob ++ k)
    let kl ← varint.encode key_bytes.length
    let vl ← varint.encode v.length
    let tail ← propInnerBytes owner rest
    pure (kl ++ key_bytes ++ vl ++ v ++ tail)

/-- The proprietary entries of the serializers, outer loop. -/
def propBytes : List (Nat × List (Bytes × Bytes)) → Except String Bytes
  | [] => .ok []
  | (o, inner) :: rest => do
    let b ← propInnerBytes o inner
    let tail ← propBytes rest
    pure (b ++ tail)

/-- The unknown-field entries of the serializers (`psbt.py` lines
171-174): full key and value, each length-prefixed. -/
def unknownBytes : List (Bytes × Bytes) → Except String Bytes
  | [] => .ok []
  | (k, v) :: rest => do
    let kl ← varint.encode k.length
    let vl ← varint.encode v.length
    let tail ← unknownBytes rest
    pure (kl ++ k ++ vl ++ v ++ tail)

/-- The `non_witness_utxo` chunk of `PsbtInput.serialize`. -/
def inChunk0 (s : PsbtInput) : Except String Bytes :=
  match s.non_witness_utxo with
  | some u => do
    let utxo ← u.serialize true true
    let l ← varint.encode utxo.length
    pure ([0x01, 0x00] ++ l ++ utxo)
  | none => pure ([] : Bytes)

/-- The `witness_utxo` chunk of `PsbtInput.serialize`. -/
def inChunk1 (s : PsbtInput) : Except String Bytes :=
  match s.witness_utxo with
  | some o => do
    let utxo ← o.serialize
    let l ← varint.encode utxo.length
    pure ([0x01, 0x01] ++ l ++ utxo)
  | none => pure ([] : Bytes)

/-- The `sighash` chunk of `PsbtInput.serialize`. -/
def inChunk3 (s : PsbtInput) : Except String Bytes :=
  if natOptTruthy s.sighash then do
    let b ← to_bytes (s.sighash.getD 0) 4
    pure ([0x01, 0x03, 0x04] ++ b)
  else pure ([] : Bytes)

/-- The `redeem_script` chunk of `PsbtInput.serialize`. -/
def inChunk4 (s : PsbtInput) : Except String Bytes :=
  if s.redeem_script ≠ [] then do
    let b ← script.serialize s.redeem_script
    pure ([0x01, 0x04] ++ b)
  else pure ([] : Bytes)

/-- The `witness_script` chunk of `PsbtInput.serialize`. -/
def inChunk5 (s : PsbtInput) : Except String Bytes :=
  if s.witness_script ≠ [] then do
    let b ← script.serialize s.witness_script
    pure ([0x01, 0x05] ++ b)
  else pure ([] : Bytes)

/-- The `final_script_sig` chunk of `PsbtInput.serialize`. -/
def inChunk7 (s : PsbtInput) : Except String Bytes :=
  if s.final_script_sig ≠ [] then do
    let b ← script.serialize s.final_script_sig
    pure ([0x01, 0x07] ++ b)
  else pure ([] : Bytes)

/-- The `final_script_witness` chunk of `PsbtInput.serialize`. -/
def inChunk8 (s : PsbtInput) : Except String Bytes :=
  if s.final_script_witness ≠ [] then do
    let wit ← witness_serialize s.final_script_witness
    let l ← varint.encode wit.length
    pure ([0x01, 0x08] ++ l ++ wit)
  else pure ([] : Bytes)

/-- The `por_commitment` chunk of `PsbtInput.serialize`. -/
def inChunk9 (s : PsbtInput) : Except String Bytes :=
  if bytesOptTruthy s.por_commitment then do
    let c := s.por_commitment.getD []
    let l ← varint.encode c.length
    pure ([0x01, 0x09] ++ l ++ c)
  else pure ([] : Bytes)

/-- `PsbtInput.serialize` (`psbt.py` lines 125-175): one chunk per
field in source order; `if field:` truthiness guards falsy scalars
(empty collections contribute no bytes either way). -/
def PsbtInput.serialize (s : PsbtInput) : Except String Bytes := do
  let c0 ← inChunk0 s
  let c1 ← inChunk1 s
  let c2 ← sigsBytes s.partial_sigs
  let c3 ← inChunk3 s
  let c4 ← inChunk4 s
  let c5 ← inChunk5 s
  let c6 ← hdBytes [0x22, 0x06] s.hd_keypaths
  let c7 ← inChunk7 s
  let c8 ← inChunk8 s
  let c9 ← inChunk9 s
  let c10 ← propBytes s.proprietary
  let c11 ← unknownBytes s.unknown
  pure (c0 ++ c1 ++ c2 ++ c3 ++ c4 ++ c5 ++ c6 ++ c7 ++ c8 ++ c9 ++ c10 ++ c11)

/-- The `PsbtOutput` record of `psbt.py` (lines 184-190). -/
structure PsbtOutput where
  redeem_script : List Token
  witness_script : List Token
  hd_keypaths : List HdKeypath
  proprietary : List (Nat × List (Bytes × Bytes))
  unknown : List (Bytes × Bytes)
deriving DecidableEq, Repr

/-- The dataclass defaults of `PsbtOutput` / the initial locals of
`PsbtOutput.decode`. -/
def PsbtOutput.init : PsbtOutput := ⟨[], [], [], [], []⟩

instance : Inhabited PsbtOutput := ⟨PsbtOutput.init⟩

/-- One iteration of the key-dispatch loop of `PsbtOutput.decode`
(`psbt.py` lines 199-223). -/
def PsbtOutput.decodeStep (s : PsbtOutput) (kv : Bytes × Bytes) :
    Except String PsbtOutput :=
  match kv.1 with
  | [] => .error "IndexError: key"
  | t :: ktail =>
    if t = 0x00 then
      if kv.1.length = 1 then do
        let ts ← script.decode kv.2
        pure { s with redeem_script := ts }
      else .error "AssertionError: key length"
    else if t = 0x01 then
      if kv.1.length = 1 then do
        let ts ← script.decode kv.2
        pure { s with witness_script := ts }
      else .error "AssertionError: key length"
    else if t = 0x02 then
      if kv.1.length = 33 + 1 then
        if kv.2.length % 4 = 0 then
          pure { s with hd_keypaths :=
            s.hd_keypaths ++ [⟨ktail, kv.2.take 4, kv.2.drop 4⟩] }
        else .error "AssertionError: value length"
      else .error "AssertionError: key length"
    else if t = 0xFC then do
      let pfx ← varint.decode ktail
      let enc ← varint.encode pfx
      let subkey := kv.1.drop (1 + enc.length)
      pure { s with proprietary := propInsert s.proprietary pfx subkey kv.2 }
    else
      pure { s with unknown := dictInsert s.unknown kv.1 kv.2 }

/-- `PsbtOutput.decode` (`psbt.py` lines 192-235). -/
def PsbtOutput.decode (output_map : List (Bytes × Bytes)) :
    Except String PsbtOutput :=
  output_map.foldlM PsbtOutput.decodeStep PsbtOutput.init

/-- The `redeem_script` chunk of `PsbtOutput.serialize`. -/
def outChunk0 (s : PsbtOutput) : Except String Bytes :=
  if s.redeem_script ≠ [] then do
    let b ← script.serialize s.redeem_script
    pure ([0x01, 0x00] ++ b)
  else pure ([] : Bytes)

/-- The `witness_script` chunk of `PsbtOutput.serialize`. -/
def outChunk1 (s : PsbtOutput) : Except String Bytes :=
  if s.witness_script ≠ [] then do
    let b ← script.serialize s.witness_script
    pure ([0x01, 0x01] ++ b)
  else pure ([] : Bytes)

/-- `PsbtOutput.serialize` (`psbt.py` lines 237-261). -/
def PsbtOutput.serialize (s : PsbtOutput) : Except String Bytes := do
  let c0 ← outChunk0 s
  let c1 ← outChunk1 s
  let c2 ← hdBytes [0x22, 0x02] s.hd_keypaths
  let c3 ← propBytes s.proprietary
  let c4 ← unknownBytes s.unknown
  pure (c0 ++ c1 ++ c2 ++ c3 ++ c4)

/-- `deserialize_map`'s reading loop (`psbt.py` lines 426-439):
`partial_map` is the accumulator; a leading zero byte terminates; the
consumed varint length is recovered by re-encoding the decoded value
(the source's `data[len(varint.encode(key_len)):]`). -/
def deserialize_map_go (fuel : Nat) (m : List (Bytes × Bytes)) (data : Bytes) :
    Except String (List (Bytes × Bytes) × Bytes) :=
  match fuel, data with
  | _, [] => .error "IndexError: data"
  | 0, _ :: _ => .error "unreachable: fuel"
  | fuel + 1, b :: rest =>
    if b = 0 then .ok (m, rest)
    else do
      let key_len ← varint.decode (b :: rest)
      let enc ← varint.encode key_len
      let d1 := (b :: rest).drop enc.length
      let key := d1.take key_len
      let d2 := d1.drop key_len
      let value_len ← varint.decode d2
      let enc2 ← varint.encode value_len
      let d3 := d2.drop enc2.length
      let value := d3.take value_len
      let d4 := d3.drop value_len
      if key ∈ m.map Prod.fst then Except.error "Malformed psbt: duplicate keys"
      else deserialize_map_go fuel (m ++ [(key, value)]) d4

/-- `deserialize_map` (`psbt.py` lines 423-439).  The reading loop is
given the buffer length as structural fuel, which always suffices
since every iteration consumes at least one byte. -/
def deserialize_map (data : Bytes) :
    Except String (List (Bytes × Bytes) × Bytes) :=
  if data.length = 0 then .error "Malformed psbt: at least a map is missing"
  else deserialize_map_go data.length [] data

/-- The serialized form of one key-value pair in the §4.2 map grammar
(varint key length, key, varint value length, value): the shape each
serializer emits per field entry. -/
def encodeEntry (kv : Bytes × Bytes) : Except String Bytes := do
  let kl ← varint.encode kv.1.length
  let vl ← varint.encode kv.2.length
  pure (kl ++ kv.1 ++ vl ++ kv.2)

/-- The serialized body of a key-value map (§4.2), without the trailing
`0x00` terminator. -/
def encodeEntries : List (Bytes × Bytes) → Except String Bytes
  | [] => .ok []
  | kv :: rest => do
    let e ← encodeEntry kv
    let tail ← encodeEntries rest
    pure (e ++ tail)

/-- The `Psbt` container of `psbt.py` (lines 270-278). -/
structure Psbt where
  tx : Tx
  inputs : List PsbtInput
  outputs : List PsbtOutput
  version : Option Nat
  hd_keypaths : List HdKeypath
  proprietary : List (Nat × List (Bytes × Bytes))
  unknown : List (Bytes × Bytes)
deriving DecidableEq, Repr

/-- The locals of the global-map loop of `Psbt.deserialize`; `tx` is
unbound (`none`) until the `0x00` key is seen. -/
structure GlobalState where
  tx : Option Tx
  version : Nat
  hd_keypaths : List HdKeypath
  proprietary : List (Nat × List (Bytes × Bytes))
  unknown : List (Bytes × Bytes)
deriving DecidableEq, Repr

/-- One iteration of the global-map loop of `Psbt.deserialize`
(`psbt.py` lines 295-319). -/
def globalStep (s : GlobalState) (kv : Bytes × Bytes) :
    Except String GlobalState :=
  match kv.1 with
  | [] => .error "IndexError: key"
  | t :: ktail =>
    if t = 0x00 then
      if kv.1.length = 1 then do
        let tx ← Tx.deserialize kv.2 true
        pure { s with tx := some tx }
      else .error "AssertionError: key length"
    else if t = 0x01 then
      if kv.1.length = 78 + 1 then
        if kv.2.length % 4 = 0 then
          pure { s with hd_keypaths :=
            s.hd_keypaths ++ [⟨ktail, kv.2.take 4, kv.2.drop 4⟩] }
        else .error "AssertionError: value length"
      else .error "AssertionError: key length"
    else if t = 0xFB then
      if kv.2.length = 4 then pure { s with version := fromLE kv.2 }
      else .error "AssertionError: value length"
    else if t = 0xFC then do
      let pfx ← varint.decode ktail
      let enc ← varint.encode pfx
      let subkey := kv.1.drop (1 + enc.length)
      pure { s with proprietary := propInsert s.proprietary pfx subkey kv.2 }
    else
      pure { s with unknown := dictInsert s.unknown kv.1 kv.2 }

/-- The per-record loops of `Psbt.deserialize` (lines 324-332): consume
`n` maps from the stream and decode each. -/
def readRecordMaps {α : Type} (decoder : List (Bytes × Bytes) → Except String α) :
    Nat → Bytes → Except String (List α × Bytes)
  | 0, d => .ok ([], d)
  | n + 1, d => do
    let (m, d1) ← deserialize_map d
    let a ← decoder m
    let (rest, d2) ← readRecordMaps decoder n d1
    pure (a :: rest, d2)

/-- The first loop of `Psbt.assert_valid` (lines 380-382): the skeleton
carries no unlocking data. -/
def checkUnsignedIn : List TxIn → Except String Unit
  | [] => .ok ()
  | v :: rest =>
    if v.scriptSig = [] then
      if v.txinwitness = [] then checkUnsignedIn rest
      else .error "AssertionError: txinwitness"
    else .error "AssertionError: scriptSig"

/-- One iteration of the script-check loop of `Psbt.assert_valid`
(`psbt.py` lines 388-420).  `spk` is the Python local `scriptPubKey`:
it is never cleared between iterations, so a record with no UTXO reads
the previous iteration's value; `none` models the unbound state (a
Python `NameError` when read). -/
def checkInput (spk : Option (List Token)) (tx_in : TxIn) (inp : PsbtInput) :
    Except String (Option (List Token)) := do
  let spk1 ← match inp.non_witness_utxo with
    | some u => do
      let ti ← u.txid
      if ti = tx_in.prevout.hash then
        match u.vout[tx_in.prevout.n]? with
        | some o => pure (some o.scriptPubKey)
        | none => Except.error "IndexError: vout"
      else Except.error "AssertionError: txid"
    | none =>
      match inp.witness_utxo with
      | some w => pure (some w.scriptPubKey)
      | none => pure spk
  if inp.redeem_script ≠ [] then do
    let enc ← script.encode inp.redeem_script
    match spk1 with
    | none => Except.error "NameError: scriptPubKey"
    | some sp => do
      let pl ← payload_from_scriptPubKey sp
      if hash160 enc = pl.2 then pure ()
      else Except.error "AssertionError: redeem_script"
  let spk2 ← if inp.witness_script ≠ [] then do
      let spkA ← match inp.non_witness_utxo with
        | some u =>
          match u.vout[tx_in.prevout.n]? with
          | some o => pure (some o.scriptPubKey)
          | none => Except.error "IndexError: vout"
        | none =>
          match inp.witness_utxo with
          | some w => pure (some w.scriptPubKey)
          | none => pure spk1
      let spkB := if inp.redeem_script ≠ [] then some inp.redeem_script else spkA
      let enc ← script.encode inp.witness_script
      match spkB with
      | none => Except.error "NameError: scriptPubKey"
      | some sp => do
        let pl ← payload_from_scriptPubKey sp
        if sha256 enc = pl.2 then pure spkB
        else Except.error "AssertionError: witness_script"
    else pure spk1
  pure spk2

/-- The script-check loop of `Psbt.assert_valid` over all inputs,
threading the Python-local `scriptPubKey` across iterations. -/
def checkInputs (inputs : List PsbtInput) :
    List TxIn → Nat → Option (List Token) → Except String Unit
  | [], _, _ => .ok ()
  | v :: rest, i, spk => do
    match inputs[i]? with
    | none => Except.error "IndexError: inputs"
    | some inp => do
      let spk2 ← checkInput spk v inp
      checkInputs inputs rest (i + 1) spk2

/-- `Psbt.assert_valid` (`psbt.py` lines 379-420); the per-record
`assert_valid` calls are `pass`. -/
def Psbt.assert_valid (p : Psbt) : Except String Unit := do
  checkUnsignedIn p.tx.vin
  checkInputs p.inputs p.tx.vin 0 none

/-- `Psbt.deserialize` (`psbt.py` lines 280-346), on the
base64-stripped bytes: magic check, global map, one input record per
skeleton input, one output record per skeleton output, then the
validator. -/
def Psbt.deserialize (data : Bytes) : Except String Psbt := do
  if data.take 5 = [0x70, 0x73, 0x62, 0x74, 0xff] then do
    let (global_map, d1) ← deserialize_map (data.drop 5)
    let gs ← global_map.foldlM globalStep ⟨none, 0, [], [], []⟩
    match gs.tx with
    | none => Except.error "NameError: tx"
    | some tx => do
      let (inputs, d2) ← readRecordMaps PsbtInput.decode tx.vin.length d1
      let (outputs, _) ← readRecordMaps PsbtOutput.decode tx.vout.length d2
      let psbt : Psbt := ⟨tx, inputs, outputs, some gs.version, gs.hd_keypaths,
        gs.proprietary, gs.unknown⟩
      psbt.assert_valid
      pure psbt
  else Except.error "Malformed psbt: missing magic bytes"

/-- The record loops of `Psbt.serialize` (lines 373-376): each record's
bytes followed by its map terminator. -/
def recordsBytes {α : Type} (ser : α → Except String Bytes) :
    List α → Except String Bytes
  | [] => .ok []
  | x :: rest => do
    let b ← ser x
    let tail ← recordsBytes ser rest
    pure (b ++ [0x00] ++ tail)

/-- `Psbt.serialize` (`psbt.py` lines 348-377), producing the bytes
under the base64 transport wrapper: magic, global map (transaction
first), terminator, then the input and output records. -/
def glChunkV (p : Psbt) : Except String Bytes :=
  if natOptTruthy p.version then do
    let b ← to_bytes (p.version.getD 0) 4
    pure ([0x01, 0xfb, 0x04] ++ b)
  else pure ([] : Bytes)

def Psbt.serialize (p : Psbt) : Except String Bytes := do
  let tx ← p.tx.serialize true true
  let txl ← varint.encode tx.length
  let g1 ← hdBytes [0x4f, 0x01] p.hd_keypaths
  let g2 ← glChunkV p
  let g3 ← propBytes p.proprietary
  let g4 ← unknownBytes p.unknown
  let ins ← recordsBytes PsbtInput.serialize p.inputs
  let outs ← recordsBytes PsbtOutput.serialize p.outputs
  pure ([0x70, 0x73, 0x62, 0x74, 0xff] ++ [0x01, 0x00] ++ txl ++ tx
    ++ g1 ++ g2 ++ g3 ++ g4 ++ [0x00] ++ ins ++ outs)

/-- The scalar branch of `_combine` (`psbt.py` lines 473-477): when the
later record's field is truthy it must match a truthy earlier value
(`assert`, message = field name) or replaces a falsy one. -/
def mergeScalar {α : Type} [DecidableEq α] (truthy : α → Bool) (a b : α)
    (field : String) : Except String α :=
  if truthy b then
    if truthy a then (if b = a then .ok a else .error field)
    else .ok b
  else .ok a

/-- The sequence branch of `_combine` (lines 465-471): append the later
record's missing elements to a non-empty earlier list, else take the
later list verbatim. -/
def mergeList {α : Type} [DecidableEq α] (a b : List α) : List α :=
  if a ≠ [] then b.foldl (fun acc x => if x ∈ acc then acc else acc ++ [x]) a
  else b

/-- The mapping branch of `_combine` (lines 459-463): `dict.update`
into a non-empty earlier dict, else take the later dict verbatim. -/
def mergeDict {κ α : Type} [DecidableEq κ] [DecidableEq α]
    (a b : List (κ × α)) : List (κ × α) :=
  if a ≠ [] then dictUpdate a b else b

/-- `_combine`'s reflective field loop on a `PsbtInput`, expanded
field-by-field in dataclass declaration (`__dict__`) order. -/
def combineInput2 (out m : PsbtInput) : Except String PsbtInput := do
  let nwu ← mergeScalar optTruthy out.non_witness_utxo m.non_witness_utxo
    "non_witness_utxo"
  let wu ← mergeScalar optTruthy out.witness_utxo m.witness_utxo "witness_utxo"
  let sigs := mergeDict out.partial_sigs m.partial_sigs
  let sh ← mergeScalar natOptTruthy out.sighash m.sighash "sighash"
  let rs := mergeList out.redeem_script m.redeem_script
  let ws := mergeList out.witness_script m.witness_script
  let hd := mergeList out.hd_keypaths m.hd_keypaths
  let fss := mergeList out.final_script_sig m.final_script_sig
  let fsw := mergeList out.final_script_witness m.final_script_witness
  let por ← mergeScalar bytesOptTruthy out.por_commitment m.por_commitment
    "por_commitment"
  let prop := mergeDict out.proprietary m.proprietary
  let unk := mergeDict out.unknown m.unknown
  pure ⟨nwu, wu, sigs, sh, rs, ws, hd, fss, fsw, por, prop, unk⟩

/-- `_combine`'s reflective field loop on a `PsbtOutput`. -/
def combineOutput2 (out m : PsbtOutput) : Except String PsbtOutput := do
  let rs := mergeList out.redeem_script m.redeem_script
  let ws := mergeList out.witness_script m.witness_script
  let hd := mergeList out.hd_keypaths m.hd_keypaths
  let prop := mergeDict out.proprietary m.proprietary
  let unk := mergeDict out.unknown m.unknown
  pure ⟨rs, ws, hd, prop, unk⟩

/-- `_combine` (`psbt.py` lines 452-479) on an input-record column:
fold the field-wise merge over `maps[1:]` starting from `maps[0]`
(which the Python mutates in place); `maps[0]` of an empty column is an
`IndexError`; the final `assert_valid` is `pass`. -/
def _combine : List PsbtInput → Except String PsbtInput
  | [] => .error "IndexError: maps"
  | m0 :: rest => rest.foldlM combineInput2 m0

/-- `_combine` on an output-record column. -/
def _combine_outputs : List PsbtOutput → Except String PsbtOutput
  | [] => .error "IndexError: maps"
  | m0 :: rest => rest.foldlM combineOutput2 m0

/-- `combine_psbts` (`psbt.py` lines 482-504), including its aliasing
quirks: `psbt` is the Python loop variable — the LAST container, and
unbound (`NameError`) when a single container is passed, so the record
counts come from the last container; the combined input records are
visible in `final_psbt = psbts[0]` only through `_combine`'s in-place
mutation of `psbts[0].inputs[x]`, so input-list elements beyond the
last container's input count stay untouched; the combined output list
is assigned to `final_psbt` directly. -/
def combine_psbts (psbts : List Psbt) : Except String Psbt :=
  match psbts with
  | [] => .error "IndexError: psbts"
  | p0 :: rest => do
    let txid0 ← p0.tx.txid
    let _ ← exceptMapM (fun p => do
      let ti ← p.tx.txid
      if ti = txid0 then pure () else Except.error "AssertionError: txid") rest
    match rest.getLast? with
    | none => Except.error "NameError: psbt"
    | some plast => do
      let cols ← exceptMapM (fun x => do
        let col ← exceptMapM (fun p =>
          match p.inputs[x]? with
          | some v => Except.ok v
          | none => Except.error "IndexError: inputs") (p0 :: rest)
        _combine col) (List.range plast.inputs.length)
      let colsOut ← exceptMapM (fun x => do
        let col ← exceptMapM (fun p =>
          match p.outputs[x]? with
          | some v => Except.ok v
          | none => Except.error "IndexError: outputs") (p0 :: rest)
        _combine_outputs col) (List.range plast.outputs.length)
      let inputs2 := p0.inputs.mapIdx (fun j v => cols.getD j v)
      let unk := (p0 :: rest).foldl
        (fun acc p => if acc ≠ [] then dictUpdate acc p.unknown else p.unknown)
        p0.unknown
      pure { p0 with inputs := inputs2, outputs := colsOut, unknown := unk }

/-- The per-input transition of `finalize_psbt` (`psbt.py` lines
509-535): `assert partial_sigs`, build the final fields (witness path
or legacy path), then clear the signing-intermediate fields. -/
def finalizeInput (psbt_in : PsbtInput) : Except String PsbtInput := do
  if psbt_in.partial_sigs = [] then Except.error "AssertionError: partial_sigs"
  let rsEnc ← script.encode psbt_in.redeem_script
  if psbt_in.witness_script ≠ [] then do
    let wsEnc ← script.encode psbt_in.witness_script
    let fsw0 := psbt_in.partial_sigs.map Prod.snd ++ [wsEnc]
    let fsw := if psbt_in.partial_sigs.length > 1 then [] :: fsw0 else fsw0
    pure { psbt_in with
      final_script_sig := [Token.hex rsEnc],
      final_script_witness := fsw,
      partial_sigs := [], sighash := some 0, redeem_script := [],
      witness_script := [], hd_keypaths := [], por_commitment := none }
  else do
    let fss0 := psbt_in.partial_sigs.map (fun kv => Token.hex kv.2) ++
      [Token.hex rsEnc]
    let fss := if psbt_in.partial_sigs.length > 1 then Token.num 0 :: fss0
      else fss0
    pure { psbt_in with
      final_script_sig := fss,
      partial_sigs := [], sighash := some 0, redeem_script := [],
      witness_script := [], hd_keypaths := [], por_commitment := none }

/-- `finalize_psbt` (`psbt.py` lines 507-536): deep-copies the
container, then finalizes every input record. -/
def finalize_psbt (psbt : Psbt) : Except String Psbt := do
  let inputs ← exceptMapM finalizeInput psbt.inputs
  pure { psbt with inputs := inputs }

/-- `extract_tx` (`psbt.py` lines 539-545).  The Python mutates the
transaction object bound to the container in place and returns that
same object; the embedding returns both the transaction and the
post-state container, whose `tx` is that same value. -/
def extract_tx (psbt : Psbt) : Except String (Tx × Psbt) := do
  let vin2 ← exceptMapM (fun iv : Nat × TxIn =>
    match psbt.inputs[iv.1]? with
    | some inp => Except.ok { iv.2 with
        scriptSig := inp.final_script_sig,
        txinwitness := if inp.final_script_witness ≠ []
          then inp.final_script_witness else iv.2.txinwitness }
    | none => Except.error "IndexError: inputs") psbt.tx.vin.enum
  let tx2 := { psbt.tx with vin := vin2 }
  pure (tx2, { psbt with tx := tx2 })

/-- `psbt_in._deserialize_partial_sigs` (`psbt_in.py` lines 81-88): the
repo's newer BIP-174 input decoder accepts a partial-signature key iff
exactly 33 or 65 bytes (a compressed or uncompressed public key) follow
the tag byte. -/
def _deserialize_partial_sigs (k v : Bytes) : Except String (List (Bytes × Bytes)) :=
  if k.length - 1 = 33 ∨ k.length - 1 = 65 then .ok [(k.drop 1, v)]
  else .error "invalid partial signature pubkey length"

theorem encodeEntry_ok {k v e : Bytes} (h : encodeEntry (k, v) = .ok e) :
    ∃ kl vl, varint.encode k.length = .ok kl ∧ varint.encode v.length = .ok vl ∧
      e = kl ++ k ++ vl ++ v := by
  rw [encodeEntry] at h
  cases hkl : varint.encode k.length with
  | error e' => simp [hkl] at h
  | ok kl =>
  cases hvl : varint.encode v.length with
  | error e' => simp [hkl, hvl] at h
  | ok vl =>
  simp only [hkl, hvl, ok_bind, pure_eq_ok, Except.ok.injEq] at h
  exact ⟨kl, vl, rfl, rfl, h.symm⟩

theorem deserialize_map_go_step {k v e X : Bytes} {fuel : Nat}
    {acc : List (Bytes × Bytes)}
    (hk : k ≠ []) (he : encodeEntry (k, v) = .ok e) :
    deserialize_map_go (fuel + 1) acc (e ++ X) =
      if k ∈ acc.map Prod.fst then .error "Malformed psbt: duplicate keys"
      else deserialize_map_go fuel (acc ++ [(k, v)]) X := by
  obtain ⟨kl, vl, hkl, hvl, hE⟩ := encodeEntry_ok he
  subst hE
  have hklen : k.length ≠ 0 := by simpa using hk
  obtain ⟨b, klt, hb_eq, hb⟩ := varint.encode_head_ne_zero hkl hklen
  subst hb_eq
  simp only [List.append_assoc, List.cons_append]
  simp only [deserialize_map_go]
  rw [if_neg hb]
  rw [show (b :: (klt ++ (k ++ (vl ++ (v ++ X))))) =
    ((b :: klt) ++ (k ++ (vl ++ (v ++ X)))) from rfl]
  rw [varint.decode_encode hkl]
  simp only [ok_bind]
  rw [hkl]
  simp only [ok_bind]
  rw [drop_append_length rfl, take_append_length rfl, drop_append_length rfl,
    varint.decode_encode hvl]
  simp only [ok_bind]
  rw [hvl]
  simp only [ok_bind]
  rw [drop_append_length rfl, take_append_length rfl, drop_append_length rfl]

theorem deserialize_map_go_entries {es : List (Bytes × Bytes)} {bs : Bytes}
    (hkeys : ∀ kv ∈ es, kv.1 ≠ []) (h : encodeEntries es = .ok bs) :
    ∀ fuel acc rest, es.length + 1 ≤ fuel →
      ((acc.map Prod.fst ++ es.map Prod.fst).Nodup) →
      deserialize_map_go fuel acc (bs ++ 0 :: rest) = .ok (acc ++ es, rest) := by
  induction es generalizing bs with
  | nil =>
    simp only [encodeEntries, Except.ok.injEq] at h
    subst h
    intro fuel acc rest hf _
    match fuel with
    | f + 1 => simp [deserialize_map_go]
  | cons kv es ih =>
    simp only [encodeEntries] at h
    cases hE : encodeEntry kv with
    | error e' => simp [hE] at h
    | ok e =>
    cases hT : encodeEntries es with
    | error e' => simp [hE, hT] at h
    | ok tail =>
    simp only [hE, hT, ok_bind, pure_eq_ok, Except.ok.injEq] at h
    subst h
    intro fuel acc rest hf hnd
    match fuel with
    | f + 1 =>
      have hk1 : kv.1 ≠ [] := hkeys kv (List.mem_cons_self kv es)
      have hstep := @deserialize_map_go_step kv.1 kv.2 e
        (tail ++ 0 :: rest) f acc hk1 hE
      rw [List.append_assoc, hstep]
      have hnotin : kv.1 ∉ acc.map Prod.fst := by
        rw [List.nodup_append] at hnd
        intro hmem
        exact hnd.2.2 hmem (List.mem_cons_self kv.1 _)
      rw [if_neg hnotin]
      have hnd' : ((acc ++ [kv]).map Prod.fst ++ es.map Prod.fst).Nodup := by
        simpa [List.append_assoc] using hnd
      rw [ih (fun u hu => hkeys u (List.mem_cons_of_mem kv hu)) hT f (acc ++ [kv])
        rest (by simpa using hf) hnd']
      simp

theorem deserialize_map_go_dup {es : List (Bytes × Bytes)} {bs : Bytes}
    (hkeys : ∀ kv ∈ es, kv.1 ≠ []) (h : encodeEntries es = .ok bs) :
    ∀ fuel acc rest, es.length + 1 ≤ fuel →
      (acc.map Prod.fst).Nodup →
      ¬ ((acc.map Prod.fst ++ es.map Prod.fst).Nodup) →
      deserialize_map_go fuel acc (bs ++ 0 :: rest) =
        .error "Malformed psbt: duplicate keys" := by
  induction es generalizing bs with
  | nil =>
    intro fuel acc rest _ hacc hnd
    exact absurd (by simpa using hacc) hnd
  | cons kv es ih =>
    simp only [encodeEntries] at h
    cases hE : encodeEntry kv with
    | error e' => simp [hE] at h
    | ok e =>
    cases hT : encodeEntries es with
    | error e' => simp [hE, hT] at h
    | ok tail =>
    simp only [hE, hT, ok_bind, pure_eq_ok, Except.ok.injEq] at h
    subst h
    intro fuel acc rest hf hacc hnd
    match fuel with
    | f + 1 =>
      have hk1 : kv.1 ≠ [] := hkeys kv (List.mem_cons_self kv es)
      have hstep := @deserialize_map_go_step kv.1 kv.2 e
        (tail ++ 0 :: rest) f acc hk1 hE
      rw [List.append_assoc, hstep]
      by_cases hmem : kv.1 ∈ acc.map Prod.fst
      · rw [if_pos hmem]
      · rw [if_neg hmem]
        have hacc' : ((acc ++ [kv]).map Prod.fst).Nodup := by
          simp only [List.map_append, List.map_cons, List.map_nil]
          rw [List.nodup_append]
          refine ⟨hacc, List.nodup_singleton _, fun a ha hb => ?_⟩
          simp only [List.mem_singleton] at hb
          exact hmem (hb ▸ ha)
        have hnd' : ¬ ((acc ++ [kv]).map Prod.fst ++ es.map Prod.fst).Nodup := by
          intro hcon
          exact hnd (by simpa [List.append_assoc] using hcon)
        exact ih (fun u hu => hkeys u (List.mem_cons_of_mem kv hu)) hT f
          (acc ++ [kv]) rest (by simpa using hf) hacc' hnd'

theorem encodeEntries_length_le {es : List (Bytes × Bytes)} {bs : Bytes}
    (h : encodeEntries es = .ok bs) : es.length ≤ bs.length := by
  induction es generalizing bs with
  | nil => simp
  | cons kv es ih =>
    simp only [encodeEntries] at h
    cases hE : encodeEntry kv with
    | error e' => simp [hE] at h
    | ok e =>
    cases hT : encodeEntries es with
    | error e' => simp [hE, hT] at h
    | ok tail =>
    simp only [hE, hT, ok_bind, pure_eq_ok, Except.ok.injEq] at h
    subst h
    obtain ⟨kl, vl, hkl, hvl, hEe⟩ := encodeEntry_ok (k := kv.1) (v := kv.2)
      (by simpa using hE)
    have : 1 ≤ kl.length := varint.encode_length_pos hkl
    have := ih hT
    simp only [hEe, List.length_append, List.length_cons]
    omega

theorem deserialize_map_entries {es : List (Bytes × Bytes)} {bs : Bytes}
    (hkeys : ∀ kv ∈ es, kv.1 ≠ []) (h : encodeEntries es = .ok bs)
    (hnd : (es.map Prod.fst).Nodup) (rest : Bytes) :
    deserialize_map (bs ++ 0 :: rest) = .ok (es, rest) := by
  rw [deserialize_map, if_neg (by simp)]
  have hlen := encodeEntries_length_le h
  have := deserialize_map_go_entries hkeys h (bs ++ 0 :: rest).length [] rest
    (by simp only [List.length_append, List.length_cons]; omega)
    (by simpa using hnd)
  simpa using this

theorem mapM_ok_cons {α β : Type} {x : α} {xs : List α}
    {f : α → Except String β} {l' : List β}
    (h : exceptMapM f (x :: xs) = .ok l') :
    ∃ y ys, f x = .ok y ∧ exceptMapM f xs = .ok ys ∧ l' = y :: ys := by
  rw [exceptMapM] at h
  cases hy : f x with
  | error e' => simp [hy] at h
  | ok y =>
  cases hys : exceptMapM f xs with
  | error e' => simp [hy, hys] at h
  | ok ys =>
  simp only [hy, hys, ok_bind, pure_eq_ok, Except.ok.injEq] at h
  exact ⟨y, ys, rfl, rfl, h.symm⟩

theorem mapM_ok_of_forall {α β : Type} {l : List α} {f : α → Except String β}
    {g : α → β} (h : ∀ x ∈ l, f x = .ok (g x)) :
    exceptMapM f l = .ok (l.map g) := by
  induction l with
  | nil => rfl
  | cons x xs ih =>
    rw [exceptMapM, h x (List.mem_cons_self x xs),
      ih (fun u hu => h u (List.mem_cons_of_mem x hu))]
    simp

theorem mapM_isOk_of_forall {α β : Type} {l : List α} {f : α → Except String β}
    (h : ∀ x ∈ l, ∃ y, f x = .ok y) : ∃ l', exceptMapM f l = .ok l' := by
  induction l with
  | nil => exact ⟨[], rfl⟩
  | cons x xs ih =>
    obtain ⟨y, hy⟩ := h x (List.mem_cons_self x xs)
    obtain ⟨ys, hys⟩ := ih (fun u hu => h u (List.mem_cons_of_mem x hu))
    exact ⟨y :: ys, by rw [exceptMapM, hy, hys]; simp⟩

theorem mapM_ok_length {α β : Type} {l : List α} {f : α → Except String β}
    {l' : List β} (h : exceptMapM f l = .ok l') : l'.length = l.length := by
  induction l generalizing l' with
  | nil =>
    simp only [exceptMapM, Except.ok.injEq] at h
    subst h; rfl
  | cons x xs ih =>
    obtain ⟨y, ys, _, hys, hl⟩ := mapM_ok_cons h
    subst hl
    simp [ih hys]

theorem mapM_ok_mem {α β : Type} {l : List α} {f : α → Except String β}
    {l' : List β} (h : exceptMapM f l = .ok l') {x : α} (hx : x ∈ l) :
    ∃ y ∈ l', f x = .ok y := by
  induction l generalizing l' with
  | nil => cases hx
  | cons a xs ih =>
    obtain ⟨y, ys, hy, hys, hl⟩ := mapM_ok_cons h
    subst hl
    rcases List.mem_cons.mp hx with rfl | hx2
    · exact ⟨y, List.mem_cons_self y ys, hy⟩
    · obtain ⟨z, hz, hfz⟩ := ih hys hx2
      exact ⟨z, List.mem_cons_of_mem y hz, hfz⟩

theorem mapM_ok_mem_rev {α β : Type} {l : List α} {f : α → Except String β}
    {l' : List β} (h : exceptMapM f l = .ok l') {y : β} (hy : y ∈ l') :
    ∃ x ∈ l, f x = .ok y := by
  induction l generalizing l' with
  | nil =>
    simp only [exceptMapM, Except.ok.injEq] at h
    subst h; cases hy
  | cons a xs ih =>
    obtain ⟨z, zs, hz, hzs, hl⟩ := mapM_ok_cons h
    subst hl
    rcases List.mem_cons.mp hy with rfl | hy2
    · exact ⟨a, List.mem_cons_self a xs, hz⟩
    · obtain ⟨x, hx, hfx⟩ := ih hzs hy2
      exact ⟨x, List.mem_cons_of_mem a hx, hfx⟩

theorem mapM_ok_getElem {α β : Type} {l : List α} {f : α → Except String β}
    {l' : List β} (h : exceptMapM f l = .ok l') :
    ∀ i, ∀ hi : i < l.length, ∃ hi' : i < l'.length, f l[i] = .ok l'[i] := by
  induction l generalizing l' with
  | nil => intro i hi; cases (Nat.not_lt_zero i) hi
  | cons a xs ih =>
    obtain ⟨y, ys, hy, hys, hl⟩ := mapM_ok_cons h
    subst hl
    intro i hi
    match i with
    | 0 => exact ⟨by simp, by simpa using hy⟩
    | j + 1 =>
      obtain ⟨hj', hfj⟩ := ih hys j (by simpa using hi)
      exact ⟨by simpa using hj', by simpa using hfj⟩

/-- A minimal skeleton input for concrete instances. -/
def tIn0 : TxIn := ⟨⟨List.replicate 32 0, 0⟩, [], [], 0⟩

/-- A minimal output for concrete instances. -/
def tOut0 : TxOut := ⟨0, []⟩

/-- A minimal valid transaction for concrete instances. -/
def tx0 : Tx := ⟨1, 0, [tIn0], [tOut0]⟩

/-- The serialization of `tx0`. -/
def txBytes0 : Bytes :=
  [1, 0, 0, 0] ++ [1]
    ++ (List.replicate 32 0 ++ [0, 0, 0, 0] ++ [0] ++ [0, 0, 0, 0])
    ++ [1] ++ (List.replicate 8 0 ++ [0]) ++ [0, 0, 0, 0]

/-- A minimal container wrapping `tx0` with one empty input record and
one empty output record. -/
def psbt9 : Psbt := ⟨tx0, [PsbtInput.init], [PsbtOutput.init], some 0, [], [], []⟩

/-- The wire bytes of `psbt9` (and of every container that serializes
to the canonical minimal form). -/
def blob9 : Bytes :=
  [0x70, 0x73, 0x62, 0x74, 0xff] ++ [1, 0] ++ [60] ++ txBytes0
    ++ [0] ++ [0] ++ [0]

/-- An input record carrying a redeem script and no UTXO. -/
def inp7 : PsbtInput := { PsbtInput.init with redeem_script := [Token.num 0x51] }

/-- A container whose single input record has a redeem script but
neither UTXO field. -/
def psbt7 : Psbt := ⟨tx0, [inp7], [PsbtOutput.init], some 0, [], [], []⟩

/-- **C6** When decoding an Input Record, the claim says a
partial-signature key (tag `0x02`) is accepted iff exactly 33 or 65
bytes follow the tag.  The repo's BIP-174 input decoder
`_deserialize_partial_sigs` (`psbt_in.py` lines 81-88) behaves exactly
so, but `psbt.py`'s `PsbtInput.decode` (line 65, `assert len(key) ==
33 + 1`) rejects a 65-byte (uncompressed) public key — the exhibited
divergence. -/
theorem c6_partial_sig_key_length :
    (PsbtInput.decode [(0x02 :: List.replicate 65 7, [0x30, 0x06])]).isOk = false
    ∧ PsbtInput.decode [(0x02 :: List.replicate 33 7, [0x30, 0x06])]
        = .ok { PsbtInput.init with
            partial_sigs := [(List.replicate 33 7, [0x30, 0x06])] }
    ∧ _deserialize_partial_sigs (0x02 :: List.replicate 65 7) [0x30, 0x06]
        = .ok [(List.replicate 65 7, [0x30, 0x06])]
    ∧ _deserialize_partial_sigs (0x02 :: List.replicate 33 7) [0x30, 0x06]
        = .ok [(List.replicate 33 7, [0x30, 0x06])]
    ∧ (_deserialize_partial_sigs (0x02 :: List.replicate 34 7) [0x30, 0x06]).isOk
        = false := by
  decide

/-- **C7** (counterexample): a Container whose input record has neither
UTXO field but a set `redeem_script` makes the Validator fail (the
Python reads the unbound local `scriptPubKey` — a `NameError`), not
skip the check as the claim states. -/
theorem c7_counterexample :
    inp7.non_witness_utxo = none ∧ inp7.witness_utxo = none ∧
    inp7.redeem_script ≠ [] ∧ psbt7.inputs = [inp7] ∧
    Psbt.assert_valid psbt7 = .error "NameError: scriptPubKey" := by
  decide

/-- **C7** (amended): the Validator's script checks are skipped for a
transaction input whose Record has neither UTXO field present,
provided that Record also leaves `redeem_script` and `witness_script`
unset: the per-input check succeeds and passes the `scriptPubKey`
state through unchanged. -/
theorem c7_no_utxo_no_scripts_check_skipped (spk : Option (List Token))
    (t : TxIn) (inp : PsbtInput)
    (h1 : inp.non_witness_utxo = none) (h2 : inp.witness_utxo = none)
    (h3 : inp.redeem_script = []) (h4 : inp.witness_script = []) :
    checkInput spk t inp = .ok spk := by
  simp [checkInput, h1, h2, h3, h4]

theorem c7_witness :
    checkInput none tIn0 PsbtInput.init = .ok none :=
  c7_no_utxo_no_scripts_check_skipped none tIn0 PsbtInput.init rfl rfl rfl rfl

/-- **C8** For every byte buffer encoding a key-value map in which the
same key byte-string appears twice, `deserialize_map` fails with the
duplicate-key error; it never returns a map. -/
theorem c8_duplicate_key_rejected {es : List (Bytes × Bytes)} {bs rest : Bytes}
    (hkeys : ∀ kv ∈ es, kv.1 ≠ [])
    (henc : encodeEntries es = .ok bs)
    (hdup : ¬ (es.map Prod.fst).Nodup) :
    deserialize_map (bs ++ 0 :: rest) = .error "Malformed psbt: duplicate keys" := by
  rw [deserialize_map, if_neg (by simp)]
  exact deserialize_map_go_dup hkeys henc _ [] rest
    (by
      have := encodeEntries_length_le henc
      simp only [List.length_append, List.length_cons]
      omega)
    (by simp) (by simpa using hdup)

theorem c8_witness :
    deserialize_map ([1, 5, 1, 9, 1, 5, 1, 8] ++ 0 :: []) =
      .error "Malformed psbt: duplicate keys" :=
  @c8_duplicate_key_rejected [([5], [9]), ([5], [8])]
    [1, 5, 1, 9, 1, 5, 1, 8] []
    (by decide) (by decide) (by decide)

theorem dictInsert_lookup_eq {κ α : Type} [DecidableEq κ] {d : List (κ × α)}
    {k : κ} {v : α} (h : dictLookup k d = some v) : dictInsert d k v = d := by
  induction d with
  | nil => simp [dictLookup] at h
  | cons kv rest ih =>
    cases kv with
    | mk k0 v0 =>
      rw [dictLookup] at h
      rw [dictInsert]
      split_ifs at h ⊢ with h0
      · simp only [Option.some.injEq] at h
        rw [h]
      · rw [ih h]

theorem keysNodup_lookup {κ α : Type} [DecidableEq κ] {d : List (κ × α)}
    (h : keysNodup d) {k : κ} {v : α} (hm : (k, v) ∈ d) :
    dictLookup k d = some v := by
  induction d with
  | nil => cases hm
  | cons kv rest ih =>
    cases kv with
    | mk k0 v0 =>
      rw [dictLookup]
      rcases List.mem_cons.mp hm with hEq | hm2
      · simp only [Prod.mk.injEq] at hEq
        rw [if_pos hEq.1.symm, hEq.2]
      · have hk0 : k0 ≠ k := by
          intro hEq
          subst hEq
          have : k0 ∈ rest.map Prod.fst :=
            List.mem_map.mpr ⟨(k0, v), hm2, rfl⟩
          exact (List.nodup_cons.mp h).1 this
        rw [if_neg hk0]
        exact ih (List.nodup_cons.mp h).2 hm2

theorem dictUpdate_sub {κ α : Type} [DecidableEq κ] {d e : List (κ × α)}
    (h : ∀ kv ∈ e, dictLookup kv.1 d = some kv.2) : dictUpdate d e = d := by
  induction e with
  | nil => rfl
  | cons kv rest ih =>
    rw [dictUpdate, List.foldl_cons,
      dictInsert_lookup_eq (h kv (List.mem_cons_self kv rest))]
    exact ih (fun u hu => h u (List.mem_cons_of_mem kv hu))

theorem dictUpdate_self {κ α : Type} [DecidableEq κ] {d : List (κ × α)}
    (h : keysNodup d) : dictUpdate d d = d :=
  dictUpdate_sub (fun kv hm => keysNodup_lookup h hm)

theorem mergeScalar_self {α : Type} [DecidableEq α] (t : α → Bool) (a : α)
    (f : String) : mergeScalar t a a f = .ok a := by
  unfold mergeScalar
  split_ifs <;> simp_all

theorem mergeFold_no_new {α : Type} [DecidableEq α] {acc l : List α}
    (h : ∀ x ∈ l, x ∈ acc) :
    l.foldl (fun acc x => if x ∈ acc then acc else acc ++ [x]) acc = acc := by
  induction l with
  | nil => rfl
  | cons x xs ih =>
    rw [List.foldl_cons, if_pos (h x (List.mem_cons_self x xs))]
    exact ih (fun u hu => h u (List.mem_cons_of_mem x hu))

theorem mergeList_self {α : Type} [DecidableEq α] (a : List α) :
    mergeList a a = a := by
  unfold mergeList
  split_ifs with h
  · exact mergeFold_no_new (fun x hx => hx)
  · rfl

theorem mergeDict_self {κ α : Type} [DecidableEq κ] [DecidableEq α]
    {d : List (κ × α)} (h : keysNodup d) : mergeDict d d = d := by
  unfold mergeDict
  split_ifs with hne
  · exact dictUpdate_self h
  · rfl

theorem combineInput2_self {a : PsbtInput} (h1 : keysNodup a.partial_sigs)
    (h2 : keysNodup a.proprietary) (h3 : keysNodup a.unknown) :
    combineInput2 a a = .ok a := by
  simp [combineInput2, mergeScalar_self, mergeList_self, mergeDict_self h1,
    mergeDict_self h2, mergeDict_self h3]

theorem combineOutput2_self {a : PsbtOutput} (h1 : keysNodup a.proprietary)
    (h2 : keysNodup a.unknown) : combineOutput2 a a = .ok a := by
  simp [combineOutput2, mergeList_self, mergeDict_self h1, mergeDict_self h2]

theorem combine_column_self {a : PsbtInput} (h1 : keysNodup a.partial_sigs)
    (h2 : keysNodup a.proprietary) (h3 : keysNodup a.unknown) :
    _combine [a, a] = .ok a := by
  simp [_combine, List.foldlM, combineInput2_self h1 h2 h3]

theorem combine_column_self_out {a : PsbtOutput} (h1 : keysNodup a.proprietary)
    (h2 : keysNodup a.unknown) : _combine_outputs [a, a] = .ok a := by
  simp [_combine_outputs, List.foldlM, combineOutput2_self h1 h2]

theorem map_getD_range {α : Type} [Inhabited α] (l : List α) (d : α) :
    (List.range l.length).map (fun x => l.getD x d) = l := by
  apply List.ext_getElem
  · simp
  · intro i h1 h2
    simp only [List.getElem_map, List.getElem_range]
    rw [List.getD_eq_getElem l d h2]

theorem mapIdx_eq_self {α : Type} {f : Nat → α → α} {l : List α}
    (h : ∀ j, ∀ hj : j < l.length, f j l[j] = l[j]) : l.mapIdx f = l := by
  induction l generalizing f with
  | nil => rfl
  | cons x xs ih =>
    rw [List.mapIdx_cons]
    rw [show f 0 x = x from h 0 (by simp)]
    rw [ih (fun j hj => by simpa using h (j + 1) (by simpa using hj))]

theorem getElem?_getD_lt {α : Type} [Inhabited α] {l : List α} {x : Nat}
    (h : x < l.length) : l[x]? = some (l.getD x default) := by
  rw [List.getElem?_eq_getElem h, List.getD_eq_getElem l default h]

theorem getD_mem {α : Type} [Inhabited α] {l : List α} {x : Nat}
    (h : x < l.length) : l.getD x default ∈ l := by
  rw [List.getD_eq_getElem l default h]
  exact List.getElem_mem h

/-- **C4** For every Container `A` (a well-formed container: its
transaction serializes to a txid, and its association-list fields
satisfy the Python-dict unique-keys invariant), combining `[A, A]` is
a no-op: `combine_psbts` returns `A` without raising. -/
theorem c4_combine_idempotent (A : Psbt)
    (hti : ∃ ti, A.tx.txid = .ok ti)
    (hin : ∀ inp ∈ A.inputs, keysNodup inp.partial_sigs ∧
      keysNodup inp.proprietary ∧ keysNodup inp.unknown)
    (hout : ∀ o ∈ A.outputs, keysNodup o.proprietary ∧ keysNodup o.unknown)
    (hunk : keysNodup A.unknown) :
    combine_psbts [A, A] = .ok A := by
  obtain ⟨ti, hti⟩ := hti
  have hcols : exceptMapM (fun x => do
      let col ← exceptMapM (fun p =>
        match p.inputs[x]? with
        | some v => Except.ok v
        | none => Except.error "IndexError: inputs") (A :: [A])
      _combine col) (List.range A.inputs.length) =
      .ok ((List.range A.inputs.length).map
        (fun x => A.inputs.getD x default)) := by
    apply mapM_ok_of_forall
    intro x hx
    have hxlt : x < A.inputs.length := List.mem_range.mp hx
    have hsome := getElem?_getD_lt hxlt
    have hmem := getD_mem (l := A.inputs) hxlt
    obtain ⟨n1, n2, n3⟩ := hin _ hmem
    simp only [exceptMapM, hsome, ok_bind, pure_eq_ok]
    exact combine_column_self n1 n2 n3
  have hcolsOut : exceptMapM (fun x => do
      let col ← exceptMapM (fun p =>
        match p.outputs[x]? with
        | some v => Except.ok v
        | none => Except.error "IndexError: outputs") (A :: [A])
      _combine_outputs col) (List.range A.outputs.length) =
      .ok ((List.range A.outputs.length).map
        (fun x => A.outputs.getD x default)) := by
    apply mapM_ok_of_forall
    intro x hx
    have hxlt : x < A.outputs.length := List.mem_range.mp hx
    have hsome := getElem?_getD_lt hxlt
    have hmem := getD_mem (l := A.outputs) hxlt
    obtain ⟨n1, n2⟩ := hout _ hmem
    simp only [exceptMapM, hsome, ok_bind, pure_eq_ok]
    exact combine_column_self_out n1 n2
  have hchk : exceptMapM (fun p : Psbt => do
      let t2 ← p.tx.txid
      if t2 = ti then pure () else Except.error "AssertionError: txid") [A]
      = .ok [()] := by
    simp [exceptMapM, hti]
  have hlast : ([A] : List Psbt).getLast? = some A := rfl
  simp only [combine_psbts, hti, ok_bind]
  rw [hchk]
  simp only [ok_bind, hlast]
  rw [hcols]
  simp only [ok_bind]
  rw [hcolsOut]
  simp only [ok_bind, pure_eq_ok]
  have hinputs : A.inputs.mapIdx (fun j v =>
      ((List.range A.inputs.length).map
        (fun x => A.inputs.getD x default)).getD j v) = A.inputs := by
    apply mapIdx_eq_self
    intro j hj
    have hlen : ((List.range A.inputs.length).map
        (fun x => A.inputs.getD x default)).length = A.inputs.length := by simp
    rw [List.getD_eq_getElem _ _ (by omega)]
    simp only [List.getElem_map, List.getElem_range]
    rw [List.getD_eq_getElem A.inputs default hj]
  have houtputs : (List.range A.outputs.length).map
      (fun x => A.outputs.getD x default) = A.outputs := map_getD_range A.outputs default
  have hunk2 : (A :: [A]).foldl
      (fun acc p => if acc ≠ [] then dictUpdate acc p.unknown else p.unknown)
      A.unknown = A.unknown := by
    by_cases h : A.unknown = []
    · simp [List.foldl, h]
    · simp [List.foldl, h, dictUpdate_self hunk]
  rw [hinputs, houtputs, hunk2]

/-- The txid of `tx0` under the modelled HASH256. -/
def exTxid : Bytes := (0xd2 :: txBytes0).reverse

theorem c4_witness : combine_psbts [psbt9, psbt9] = .ok psbt9 :=
  c4_combine_idempotent psbt9 ⟨exTxid, by decide⟩ (by decide) (by decide)
    (by decide)

theorem finalizeInput_empty_sigs {inp : PsbtInput} (h : inp.partial_sigs = []) :
    finalizeInput inp = .error "AssertionError: partial_sigs" := by
  simp [finalizeInput, h]

theorem finalizeInput_ok_cleared {inp out : PsbtInput}
    (h : finalizeInput inp = .ok out) :
    out.partial_sigs = [] ∧ out.sighash = some 0 ∧ out.redeem_script = [] ∧
    out.witness_script = [] ∧ out.hd_keypaths = [] ∧
    out.por_commitment = none := by
  rw [finalizeInput] at h
  by_cases hs : inp.partial_sigs = []
  · simp [hs] at h
  · simp only [if_neg hs, pure_eq_ok, ok_bind] at h
    cases hrs : script.encode inp.redeem_script with
    | error e => simp [hrs] at h
    | ok eR =>
    rw [hrs] at h
    simp only [ok_bind] at h
    by_cases hws : inp.witness_script ≠ []
    · rw [if_pos hws] at h
      cases hwe : script.encode inp.witness_script with
      | error e => simp [hwe] at h
      | ok eW =>
      rw [hwe] at h
      simp only [ok_bind, pure_eq_ok, Except.ok.injEq] at h
      subst h
      exact ⟨rfl, rfl, rfl, rfl, rfl, rfl⟩
    · rw [if_neg hws] at h
      simp only [pure_eq_ok, Except.ok.injEq] at h
      subst h
      exact ⟨rfl, rfl, rfl, rfl, rfl, rfl⟩

theorem finalizeInput_isOk {inp : PsbtInput} (h1 : inp.partial_sigs ≠ [])
    (h2 : wfScript inp.redeem_script) (h3 : wfScript inp.witness_script) :
    ∃ out, finalizeInput inp = .ok out := by
  obtain ⟨eR, heR⟩ := script.encode_isOk h2
  obtain ⟨eW, heW⟩ := script.encode_isOk h3
  cases hf : finalizeInput inp with
  | ok out => exact ⟨out, rfl⟩
  | error e =>
    exfalso
    rw [finalizeInput] at hf
    by_cases hws : inp.witness_script ≠ [] <;>
      simp [h1, heR, heW, hws] at hf

/-- **C5** `finalize_psbt` fails whenever some input record has an
empty `partial_sigs` mapping (no result is produced); on success every
input record of the result has its signing-intermediate fields cleared
(`partial_sigs` empty, `sighash` reset to 0, `redeem_script`,
`witness_script`, `hd_keypaths` empty, proof-of-reserves commitment
absent); hence re-running it on the finalized Container (which, being
a Container, has at least one input record) fails the same
no-partial-signatures precondition. -/
theorem c5_finalize_lifecycle (p : Psbt) :
    ((∃ inp ∈ p.inputs, inp.partial_sigs = []) →
      ∀ q, finalize_psbt p ≠ .ok q)
    ∧ (∀ q, finalize_psbt p = .ok q →
        (∀ inp ∈ q.inputs, inp.partial_sigs = [] ∧ inp.sighash = some 0 ∧
          inp.redeem_script = [] ∧ inp.witness_script = [] ∧
          inp.hd_keypaths = [] ∧ inp.por_commitment = none)
        ∧ (p.inputs ≠ [] → ∀ q2, finalize_psbt q ≠ .ok q2)) := by
  constructor
  · rintro ⟨inp, hmem, hempty⟩ q hok
    rw [finalize_psbt] at hok
    cases hM : exceptMapM finalizeInput p.inputs with
    | error e => rw [hM] at hok; simp at hok
    | ok l =>
      obtain ⟨y, _, hfy⟩ := mapM_ok_mem hM hmem
      rw [finalizeInput_empty_sigs hempty] at hfy
      cases hfy
  · intro q hok
    rw [finalize_psbt] at hok
    cases hM : exceptMapM finalizeInput p.inputs with
    | error e => rw [hM] at hok; simp at hok
    | ok l =>
      rw [hM] at hok
      simp only [ok_bind, pure_eq_ok, Except.ok.injEq] at hok
      subst hok
      constructor
      · intro inp hmem
        simp only at hmem
        obtain ⟨x, _, hfx⟩ := mapM_ok_mem_rev hM hmem
        exact finalizeInput_ok_cleared hfx
      · intro hne q2 hok2
        have hlen := mapM_ok_length hM
        have hlne : l ≠ [] := by
          intro h0
          subst h0
          simp only [List.length_nil] at hlen
          exact hne (List.length_eq_zero.mp hlen.symm)
        obtain ⟨i0, l', hl⟩ := List.exists_cons_of_ne_nil hlne
        have hi0mem : i0 ∈ l := hl ▸ List.mem_cons_self i0 l'
        obtain ⟨x0, _, hfx0⟩ := mapM_ok_mem_rev hM hi0mem
        have hcleared := finalizeInput_ok_cleared hfx0
        rw [finalize_psbt] at hok2
        cases hM2 : exceptMapM finalizeInput l with
        | error e => rw [hM2] at hok2; simp at hok2
        | ok l2 =>
          obtain ⟨y2, _, hfy2⟩ := mapM_ok_mem hM2 hi0mem
          rw [finalizeInput_empty_sigs hcleared.1] at hfy2
          cases hfy2

/-- An input record with one partial signature (legacy path). -/
def inpC5 : PsbtInput := { PsbtInput.init with partial_sigs := [([1], [2])] }

/-- A container ready to finalize. -/
def psbtC5 : Psbt := { psbt9 with inputs := [inpC5] }

/-- The finalized form of `inpC5`. -/
def inpC5fin : PsbtInput :=
  ⟨none, none, [], some 0, [], [], [], [Token.hex [2], Token.hex []], [],
    none, [], []⟩

/-- The finalized form of `psbtC5`. -/
def psbtC5fin : Psbt := { psbt9 with inputs := [inpC5fin] }

theorem c5_witness :
    finalize_psbt psbt9 ≠ .ok psbt9 ∧
    finalize_psbt psbtC5fin ≠ .ok psbtC5fin := by
  constructor
  · exact (c5_finalize_lifecycle psbt9).1 ⟨PsbtInput.init, by decide, rfl⟩ psbt9
  · have h := (c5_finalize_lifecycle psbtC5).2 psbtC5fin (by decide)
    exact h.2 (by decide) psbtC5fin

/-- **C2** Finalizing an input record whose `witness_script` is a
(well-formed, non-empty) script S, with two partial signatures inserted
in order `(pk1, sig1), (pk2, sig2)`, yields
`final_script_witness = ["", sig1, sig2, serialize S]` — the empty
placeholder is prepended because more than one signature is present —
and `final_script_sig = [serialize redeem_script]` (a single hex push
of the serialized redeem script). -/
theorem c2_finalize_witness_multisig (inp : PsbtInput)
    (pk1 sig1 pk2 sig2 : Bytes)
    (hsigs : inp.partial_sigs = [(pk1, sig1), (pk2, sig2)])
    (hws : inp.witness_script ≠ [])
    (hwfw : wfScript inp.witness_script)
    (hwfr : wfScript inp.redeem_script) :
    ∃ eR eW, script.encode inp.redeem_script = .ok eR ∧
      script.encode inp.witness_script = .ok eW ∧
      ∃ out, finalizeInput inp = .ok out ∧
        out.final_script_witness = [[], sig1, sig2, eW] ∧
        out.final_script_sig = [Token.hex eR] := by
  obtain ⟨eR, heR⟩ := script.encode_isOk hwfr
  obtain ⟨eW, heW⟩ := script.encode_isOk hwfw
  refine ⟨eR, eW, heR, heW, ?_⟩
  have hne : inp.partial_sigs ≠ [] := by rw [hsigs]; exact List.cons_ne_nil _ _
  rw [finalizeInput]
  simp only [if_neg hne, pure_eq_ok, ok_bind, heR, heW, if_pos hws, hsigs]
  exact ⟨_, rfl, rfl, rfl⟩

/-- A two-signature witness-path input record. -/
def inpC2 : PsbtInput := { PsbtInput.init with
  partial_sigs := [([1], [0x30, 1]), ([2], [0x30, 2])],
  redeem_script := [Token.hex [0x51]],
  witness_script := [Token.hex [0x52]] }

theorem c2_witness :
    ∃ eR eW, script.encode inpC2.redeem_script = .ok eR ∧
      script.encode inpC2.witness_script = .ok eW ∧
      ∃ out, finalizeInput inpC2 = .ok out ∧
        out.final_script_witness = [[], [0x30, 1], [0x30, 2], eW] ∧
        out.final_script_sig = [Token.hex eR] :=
  c2_finalize_witness_multisig inpC2 [1] [0x30, 1] [2] [0x30, 2] rfl
    (by decide) (by decide) (by decide)

/-- The per-input rewrite performed by `extract_tx` on the bound
transaction: the record's `final_script_sig` overwrites `scriptSig`,
and `final_script_witness` overwrites the witness when non-empty. -/
def extractIn (p : Psbt) (iv : Nat × TxIn) : TxIn :=
  match p.inputs[iv.1]? with
  | some inp => { iv.2 with
      scriptSig := inp.final_script_sig,
      txinwitness := if inp.final_script_witness ≠ []
        then inp.final_script_witness else iv.2.txinwitness }
  | none => iv.2

theorem checkUnsignedIn_error {l : List TxIn} {v : TxIn} (hv : v ∈ l)
    (h : v.scriptSig ≠ []) : ∃ e, checkUnsignedIn l = .error e := by
  induction l with
  | nil => cases hv
  | cons a rest ih =>
    by_cases ha : a.scriptSig = []
    · by_cases hw : a.txinwitness = []
      · cases List.mem_cons.mp hv with
        | inl he => exact absurd (he ▸ ha) h
        | inr hm =>
          obtain ⟨e, he⟩ := ih hm
          exact ⟨e, by rw [checkUnsignedIn, if_pos ha, if_pos hw, he]⟩
      · exact ⟨_, by rw [checkUnsignedIn, if_pos ha, if_neg hw]⟩
    · exact ⟨_, by rw [checkUnsignedIn, if_neg ha]⟩

theorem assert_valid_error_of_vin {p : Psbt} {v : TxIn} (hv : v ∈ p.tx.vin)
    (h : v.scriptSig ≠ []) : ∃ e, Psbt.assert_valid p = .error e := by
  obtain ⟨e, he⟩ := checkUnsignedIn_error hv h
  exact ⟨e, by rw [Psbt.assert_valid, he]; rfl⟩

/-- **C10** `extract_tx` succeeds on a container whose skeleton has an
input record for every skeleton input, and returns the transaction
bound to the container: the returned transaction equals the returned
container's `tx` (the Python mutates `psbt.tx` in place and returns
that object), the record fields are untouched, each skeleton input's
`scriptSig` becomes the corresponding record's `final_script_sig` and
its witness becomes `final_script_witness` when that is non-empty
(unchanged otherwise), and as soon as some in-range record has a
non-empty `final_script_sig` the post-state container no longer passes
the validator's empty-`scriptSig`/witness invariant. -/
theorem c10_extract_tx_frame (p : Psbt)
    (hlen : p.tx.vin.length ≤ p.inputs.length) :
    ∃ t q, extract_tx p = .ok (t, q) ∧ q.tx = t ∧
      q.inputs = p.inputs ∧ q.outputs = p.outputs ∧
      t.nVersion = p.tx.nVersion ∧ t.nLockTime = p.tx.nLockTime ∧
      t.vout = p.tx.vout ∧ t.vin.length = p.tx.vin.length ∧
      (∀ i, i < p.tx.vin.length → i < p.inputs.length) ∧
      (∀ i (hi : i < p.tx.vin.length) (hii : i < p.inputs.length),
        t.vin[i]? = some { p.tx.vin.get ⟨i, hi⟩ with
          scriptSig := (p.inputs.get ⟨i, hii⟩).final_script_sig,
          txinwitness :=
            if (p.inputs.get ⟨i, hii⟩).final_script_witness ≠ []
            then (p.inputs.get ⟨i, hii⟩).final_script_witness
            else (p.tx.vin.get ⟨i, hi⟩).txinwitness }) ∧
      ((∃ i, ∃ hi : i < p.tx.vin.length, ∃ hii : i < p.inputs.length,
          (p.inputs.get ⟨i, hii⟩).final_script_sig ≠ []) →
        ∃ e, Psbt.assert_valid q = .error e) := by
  have hall : ∀ iv ∈ p.tx.vin.enum,
      (fun iv : Nat × TxIn =>
        match p.inputs[iv.1]? with
        | some inp => Except.ok { iv.2 with
            scriptSig := inp.final_script_sig,
            txinwitness := if inp.final_script_witness ≠ []
              then inp.final_script_witness else iv.2.txinwitness }
        | none => Except.error "IndexError: inputs") iv
        = .ok (extractIn p iv) := by
    refine List.forall_mem_enum.mpr ?_
    intro i hi
    have hii : i < p.inputs.length := Nat.lt_of_lt_of_le hi hlen
    have hsome : p.inputs[i]? = some p.inputs[i] :=
      List.getElem?_eq_getElem hii
    simp only [extractIn, hsome]
  have hmap := mapM_ok_of_forall hall
  refine ⟨{ p.tx with vin := p.tx.vin.enum.map (extractIn p) },
    { p with tx := { p.tx with vin := p.tx.vin.enum.map (extractIn p) } },
    ?_, rfl, rfl, rfl, rfl, rfl, rfl, ?_, ?_, ?_, ?_⟩
  · rw [extract_tx, hmap]
    rfl
  · show (p.tx.vin.enum.map (extractIn p)).length = p.tx.vin.length
    rw [List.length_map, List.enum_length]
  · exact fun i hi => Nat.lt_of_lt_of_le hi hlen
  · intro i hi hii
    have hlt : i < (p.tx.vin.enum.map (extractIn p)).length := by
      rw [List.length_map, List.enum_length]; exact hi
    show (p.tx.vin.enum.map (extractIn p))[i]? = _
    rw [List.getElem?_eq_getElem hlt]
    have hsome : p.inputs[i]? = some p.inputs[i] :=
      List.getElem?_eq_getElem hii
    simp only [List.getElem_map, List.getElem_enum, extractIn, hsome]
    rfl
  · rintro ⟨i, hi, hii, hne⟩
    have hlt : i < (p.tx.vin.enum.map (extractIn p)).length := by
      rw [List.length_map, List.enum_length]; exact hi
    have hmem : (p.tx.vin.enum.map (extractIn p))[i] ∈
        p.tx.vin.enum.map (extractIn p) := List.getElem_mem hlt
    have hsome : p.inputs[i]? = some p.inputs[i] :=
      List.getElem?_eq_getElem hii
    have hv : ((p.tx.vin.enum.map (extractIn p))[i]).scriptSig =
        (p.inputs.get ⟨i, hii⟩).final_script_sig := by
      simp only [List.getElem_map, List.getElem_enum, extractIn, hsome]
      rfl
    have hvne : ((p.tx.vin.enum.map (extractIn p))[i]).scriptSig ≠ [] := by
      rw [hv]; exact hne
    exact assert_valid_error_of_vin hmem hvne

theorem c10_witness :
    ∃ t q, extract_tx psbtC5fin = .ok (t, q) ∧ q.tx = t ∧
      q.inputs = psbtC5fin.inputs ∧ q.outputs = psbtC5fin.outputs ∧
      t.nVersion = psbtC5fin.tx.nVersion ∧
      t.nLockTime = psbtC5fin.tx.nLockTime ∧
      t.vout = psbtC5fin.tx.vout ∧
      t.vin.length = psbtC5fin.tx.vin.length ∧
      (∀ i, i < psbtC5fin.tx.vin.length → i < psbtC5fin.inputs.length) ∧
      (∀ i (hi : i < psbtC5fin.tx.vin.length)
          (hii : i < psbtC5fin.inputs.length),
        t.vin[i]? = some { psbtC5fin.tx.vin.get ⟨i, hi⟩ with
          scriptSig := (psbtC5fin.inputs.get ⟨i, hii⟩).final_script_sig,
          txinwitness :=
            if (psbtC5fin.inputs.get ⟨i, hii⟩).final_script_witness ≠ []
            then (psbtC5fin.inputs.get ⟨i, hii⟩).final_script_witness
            else (psbtC5fin.tx.vin.get ⟨i, hi⟩).txinwitness }) ∧
      ((∃ i, ∃ hi : i < psbtC5fin.tx.vin.length,
          ∃ hii : i < psbtC5fin.inputs.length,
          (psbtC5fin.inputs.get ⟨i, hii⟩).final_script_sig ≠ []) →
        ∃ e, Psbt.assert_valid q = .error e) :=
  c10_extract_tx_frame psbtC5fin (by decide)

theorem checkUnsignedIn_ok {l : List TxIn} {u : Unit}
    (h : checkUnsignedIn l = .ok u) :
    ∀ v ∈ l, v.scriptSig = [] ∧ v.txinwitness = [] := by
  induction l with
  | nil => intro v hv; cases hv
  | cons a rest ih =>
    rw [checkUnsignedIn] at h
    by_cases ha : a.scriptSig = []
    · by_cases hw : a.txinwitness = []
      · rw [if_pos ha, if_pos hw] at h
        intro v hv
        cases List.mem_cons.mp hv with
        | inl he => exact he ▸ ⟨ha, hw⟩
        | inr hm => exact ih h v hm
      · rw [if_pos ha, if_neg hw] at h; cases h
    · rw [if_neg ha] at h; cases h

theorem assert_valid_ok_unsigned {p : Psbt} {u : Unit}
    (h : Psbt.assert_valid p = .ok u) :
    ∀ v ∈ p.tx.vin, v.scriptSig = [] ∧ v.txinwitness = [] := by
  rw [Psbt.assert_valid] at h
  cases hc : checkUnsignedIn p.tx.vin with
  | error e =>
    rw [hc] at h
    simp only [error_bind] at h
    cases h
  | ok u0 => exact checkUnsignedIn_ok hc

/-- **C9** A container accepted by the validator has an unsigned
skeleton: every skeleton input's `scriptSig` and witness are empty; a
container whose skeleton carries any unlocking data fails validation;
and every container returned by `Psbt.deserialize` (which runs the
validator before returning) has an unsigned skeleton. -/
theorem c9_validated_skeleton_unsigned (p : Psbt) (bs : Bytes) :
    ((∃ u, Psbt.assert_valid p = .ok u) →
      ∀ v ∈ p.tx.vin, v.scriptSig = [] ∧ v.txinwitness = [])
    ∧ ((∃ v ∈ p.tx.vin, v.scriptSig ≠ [] ∨ v.txinwitness ≠ []) →
      ∀ u, Psbt.assert_valid p ≠ .ok u)
    ∧ (Psbt.deserialize bs = .ok p →
      ∀ v ∈ p.tx.vin, v.scriptSig = [] ∧ v.txinwitness = []) := by
  have hA : (∃ u, Psbt.assert_valid p = .ok u) →
      ∀ v ∈ p.tx.vin, v.scriptSig = [] ∧ v.txinwitness = [] := by
    rintro ⟨u, hu⟩
    exact assert_valid_ok_unsigned hu
  refine ⟨hA, ?_, ?_⟩
  · rintro ⟨v, hv, hcase⟩ u hok
    have hboth := hA ⟨u, hok⟩ v hv
    cases hcase with
    | inl h1 => exact h1 hboth.1
    | inr h2 => exact h2 hboth.2
  · intro h
    rw [Psbt.deserialize] at h
    by_cases hm : bs.take 5 = [0x70, 0x73, 0x62, 0x74, 0xff]
    · rw [if_pos hm] at h
      cases h1 : deserialize_map (bs.drop 5) with
      | error e => rw [h1] at h; simp only [error_bind] at h; cases h
      | ok gd =>
      obtain ⟨gmap, d1⟩ := gd
      rw [h1] at h
      simp only [ok_bind] at h
      cases h2 : gmap.foldlM globalStep ⟨none, 0, [], [], []⟩ with
      | error e => rw [h2] at h; simp only [error_bind] at h; cases h
      | ok gs =>
      rw [h2] at h
      simp only [ok_bind] at h
      cases h3 : gs.tx with
      | none => rw [h3] at h; cases h
      | some tx =>
      rw [h3] at h
      have h' : (do
          let id2 ← readRecordMaps PsbtInput.decode tx.vin.length d1
          let od3 ← readRecordMaps PsbtOutput.decode tx.vout.length id2.2
          Psbt.assert_valid ⟨tx, id2.1, od3.1, some gs.version,
            gs.hd_keypaths, gs.proprietary, gs.unknown⟩
          pure (⟨tx, id2.1, od3.1, some gs.version, gs.hd_keypaths,
            gs.proprietary, gs.unknown⟩ : Psbt)) = Except.ok p := h
      clear h
      cases h4 : readRecordMaps PsbtInput.decode tx.vin.length d1 with
      | error e => rw [h4] at h'; simp only [error_bind] at h'; cases h'
      | ok id2 =>
      rw [h4] at h'
      simp only [ok_bind] at h'
      cases h5 : readRecordMaps PsbtOutput.decode tx.vout.length id2.2 with
      | error e => rw [h5] at h'; simp only [error_bind] at h'; cases h'
      | ok od3 =>
      rw [h5] at h'
      simp only [ok_bind] at h'
      cases h6 : Psbt.assert_valid ⟨tx, id2.1, od3.1, some gs.version,
          gs.hd_keypaths, gs.proprietary, gs.unknown⟩ with
      | error e => rw [h6] at h'; simp only [error_bind] at h'; cases h'
      | ok u =>
      rw [h6] at h'
      simp only [ok_bind, pure_eq_ok, Except.ok.injEq] at h'
      subst h'
      exact assert_valid_ok_unsigned h6
    · rw [if_neg hm] at h; cases h

theorem c9_witness :
    ∀ v ∈ psbt9.tx.vin, v.scriptSig = [] ∧ v.txinwitness = [] :=
  (c9_validated_skeleton_unsigned psbt9 blob9).2.2 (by decide)

theorem dictLookup_dictInsert_self {κ α : Type} [DecidableEq κ]
    (d : List (κ × α)) (k : κ) (v : α) :
    dictLookup k (dictInsert d k v) = some v := by
  induction d with
  | nil => simp [dictInsert, dictLookup]
  | cons kv rest ih =>
    cases kv with
    | mk k0 v0 =>
      rw [dictInsert]
      by_cases h : k0 = k
      · rw [if_pos h, dictLookup, if_pos h]
      · rw [if_neg h, dictLookup, if_neg h]
        exact ih

theorem dictLookup_dictInsert_ne {κ α : Type} [DecidableEq κ]
    (d : List (κ × α)) {k kq : κ} (v : α) (h : kq ≠ k) :
    dictLookup kq (dictInsert d k v) = dictLookup kq d := by
  induction d with
  | nil =>
    rw [dictInsert]
    simp [dictLookup, h.symm]
  | cons kv rest ih =>
    cases kv with
    | mk k0 v0 =>
      rw [dictInsert]
      by_cases h0 : k0 = k
      · rw [if_pos h0, dictLookup, dictLookup]
        by_cases h1 : k0 = kq
        · exact absurd (h1 ▸ h0) h
        · rw [if_neg h1, if_neg h1]
      · rw [if_neg h0, dictLookup, dictLookup]
        by_cases h1 : k0 = kq
        · rw [if_pos h1, if_pos h1]
        · rw [if_neg h1, if_neg h1]
          exact ih

theorem dictLookup_none {κ α : Type} [DecidableEq κ] {d : List (κ × α)}
    {k : κ} (h : k ∉ d.map Prod.fst) : dictLookup k d = none := by
  induction d with
  | nil => rfl
  | cons kv rest ih =>
    cases kv with
    | mk k0 v0 =>
      rw [dictLookup]
      simp only [List.map_cons, List.mem_cons, not_or] at h
      rw [if_neg (fun he => h.1 he.symm)]
      exact ih h.2

theorem dictLookup_dictUpdate {κ α : Type} [DecidableEq κ] (k : κ) :
    ∀ (b a : List (κ × α)), keysNodup b →
      dictLookup k (dictUpdate a b) =
        (dictLookup k b).elim (dictLookup k a) some := by
  intro b
  induction b with
  | nil => intro a _; rfl
  | cons kv rest ih =>
    intro a hb
    cases kv with
    | mk k0 v0 =>
      have hb2 : keysNodup rest := (List.nodup_cons.mp hb).2
      have hk0 : k0 ∉ rest.map Prod.fst := (List.nodup_cons.mp hb).1
      have hstep : dictUpdate a ((k0, v0) :: rest)
          = dictUpdate (dictInsert a k0 v0) rest := rfl
      rw [hstep, ih (dictInsert a k0 v0) hb2, dictLookup]
      by_cases hk : k0 = k
      · subst hk
        rw [if_pos rfl, dictLookup_none hk0, dictLookup_dictInsert_self]
        rfl
      · rw [if_neg hk]
        cases hlr : dictLookup k rest with
        | some v => rfl
        | none => exact dictLookup_dictInsert_ne a v0 (fun he => hk he.symm)

theorem dictLookup_mergeDict {κ α : Type} [DecidableEq κ] [DecidableEq α]
    {b : List (κ × α)} (hb : keysNodup b) (a : List (κ × α)) (k : κ) :
    dictLookup k (mergeDict a b) =
      (dictLookup k b).elim (dictLookup k a) some := by
  rw [mergeDict]
  split_ifs with h
  · exact dictLookup_dictUpdate k b a hb
  · have ha : a = [] := not_not.mp h
    subst ha
    cases hlb : dictLookup k b with
    | some v => rfl
    | none => rfl

theorem combineInput2_sigs {a b r : PsbtInput}
    (h : combineInput2 a b = .ok r) :
    r.partial_sigs = mergeDict a.partial_sigs b.partial_sigs := by
  rw [combineInput2] at h
  cases h1 : mergeScalar optTruthy a.non_witness_utxo b.non_witness_utxo
      "non_witness_utxo" with
  | error e => rw [h1] at h; simp only [error_bind] at h; cases h
  | ok nwu =>
  rw [h1] at h
  simp only [ok_bind] at h
  cases h2 : mergeScalar optTruthy a.witness_utxo b.witness_utxo
      "witness_utxo" with
  | error e => rw [h2] at h; simp only [error_bind] at h; cases h
  | ok wu =>
  rw [h2] at h
  simp only [ok_bind] at h
  cases h3 : mergeScalar natOptTruthy a.sighash b.sighash "sighash" with
  | error e => rw [h3] at h; simp only [error_bind] at h; cases h
  | ok sh =>
  rw [h3] at h
  simp only [ok_bind] at h
  cases h4 : mergeScalar bytesOptTruthy a.por_commitment b.por_commitment
      "por_commitment" with
  | error e => rw [h4] at h; simp only [error_bind] at h; cases h
  | ok por =>
  rw [h4] at h
  simp only [ok_bind, pure_eq_ok, Except.ok.injEq] at h
  subst h
  rfl

theorem combine_pair_input {ra rb rc : PsbtInput}
    (h : _combine [ra, rb] = .ok rc) : combineInput2 ra rb = .ok rc := by
  rw [_combine] at h
  simp only [List.foldlM] at h
  cases hc : combineInput2 ra rb with
  | error e => rw [hc] at h; simp only [error_bind] at h; cases h
  | ok r =>
    rw [hc] at h
    simp only [ok_bind, pure_eq_ok, Except.ok.injEq] at h
    rw [← h]

theorem getElem?_mapIdx_self {α : Type} {f : Nat → α → α} {l : List α}
    {i : Nat} (hi : i < l.length) : (l.mapIdx f)[i]? = some (f i l[i]) := by
  have hlen : i < (l.mapIdx f).length := by
    rw [List.length_mapIdx]; exact hi
  rw [List.getElem?_eq_getElem hlen]
  congr 1
  exact List.get_mapIdx l f i hi

/-- Co-signer 1's container: one input record with one partial
signature under pubkey `[1]` and sighash type 1. -/
def psbtC3A : Psbt := { psbt9 with inputs :=
  [{ PsbtInput.init with partial_sigs := [([1], [0xa])], sighash := some 1 }] }

/-- Co-signer 2's container: same skeleton, a partial signature under
the distinct pubkey `[2]`, and sighash type 2. -/
def psbtC3B : Psbt := { psbt9 with inputs :=
  [{ PsbtInput.init with partial_sigs := [([2], [0xb])], sighash := some 2 }] }

/-- Both containers wrap the same transaction (same txid) and carry
partial signatures under distinct pubkeys at index 0 — the claim's
exact hypotheses — yet `combine_psbts` raises on the conflicting
truthy `sighash` scalars instead of yielding a combined container. -/
theorem c3_counterexample :
    combine_psbts [psbtC3A, psbtC3B] = .error "sighash" := by decide

/-- **C3** (amended: provided combining succeeds — no conflicting
scalar fields) For containers `A` and `B` with equally many input
records, when `combine_psbts [A, B]` returns a container `C`, the
record of `C` at each index `i` holds the key-wise union of `A`'s and
`B`'s `partial_sigs` at that index, the later container `B` winning on
duplicate keys: a key found in `B`'s mapping looks up to `B`'s value,
any other key to `A`'s value. -/
theorem c3_combine_union (A B C : Psbt) (i : Nat)
    (hC : combine_psbts [A, B] = .ok C)
    (hlen : A.inputs.length = B.inputs.length)
    (hi : i < B.inputs.length)
    (hnd : ∀ inp ∈ B.inputs, keysNodup inp.partial_sigs) :
    ∃ ra rb rc, A.inputs[i]? = some ra ∧ B.inputs[i]? = some rb ∧
      C.inputs[i]? = some rc ∧
      ∀ k, dictLookup k rc.partial_sigs =
        (dictLookup k rb.partial_sigs).elim
          (dictLookup k ra.partial_sigs) some := by
  have hC' : (do
      let txid0 ← A.tx.txid
      let _ ← exceptMapM (fun p => do
        let ti ← p.tx.txid
        if ti = txid0 then pure () else Except.error "AssertionError: txid") [B]
      let cols ← exceptMapM (fun x => do
        let col ← exceptMapM (fun p =>
          match p.inputs[x]? with
          | some v => Except.ok v
          | none => Except.error "IndexError: inputs") [A, B]
        _combine col) (List.range B.inputs.length)
      let colsOut ← exceptMapM (fun x => do
        let col ← exceptMapM (fun p =>
          match p.outputs[x]? with
          | some v => Except.ok v
          | none => Except.error "IndexError: outputs") [A, B]
        _combine_outputs col) (List.range B.outputs.length)
      let inputs2 := A.inputs.mapIdx (fun j v => cols.getD j v)
      let unk := ([A, B] : List Psbt).foldl
        (fun acc p => if acc ≠ [] then dictUpdate acc p.unknown else p.unknown)
        A.unknown
      pure { A with inputs := inputs2, outputs := colsOut, unknown := unk })
      = Except.ok C := hC
  clear hC
  cases h1 : A.tx.txid with
  | error e => rw [h1] at hC'; simp only [error_bind] at hC'; cases hC'
  | ok tiA =>
  rw [h1] at hC'
  simp only [ok_bind] at hC'
  cases h2 : exceptMapM (fun p => do
      let ti ← p.tx.txid
      if ti = tiA then pure () else Except.error "AssertionError: txid") [B] with
  | error e => rw [h2] at hC'; simp only [error_bind] at hC'; cases hC'
  | ok us =>
  rw [h2] at hC'
  simp only [ok_bind] at hC'
  cases h3 : exceptMapM (fun x => do
      let col ← exceptMapM (fun p =>
        match p.inputs[x]? with
        | some v => Except.ok v
        | none => Except.error "IndexError: inputs") [A, B]
      _combine col) (List.range B.inputs.length) with
  | error e => rw [h3] at hC'; simp only [error_bind] at hC'; cases hC'
  | ok cols =>
  rw [h3] at hC'
  simp only [ok_bind] at hC'
  cases h4 : exceptMapM (fun x => do
      let col ← exceptMapM (fun p =>
        match p.outputs[x]? with
        | some v => Except.ok v
        | none => Except.error "IndexError: outputs") [A, B]
      _combine_outputs col) (List.range B.outputs.length) with
  | error e => rw [h4] at hC'; simp only [error_bind] at hC'; cases hC'
  | ok colsOut =>
  rw [h4] at hC'
  simp only [ok_bind, pure_eq_ok, Except.ok.injEq] at hC'
  subst hC'
  have hiA : i < A.inputs.length := by rw [hlen]; exact hi
  have hcolslen : cols.length = B.inputs.length := by
    have hl := mapM_ok_length h3
    rwa [List.length_range] at hl
  have hic : i < cols.length := by rw [hcolslen]; exact hi
  have hir : i < (List.range B.inputs.length).length := by
    rw [List.length_range]; exact hi
  obtain ⟨hic2, hfi⟩ := mapM_ok_getElem h3 i hir
  rw [show (List.range B.inputs.length)[i] = i from List.getElem_range i hir]
    at hfi
  have hfi2 : (do
      let col ← exceptMapM (fun p =>
        match p.inputs[i]? with
        | some v => Except.ok v
        | none => Except.error "IndexError: inputs") [A, B]
      _combine col) = Except.ok cols[i] := hfi
  have hcol : exceptMapM (fun p =>
      match p.inputs[i]? with
      | some v => Except.ok v
      | none => Except.error "IndexError: inputs") [A, B]
      = .ok [A.inputs[i], B.inputs[i]] := by
    simp only [exceptMapM, List.getElem?_eq_getElem hiA,
      List.getElem?_eq_getElem hi, ok_bind, pure_eq_ok]
  rw [hcol] at hfi2
  simp only [ok_bind] at hfi2
  have hsigs := combineInput2_sigs (combine_pair_input hfi2)
  refine ⟨A.inputs[i], B.inputs[i], cols[i],
    List.getElem?_eq_getElem hiA, List.getElem?_eq_getElem hi, ?_, ?_⟩
  · show (A.inputs.mapIdx (fun j v => cols.getD j v))[i]? = some cols[i]
    rw [getElem?_mapIdx_self hiA]
    congr 1
    exact List.getD_eq_getElem cols _ hic
  · intro k
    rw [hsigs]
    exact dictLookup_mergeDict (hnd _ (List.getElem_mem hi))
      (A.inputs[i].partial_sigs) k

/-- The combined container for the amended C3 at two compatible
co-signer containers. -/
def psbtC3res : Psbt := { psbt9 with inputs :=
  [{ PsbtInput.init with partial_sigs := [([1], [0xa]), ([2], [0xb])] }] }

theorem c3_witness :
    ∃ ra rb rc,
      ({ psbt9 with inputs := [{ PsbtInput.init with
          partial_sigs := [([1], [0xa])] }] } : Psbt).inputs[0]? = some ra ∧
      ({ psbt9 with inputs := [{ PsbtInput.init with
          partial_sigs := [([2], [0xb])] }] } : Psbt).inputs[0]? = some rb ∧
      psbtC3res.inputs[0]? = some rc ∧
      ∀ k, dictLookup k rc.partial_sigs =
        (dictLookup k rb.partial_sigs).elim
          (dictLookup k ra.partial_sigs) some :=
  c3_combine_union _ _ psbtC3res 0 (by decide) (by decide) (by decide)
    (by decide)

theorem foldlM_append {α β : Type} (f : β → α → Except String β)
    (l1 l2 : List α) (b : β) :
    List.foldlM f b (l1 ++ l2) =
      (List.foldlM f b l1) >>= fun b2 => List.foldlM f b2 l2 := by
  induction l1 generalizing b with
  | nil => simp [List.foldlM]
  | cons x xs ih =>
    simp only [List.cons_append, List.foldlM]
    cases hf : f b x with
    | error e => simp
    | ok b1 => simp [ih]

theorem dictInsert_fresh {κ α : Type} [DecidableEq κ] {d : List (κ × α)}
    {k : κ} (v : α) (h : k ∉ d.map Prod.fst) :
    dictInsert d k v = d ++ [(k, v)] := by
  induction d with
  | nil => rfl
  | cons kv rest ih =>
    cases kv with
    | mk k0 v0 =>
      simp only [List.map_cons, List.mem_cons, not_or] at h
      rw [dictInsert, if_neg (fun he => h.1 he.symm), ih h.2]
      rfl

theorem varint.encode_prefix_eq {a b : Nat} {ea eb x y : Bytes}
    (ha : varint.encode a = .ok ea) (hb : varint.encode b = .ok eb)
    (h : ea ++ x = eb ++ y) : a = b ∧ ea = eb ∧ x = y := by
  have hda := varint.decode_encode ha x
  have hdb := varint.decode_encode hb y
  rw [h, hdb] at hda
  have hab : a = b := (Except.ok.inj hda).symm
  subst hab
  have hee : ea = eb := Except.ok.inj (ha.symm.trans hb)
  subst hee
  exact ⟨rfl, rfl, List.append_cancel_left h⟩

/-- The proprietary entries emitted by the serializers, as §4.2
key-value pairs: key `0xfc ++ varint(owner) ++ subkey`. -/
def propEntries : List (Nat × List (Bytes × Bytes)) →
    Except String (List (Bytes × Bytes))
  | [] => .ok []
  | (o, inner) :: rest => do
    let ob ← varint.encode o
    let tail ← propEntries rest
    pure (inner.map (fun kv => (0xfc :: (ob ++ kv.1), kv.2)) ++ tail)

theorem encodeEntries_append {a b : List (Bytes × Bytes)} {ba bb : Bytes}
    (ha : encodeEntries a = .ok ba) (hb : encodeEntries b = .ok bb) :
    encodeEntries (a ++ b) = .ok (ba ++ bb) := by
  induction a generalizing ba with
  | nil =>
    simp only [encodeEntries, Except.ok.injEq] at ha
    subst ha
    simpa using hb
  | cons kv rest ih =>
    simp only [encodeEntries] at ha ⊢
    cases hE : encodeEntry kv with
    | error e' => simp [hE] at ha
    | ok e =>
    cases hT : encodeEntries rest with
    | error e' => simp [hE, hT] at ha
    | ok tail =>
    simp only [hE, hT, ok_bind, pure_eq_ok, Except.ok.injEq] at ha
    subst ha
    simp only [hE, List.append_eq, ok_bind, ih hT, pure_eq_ok,
      List.append_assoc]

theorem unknownBytes_entries {unk : List (Bytes × Bytes)} {bs : Bytes}
    (h : unknownBytes unk = .ok bs) : encodeEntries unk = .ok bs := by
  induction unk generalizing bs with
  | nil => exact h
  | cons kv rest ih =>
    cases kv with
    | mk k v =>
      simp only [unknownBytes] at h
      cases hkl : varint.encode k.length with
      | error e' => simp [hkl] at h
      | ok kl =>
      cases hvl : varint.encode v.length with
      | error e' => simp [hkl, hvl] at h
      | ok vl =>
      cases hT : unknownBytes rest with
      | error e' => simp [hkl, hvl, hT] at h
      | ok tail =>
      simp only [hkl, hvl, hT, ok_bind, pure_eq_ok, Except.ok.injEq] at h
      subst h
      simp only [encodeEntries, encodeEntry, hkl, hvl, ok_bind, pure_eq_ok,
        ih hT, List.append_assoc]

theorem sigsBytes_entries {sigs : List (Bytes × Bytes)} {bs : Bytes}
    (hlen : ∀ kv ∈ sigs, kv.1.length = 33)
    (h : sigsBytes sigs = .ok bs) :
    encodeEntries (sigs.map (fun kv => (0x02 :: kv.1, kv.2))) = .ok bs := by
  induction sigs generalizing bs with
  | nil => exact h
  | cons kv rest ih =>
    cases kv with
    | mk k v =>
      simp only [sigsBytes] at h
      cases hvl : varint.encode v.length with
      | error e' => simp [hvl] at h
      | ok vl =>
      cases hT : sigsBytes rest with
      | error e' => simp [hvl, hT] at h
      | ok tail =>
      simp only [hvl, hT, ok_bind, pure_eq_ok, Except.ok.injEq] at h
      subst h
      have hk : k.length = 33 := hlen (k, v) (List.mem_cons_self _ _)
      have hkl : varint.encode (0x02 :: k).length = .ok [0x22] := by
        simp [List.length_cons, hk, varint.encode]
      simp only [List.map_cons, encodeEntries, encodeEntry, hkl, hvl, ok_bind,
        pure_eq_ok, ih (fun u hu => hlen u (List.mem_cons_of_mem _ hu)) hT,
        List.append_assoc]
      rfl

theorem hdBytes_entries {hds : List HdKeypath} {bs : Bytes}
    {kl0 tag xlen : Nat} (hx : ∀ h ∈ hds, h.xpub.length = xlen)
    (hkl : varint.encode (xlen + 1) = .ok [kl0])
    (h : hdBytes [kl0, tag] hds = .ok bs) :
    encodeEntries (hds.map (fun h =>
      (tag :: h.xpub, h.fingerprint ++ h.derivation_path))) = .ok bs := by
  induction hds generalizing bs with
  | nil => exact h
  | cons hd rest ih =>
    simp only [hdBytes] at h
    cases hvl : varint.encode (hd.fingerprint ++ hd.derivation_path).length with
    | error e' => rw [hvl] at h; simp only [error_bind] at h; cases h
    | ok vl =>
    rw [hvl] at h
    simp only [ok_bind] at h
    cases hT : hdBytes [kl0, tag] rest with
    | error e' => rw [hT] at h; simp only [error_bind] at h; cases h
    | ok tail =>
    rw [hT] at h
    simp only [ok_bind, pure_eq_ok, Except.ok.injEq] at h
    subst h
    have hklen : varint.encode (hd.xpub.length + 1) = .ok [kl0] := by
      rw [hx hd (List.mem_cons_self _ _)]
      exact hkl
    have hvl2 : varint.encode
        (hd.fingerprint.length + hd.derivation_path.length) = .ok vl := by
      rw [← List.length_append]
      exact hvl
    simp [encodeEntries, encodeEntry, hklen, hvl2,
      ih (fun u hu => hx u (List.mem_cons_of_mem _ hu)) hT,
      List.append_assoc]

theorem propInnerBytes_entries {o : Nat} {ob : Bytes}
    {inner : List (Bytes × Bytes)} {bs : Bytes}
    (hob : varint.encode o = .ok ob) (h : propInnerBytes o inner = .ok bs) :
    encodeEntries (inner.map (fun kv => (0xfc :: (ob ++ kv.1), kv.2)))
      = .ok bs := by
  induction inner generalizing bs with
  | nil => exact h
  | cons kv rest ih =>
    cases kv with
    | mk k v =>
      simp only [propInnerBytes] at h
      rw [hob] at h
      simp only [ok_bind] at h
      cases hkl : varint.encode (0xfc :: (ob ++ k)).length with
      | error e' => rw [hkl] at h; simp only [error_bind] at h; cases h
      | ok kl =>
      rw [hkl] at h
      simp only [ok_bind] at h
      cases hvl : varint.encode v.length with
      | error e' => rw [hvl] at h; simp only [error_bind] at h; cases h
      | ok vl =>
      rw [hvl] at h
      simp only [ok_bind] at h
      cases hT : propInnerBytes o rest with
      | error e' => rw [hT] at h; simp only [error_bind] at h; cases h
      | ok tail =>
      rw [hT] at h
      simp only [ok_bind, pure_eq_ok, Except.ok.injEq] at h
      subst h
      have hkl2 : varint.encode (ob.length + k.length + 1) = .ok kl := by
        have hlen : (0xfc :: (ob ++ k)).length = ob.length + k.length + 1 := by
          simp [List.length_cons, List.length_append]
        rw [← hlen]
        exact hkl
      simp [encodeEntries, encodeEntry, hkl2, hvl, ih hT, List.append_assoc]

theorem propBytes_entries {props : List (Nat × List (Bytes × Bytes))}
    {bs : Bytes} (hne : ∀ q ∈ props, q.2 ≠ [])
    (h : propBytes props = .ok bs) :
    ∃ es, propEntries props = .ok es ∧ encodeEntries es = .ok bs := by
  induction props generalizing bs with
  | nil =>
    simp only [propBytes, Except.ok.injEq] at h
    exact ⟨[], rfl, h ▸ rfl⟩
  | cons p rest ih =>
    cases p with
    | mk o inner =>
      simp only [propBytes] at h
      cases hb : propInnerBytes o inner with
      | error e' => simp [hb] at h
      | ok b =>
      cases hT : propBytes rest with
      | error e' => simp [hb, hT] at h
      | ok tail =>
      simp only [hb, hT, ok_bind, pure_eq_ok, Except.ok.injEq] at h
      subst h
      obtain ⟨es, hes, henc⟩ :=
        ih (fun q hq => hne q (List.mem_cons_of_mem _ hq)) hT
      cases hob : varint.encode o with
      | error e' =>
        exfalso
        cases inner with
        | nil => exact hne (o, []) (List.mem_cons_self _ _) rfl
        | cons kv r2 => simp [propInnerBytes, hob] at hb
      | ok ob =>
        refine ⟨inner.map (fun kv => (0xfc :: (ob ++ kv.1), kv.2)) ++ es, ?_, ?_⟩
        · simp only [propEntries, hob, hes, ok_bind, pure_eq_ok]
        · exact encodeEntries_append (propInnerBytes_entries hob hb) henc

/-- A key routed to the `unknown` dict by `PsbtInput.decode`: non-empty
with a first byte that is no known input tag. -/
def inputUnknownKey (k : Bytes) : Prop :=
  match k with
  | [] => False
  | h :: _ => h ≠ 0x00 ∧ h ≠ 0x01 ∧ h ≠ 0x02 ∧ h ≠ 0x03 ∧ h ≠ 0x04 ∧
      h ≠ 0x05 ∧ h ≠ 0x06 ∧ h ≠ 0x07 ∧ h ≠ 0x08 ∧ h ≠ 0x09 ∧ h ≠ 0xFC

instance : DecidablePred inputUnknownKey := fun k =>
  match k with
  | [] => inferInstanceAs (Decidable False)
  | _ :: _ => inferInstanceAs (Decidable (_ ∧ _))

/-- A key routed to the `unknown` dict by `PsbtOutput.decode`. -/
def outputUnknownKey (k : Bytes) : Prop :=
  match k with
  | [] => False
  | h :: _ => h ≠ 0x00 ∧ h ≠ 0x01 ∧ h ≠ 0x02 ∧ h ≠ 0xFC

instance : DecidablePred outputUnknownKey := fun k =>
  match k with
  | [] => inferInstanceAs (Decidable False)
  | _ :: _ => inferInstanceAs (Decidable (_ ∧ _))

/-- A key routed to the `unknown` dict by the global-map loop. -/
def globalUnknownKey (k : Bytes) : Prop :=
  match k with
  | [] => False
  | h :: _ => h ≠ 0x00 ∧ h ≠ 0x01 ∧ h ≠ 0xFB ∧ h ≠ 0xFC

instance : DecidablePred globalUnknownKey := fun k =>
  match k with
  | [] => inferInstanceAs (Decidable False)
  | _ :: _ => inferInstanceAs (Decidable (_ ∧ _))

theorem decodeStep_in_nwu (s : PsbtInput) (v : Bytes) {u : Tx}
    (h : Tx.deserialize v true = .ok u) :
    PsbtInput.decodeStep s ([0x00], v)
      = .ok { s with non_witness_utxo := some u } := by
  simp [PsbtInput.decodeStep, h]

theorem decodeStep_in_wu (s : PsbtInput) (v : Bytes) {o : TxOut}
    (h : TxOut.deserialize v = .ok o) :
    PsbtInput.decodeStep s ([0x01], v)
      = .ok { s with witness_utxo := some o } := by
  simp [PsbtInput.decodeStep, h]

theorem decodeStep_in_sig (s : PsbtInput) {k : Bytes} (v : Bytes)
    (hk : k.length = 33) :
    PsbtInput.decodeStep s (0x02 :: k, v)
      = .ok { s with partial_sigs := dictInsert s.partial_sigs k v } := by
  simp [PsbtInput.decodeStep, hk]

theorem decodeStep_in_sighash (s : PsbtInput) {v : Bytes}
    (hv : v.length = 4) :
    PsbtInput.decodeStep s ([0x03], v)
      = .ok { s with sighash := some (fromLE v) } := by
  simp [PsbtInput.decodeStep, hv]

theorem decodeStep_in_redeem (s : PsbtInput) (v : Bytes) {ts : List Token}
    (h : script.decode v = .ok ts) :
    PsbtInput.decodeStep s ([0x04], v)
      = .ok { s with redeem_script := ts } := by
  simp [PsbtInput.decodeStep, h]

theorem decodeStep_in_ws (s : PsbtInput) (v : Bytes) {ts : List Token}
    (h : script.decode v = .ok ts) :
    PsbtInput.decodeStep s ([0x05], v)
      = .ok { s with witness_script := ts } := by
  simp [PsbtInput.decodeStep, h]

theorem decodeStep_in_hd (s : PsbtInput) {xpub fp path : Bytes}
    (hx : xpub.length = 33) (hf : fp.length = 4) (hp : path.length % 4 = 0) :
    PsbtInput.decodeStep s (0x06 :: xpub, fp ++ path)
      = .ok { s with hd_keypaths := s.hd_keypaths ++ [⟨xpub, fp, path⟩] } := by
  have hlen : (fp.length + path.length) % 4 = 0 := by
    rw [hf]
    omega
  simp [PsbtInput.decodeStep, hx, hlen, take_append_length hf,
    drop_append_length hf]

theorem decodeStep_in_fss (s : PsbtInput) (v : Bytes) {ts : List Token}
    (h : script.decode v = .ok ts) :
    PsbtInput.decodeStep s ([0x07], v)
      = .ok { s with final_script_sig := ts } := by
  simp [PsbtInput.decodeStep, h]

theorem decodeStep_in_fsw (s : PsbtInput) (v : Bytes) {w : List Bytes}
    (h : witness_deserialize v = .ok w) :
    PsbtInput.decodeStep s ([0x08], v)
      = .ok { s with final_script_witness := w } := by
  simp [PsbtInput.decodeStep, h]

theorem decodeStep_in_por (s : PsbtInput) (v : Bytes) :
    PsbtInput.decodeStep s ([0x09], v)
      = .ok { s with por_commitment := some v } := by
  simp [PsbtInput.decodeStep]

theorem decodeStep_in_prop (s : PsbtInput) {o : Nat} {ob : Bytes}
    (k v : Bytes) (hob : varint.encode o = .ok ob) :
    PsbtInput.decodeStep s (0xfc :: (ob ++ k), v)
      = .ok { s with proprietary := propInsert s.proprietary o k v } := by
  have hd : varint.decode (ob ++ k) = .ok o := varint.decode_encode hob k
  have hdrop : (0xfc :: (ob ++ k)).drop (1 + ob.length) = k := by
    rw [Nat.add_comm, List.drop_succ_cons, drop_append_length rfl]
  simp [PsbtInput.decodeStep, hd, hob, hdrop]

theorem decodeStep_in_unknown (s : PsbtInput) {k : Bytes} (v : Bytes)
    (hk : inputUnknownKey k) :
    PsbtInput.decodeStep s (k, v)
      = .ok { s with unknown := dictInsert s.unknown k v } := by
  match k with
  | [] => cases hk
  | h :: kt =>
    obtain ⟨h0, h1, h2, h3, h4, h5, h6, h7, h8, h9, hfc⟩ := hk
    simp [PsbtInput.decodeStep, h0, h1, h2, h3, h4, h5, h6, h7, h8, h9, hfc]

theorem fold_in_sigs {sigs2 : List (Bytes × Bytes)} :
    ∀ s : PsbtInput, (∀ kv ∈ sigs2, kv.1.length = 33) →
    (s.partial_sigs.map Prod.fst ++ sigs2.map Prod.fst).Nodup →
    List.foldlM PsbtInput.decodeStep s
      (sigs2.map (fun kv => (0x02 :: kv.1, kv.2)))
      = .ok { s with partial_sigs := s.partial_sigs ++ sigs2 } := by
  induction sigs2 with
  | nil => intro s _ _; simp [List.foldlM]
  | cons kv rest ih =>
    cases kv with
    | mk k v =>
      intro s hk hnd
      simp only [List.map_cons, List.foldlM]
      rw [decodeStep_in_sig s v (hk (k, v) (List.mem_cons_self _ _))]
      simp only [ok_bind]
      have hfresh : k ∉ s.partial_sigs.map Prod.fst := by
        rw [List.nodup_append] at hnd
        exact fun hm => hnd.2.2 hm (by simp)
      rw [dictInsert_fresh v hfresh]
      rw [ih { s with partial_sigs := s.partial_sigs ++ [(k, v)] }
        (fun u hu => hk u (List.mem_cons_of_mem _ hu))
        (by simpa [List.append_assoc] using hnd)]
      simp [List.append_assoc]

theorem fold_in_hd {hds : List HdKeypath} :
    ∀ s : PsbtInput,
    (∀ h ∈ hds, h.xpub.length = 33 ∧ h.fingerprint.length = 4 ∧
      h.derivation_path.length % 4 = 0) →
    List.foldlM PsbtInput.decodeStep s
      (hds.map (fun h => (0x06 :: h.xpub, h.fingerprint ++ h.derivation_path)))
      = .ok { s with hd_keypaths := s.hd_keypaths ++ hds } := by
  induction hds with
  | nil => intro s _; simp [List.foldlM]
  | cons hd rest ih =>
    intro s hwf
    obtain ⟨hx, hf, hp⟩ := hwf hd (List.mem_cons_self _ _)
    simp only [List.map_cons, List.foldlM]
    rw [decodeStep_in_hd s hx hf hp]
    simp only [ok_bind]
    rw [ih _ (fun u hu => hwf u (List.mem_cons_of_mem _ hu))]
    simp [List.append_assoc]

theorem fold_in_unknown {unk : List (Bytes × Bytes)} :
    ∀ s : PsbtInput, (∀ kv ∈ unk, inputUnknownKey kv.1) →
    (s.unknown.map Prod.fst ++ unk.map Prod.fst).Nodup →
    List.foldlM PsbtInput.decodeStep s unk
      = .ok { s with unknown := s.unknown ++ unk } := by
  induction unk with
  | nil => intro s _ _; simp [List.foldlM]
  | cons kv rest ih =>
    cases kv with
    | mk k v =>
      intro s hk hnd
      simp only [List.foldlM]
      rw [decodeStep_in_unknown s v (hk (k, v) (List.mem_cons_self _ _))]
      simp only [ok_bind]
      have hfresh : k ∉ s.unknown.map Prod.fst := by
        rw [List.nodup_append] at hnd
        exact fun hm => hnd.2.2 hm (by simp)
      rw [dictInsert_fresh v hfresh]
      rw [ih { s with unknown := s.unknown ++ [(k, v)] }
        (fun u hu => hk u (List.mem_cons_of_mem _ hu))
        (by simpa [List.append_assoc] using hnd)]
      simp [List.append_assoc]

theorem propInsert_fresh {d : List (Nat × List (Bytes × Bytes))} {o : Nat}
    (k v : Bytes) (h : o ∉ d.map Prod.fst) :
    propInsert d o k v = d ++ [(o, [(k, v)])] := by
  induction d with
  | nil => rfl
  | cons p rest ih =>
    cases p with
    | mk o0 inner =>
      simp only [List.map_cons, List.mem_cons, not_or] at h
      rw [propInsert, if_neg (fun he => h.1 he.symm), ih h.2]
      rfl

theorem propInsert_last {prior : List (Nat × List (Bytes × Bytes))} {o : Nat}
    (inner : List (Bytes × Bytes)) (k v : Bytes)
    (h : o ∉ prior.map Prod.fst) :
    propInsert (prior ++ [(o, inner)]) o k v
      = prior ++ [(o, dictInsert inner k v)] := by
  induction prior with
  | nil => simp [propInsert]
  | cons p rest ih =>
    cases p with
    | mk o0 inner0 =>
      simp only [List.map_cons, List.mem_cons, not_or] at h
      rw [List.cons_append, propInsert, if_neg (fun he => h.1 he.symm), ih h.2]
      rfl

theorem fold_in_prop_inner {o : Nat} {ob : Bytes}
    (hob : varint.encode o = .ok ob) {todo : List (Bytes × Bytes)} :
    ∀ (done : List (Bytes × Bytes))
      (prior : List (Nat × List (Bytes × Bytes))) (s : PsbtInput),
    s.proprietary = prior ++ [(o, done)] →
    o ∉ prior.map Prod.fst →
    (done.map Prod.fst ++ todo.map Prod.fst).Nodup →
    List.foldlM PsbtInput.decodeStep s
      (todo.map (fun kv => (0xfc :: (ob ++ kv.1), kv.2)))
      = .ok { s with proprietary := prior ++ [(o, done ++ todo)] } := by
  induction todo with
  | nil =>
    intro done prior s hs _ _
    simp [List.foldlM, ← hs]
  | cons kv rest ih =>
    cases kv with
    | mk k v =>
      intro done prior s hs hfresh hnd
      simp only [List.map_cons, List.foldlM]
      rw [decodeStep_in_prop s k v hob]
      simp only [ok_bind]
      rw [hs, propInsert_last done k v hfresh]
      have hkfresh : k ∉ done.map Prod.fst := by
        rw [List.nodup_append] at hnd
        exact fun hm => hnd.2.2 hm (by simp)
      rw [dictInsert_fresh v hkfresh]
      rw [ih (done ++ [(k, v)]) prior _ rfl hfresh
        (by simpa [List.append_assoc] using hnd)]
      simp [List.append_assoc]

theorem fold_in_prop {props : List (Nat × List (Bytes × Bytes))} :
    ∀ es (s : PsbtInput), propEntries props = .ok es →
    (∀ q ∈ props, q.2 ≠ [] ∧ keysNodup q.2) →
    (s.proprietary.map Prod.fst ++ props.map Prod.fst).Nodup →
    List.foldlM PsbtInput.decodeStep s es
      = .ok { s with proprietary := s.proprietary ++ props } := by
  induction props with
  | nil =>
    intro es s hes _ _
    simp only [propEntries, Except.ok.injEq] at hes
    subst hes
    simp [List.foldlM]
  | cons p rest ih =>
    cases p with
    | mk o inner =>
      intro es s hes hwf hnd
      simp only [propEntries] at hes
      cases hob : varint.encode o with
      | error e' => rw [hob] at hes; simp only [error_bind] at hes; cases hes
      | ok ob =>
      rw [hob] at hes
      simp only [ok_bind] at hes
      cases hT : propEntries rest with
      | error e' => rw [hT] at hes; simp only [error_bind] at hes; cases hes
      | ok tes =>
      rw [hT] at hes
      simp only [ok_bind, pure_eq_ok, Except.ok.injEq] at hes
      subst hes
      rw [foldlM_append]
      obtain ⟨hne, hknd⟩ := hwf (o, inner) (List.mem_cons_self _ _)
      obtain ⟨kv0, irest, hinner⟩ := List.exists_cons_of_ne_nil hne
      subst hinner
      cases kv0 with
      | mk k0 v0 =>
        simp only [List.map_cons, List.foldlM]
        rw [decodeStep_in_prop s k0 v0 hob]
        simp only [ok_bind]
        have hofresh : o ∉ s.proprietary.map Prod.fst := by
          rw [List.nodup_append] at hnd
          exact fun hm => hnd.2.2 hm (by simp)
        rw [propInsert_fresh k0 v0 hofresh]
        rw [fold_in_prop_inner hob [(k0, v0)] s.proprietary _ rfl hofresh
          (by simpa only [keysNodup, List.map_cons, List.map_nil,
            List.singleton_append] using hknd)]
        simp only [ok_bind, List.singleton_append]
        rw [ih tes { s with proprietary :=
            s.proprietary ++ [(o, (k0, v0) :: irest)] } hT
          (fun q hq => hwf q (List.mem_cons_of_mem _ hq))
          (by simpa [List.append_assoc] using hnd)]
        simp [List.append_assoc]

/-- Well-formedness of an optional component. -/
def optWf {α : Type} (P : α → Prop) : Option α → Prop
  | none => True
  | some x => P x

instance {α : Type} (P : α → Prop) [DecidablePred P] :
    DecidablePred (optWf P) := fun o =>
  match o with
  | none => inferInstanceAs (Decidable True)
  | some x => inferInstanceAs (Decidable (P x))

theorem forall_mem_append {α : Type} {P : α → Prop} {A B : List α}
    (hA : ∀ x ∈ A, P x) (hB : ∀ x ∈ B, P x) : ∀ x ∈ A ++ B, P x :=
  fun x hx => (List.mem_append.mp hx).elim (hA x) (hB x)



theorem inChunk0_codes {s : PsbtInput} {c : Bytes}
    (hwf : optWf wfTx s.non_witness_utxo) (h : inChunk0 s = .ok c) :
    ∃ es, encodeEntries es = .ok c ∧ (es.map Prod.fst).Nodup ∧
      (∀ kv ∈ es, kv.1.headD 256 = 0x00) ∧
      ∀ t : PsbtInput, t.non_witness_utxo = none →
        List.foldlM PsbtInput.decodeStep t es
          = .ok { t with non_witness_utxo := s.non_witness_utxo } := by
  cases hnwu : s.non_witness_utxo with
  | none =>
    rw [inChunk0, hnwu] at h
    simp only [pure_eq_ok, Except.ok.injEq] at h
    subst h
    refine ⟨[], rfl, by simp, by simp, fun t ht => ?_⟩
    rw [← ht]
    rfl
  | some u =>
    rw [inChunk0, hnwu] at h
    have h2 : (do
        let utxo ← u.serialize true true
        let l ← varint.encode utxo.length
        pure ([0x01, 0x00] ++ l ++ utxo)) = Except.ok c := h
    clear h
    cases hu : u.serialize true true with
    | error e' => rw [hu] at h2; simp only [error_bind] at h2; cases h2
    | ok utxo =>
    rw [hu] at h2
    simp only [ok_bind] at h2
    cases hl : varint.encode utxo.length with
    | error e' => rw [hl] at h2; simp only [error_bind] at h2; cases h2
    | ok l =>
    rw [hl] at h2
    simp only [ok_bind, pure_eq_ok, Except.ok.injEq] at h2
    subst h2
    have hwtx : wfTx u := by rw [hnwu] at hwf; exact hwf
    have hdes : Tx.deserialize utxo true = .ok u :=
      tx_exact_roundtrip hwtx hu
    have h1 : varint.encode 1 = .ok [1] := rfl
    refine ⟨[([0x00], utxo)], ?_, by simp, by simp, fun t _ => ?_⟩
    · simp [encodeEntries, encodeEntry, h1, hl]
    · simp only [List.foldlM]
      rw [decodeStep_in_nwu t utxo hdes]
      simp [hnwu]

theorem inChunk1_codes {s : PsbtInput} {c : Bytes}
    (hwf : optWf wfTxOut s.witness_utxo) (h : inChunk1 s = .ok c) :
    ∃ es, encodeEntries es = .ok c ∧ (es.map Prod.fst).Nodup ∧
      (∀ kv ∈ es, kv.1.headD 256 = 0x01) ∧
      ∀ t : PsbtInput, t.witness_utxo = none →
        List.foldlM PsbtInput.decodeStep t es
          = .ok { t with witness_utxo := s.witness_utxo } := by
  cases hwu : s.witness_utxo with
  | none =>
    rw [inChunk1, hwu] at h
    simp only [pure_eq_ok, Except.ok.injEq] at h
    subst h
    refine ⟨[], rfl, by simp, by simp, fun t ht => ?_⟩
    rw [← ht]
    rfl
  | some o =>
    rw [inChunk1, hwu] at h
    have h2 : (do
        let utxo ← o.serialize
        let l ← varint.encode utxo.length
        pure ([0x01, 0x01] ++ l ++ utxo)) = Except.ok c := h
    clear h
    cases hu : o.serialize with
    | error e' => rw [hu] at h2; simp only [error_bind] at h2; cases h2
    | ok utxo =>
    rw [hu] at h2
    simp only [ok_bind] at h2
    cases hl : varint.encode utxo.length with
    | error e' => rw [hl] at h2; simp only [error_bind] at h2; cases h2
    | ok l =>
    rw [hl] at h2
    simp only [ok_bind, pure_eq_ok, Except.ok.injEq] at h2
    subst h2
    have hwto : wfTxOut o := by rw [hwu] at hwf; exact hwf
    have hdes : TxOut.deserialize utxo = .ok o :=
      txOut_exact_roundtrip hwto hu
    have h1 : varint.encode 1 = .ok [1] := rfl
    refine ⟨[([0x01], utxo)], ?_, by simp, by simp, fun t _ => ?_⟩
    · simp [encodeEntries, encodeEntry, h1, hl]
    · simp only [List.foldlM]
      rw [decodeStep_in_wu t utxo hdes]
      simp [hwu]

theorem inChunk3_codes {s : PsbtInput} {c : Bytes}
    (hwf : s.sighash.isSome) (h : inChunk3 s = .ok c) :
    ∃ es, encodeEntries es = .ok c ∧ (es.map Prod.fst).Nodup ∧
      (∀ kv ∈ es, kv.1.headD 256 = 0x03) ∧
      ∀ t : PsbtInput, t.sighash = some 0 →
        List.foldlM PsbtInput.decodeStep t es
          = .ok { t with sighash := s.sighash } := by
  by_cases htr : natOptTruthy s.sighash
  · rw [inChunk3, if_pos htr] at h
    cases hb : to_bytes (s.sighash.getD 0) 4 with
    | error e' => rw [hb] at h; simp only [error_bind] at h; cases h
    | ok b =>
    rw [hb] at h
    simp only [ok_bind, pure_eq_ok, Except.ok.injEq] at h
    subst h
    obtain ⟨hble, hlt⟩ := to_bytes_ok hb
    subst hble
    have hv4 : (toLE 4 (s.sighash.getD 0)).length = 4 := toLE_length 4 _
    have hsome : s.sighash = some (s.sighash.getD 0) := by
      cases hs : s.sighash with
      | none => rw [hs] at hwf; cases hwf
      | some v => rfl
    refine ⟨[([0x03], toLE 4 (s.sighash.getD 0))], ?_, by simp, by simp,
      fun t _ => ?_⟩
    · have hvl : varint.encode (toLE 4 (s.sighash.getD 0)).length
          = .ok [0x04] := by rw [hv4]; rfl
      have h1 : varint.encode 1 = .ok [1] := rfl
      simp [encodeEntries, encodeEntry, h1, hvl]
    · simp only [List.foldlM]
      rw [decodeStep_in_sighash t hv4]
      rw [fromLE_toLE hlt]
      rw [← hsome]
      simp
  · rw [inChunk3, if_neg htr] at h
    simp only [pure_eq_ok, Except.ok.injEq] at h
    subst h
    have hzero : s.sighash = some 0 := by
      cases hs : s.sighash with
      | none => rw [hs] at hwf; cases hwf
      | some v =>
        rw [hs] at htr
        have hv0 : v = 0 := by simpa [natOptTruthy] using htr
        rw [hv0]
    refine ⟨[], rfl, by simp, by simp, fun t ht => ?_⟩
    rw [hzero, ← ht]
    rfl

theorem inChunk4_codes {s : PsbtInput} {c : Bytes}
    (hwf : wfScript s.redeem_script) (h : inChunk4 s = .ok c) :
    ∃ es, encodeEntries es = .ok c ∧ (es.map Prod.fst).Nodup ∧
      (∀ kv ∈ es, kv.1.headD 256 = 0x04) ∧
      ∀ t : PsbtInput, t.redeem_script = [] →
        List.foldlM PsbtInput.decodeStep t es
          = .ok { t with redeem_script := s.redeem_script } := by
  by_cases hne : s.redeem_script ≠ []
  · rw [inChunk4, if_pos hne] at h
    cases hb : script.serialize s.redeem_script with
    | error e' => rw [hb] at h; simp only [error_bind] at h; cases h
    | ok b =>
    rw [hb] at h
    simp only [ok_bind, pure_eq_ok, Except.ok.injEq] at h
    subst h
    obtain ⟨e, l, he, hl, hbe⟩ := script.serialize_ok hb
    subst hbe
    have hdec : script.decode e = .ok s.redeem_script :=
      script.decode_encode_tokens hwf he
    have h1 : varint.encode 1 = .ok [1] := rfl
    refine ⟨[([0x04], e)], ?_, by simp, by simp, fun t _ => ?_⟩
    · simp [encodeEntries, encodeEntry, h1, hl]
    · simp only [List.foldlM]
      rw [decodeStep_in_redeem t e hdec]
      simp
  · rw [inChunk4, if_neg hne] at h
    simp only [pure_eq_ok, Except.ok.injEq] at h
    subst h
    have hnil : s.redeem_script = [] := not_not.mp hne
    refine ⟨[], rfl, by simp, by simp, fun t ht => ?_⟩
    rw [hnil, ← ht]
    rfl

theorem inChunk5_codes {s : PsbtInput} {c : Bytes}
    (hwf : wfScript s.witness_script) (h : inChunk5 s = .ok c) :
    ∃ es, encodeEntries es = .ok c ∧ (es.map Prod.fst).Nodup ∧
      (∀ kv ∈ es, kv.1.headD 256 = 0x05) ∧
      ∀ t : PsbtInput, t.witness_script = [] →
        List.foldlM PsbtInput.decodeStep t es
          = .ok { t with witness_script := s.witness_script } := by
  by_cases hne : s.witness_script ≠ []
  · rw [inChunk5, if_pos hne] at h
    cases hb : script.serialize s.witness_script with
    | error e' => rw [hb] at h; simp only [error_bind] at h; cases h
    | ok b =>
    rw [hb] at h
    simp only [ok_bind, pure_eq_ok, Except.ok.injEq] at h
    subst h
    obtain ⟨e, l, he, hl, hbe⟩ := script.serialize_ok hb
    subst hbe
    have hdec : script.decode e = .ok s.witness_script :=
      script.decode_encode_tokens hwf he
    have h1 : varint.encode 1 = .ok [1] := rfl
    refine ⟨[([0x05], e)], ?_, by simp, by simp, fun t _ => ?_⟩
    · simp [encodeEntries, encodeEntry, h1, hl]
    · simp only [List.foldlM]
      rw [decodeStep_in_ws t e hdec]
      simp
  · rw [inChunk5, if_neg hne] at h
    simp only [pure_eq_ok, Except.ok.injEq] at h
    subst h
    have hnil : s.witness_script = [] := not_not.mp hne
    refine ⟨[], rfl, by simp, by simp, fun t ht => ?_⟩
    rw [hnil, ← ht]
    rfl

theorem inChunk7_codes {s : PsbtInput} {c : Bytes}
    (hwf : wfScript s.final_script_sig) (h : inChunk7 s = .ok c) :
    ∃ es, encodeEntries es = .ok c ∧ (es.map Prod.fst).Nodup ∧
      (∀ kv ∈ es, kv.1.headD 256 = 0x07) ∧
      ∀ t : PsbtInput, t.final_script_sig = [] →
        List.foldlM PsbtInput.decodeStep t es
          = .ok { t with final_script_sig := s.final_script_sig } := by
  by_cases hne : s.final_script_sig ≠ []
  · rw [inChunk7, if_pos hne] at h
    cases hb : script.serialize s.final_script_sig with
    | error e' => rw [hb] at h; simp only [error_bind] at h; cases h
    | ok b =>
    rw [hb] at h
    simp only [ok_bind, pure_eq_ok, Except.ok.injEq] at h
    subst h
    obtain ⟨e, l, he, hl, hbe⟩ := script.serialize_ok hb
    subst hbe
    have hdec : script.decode e = .ok s.final_script_sig :=
      script.decode_encode_tokens hwf he
    have h1 : varint.encode 1 = .ok [1] := rfl
    refine ⟨[([0x07], e)], ?_, by simp, by simp, fun t _ => ?_⟩
    · simp [encodeEntries, encodeEntry, h1, hl]
    · simp only [List.foldlM]
      rw [decodeStep_in_fss t e hdec]
      simp
  · rw [inChunk7, if_neg hne] at h
    simp only [pure_eq_ok, Except.ok.injEq] at h
    subst h
    have hnil : s.final_script_sig = [] := not_not.mp hne
    refine ⟨[], rfl, by simp, by simp, fun t ht => ?_⟩
    rw [hnil, ← ht]
    rfl

theorem inChunk8_codes {s : PsbtInput} {c : Bytes} (h : inChunk8 s = .ok c) :
    ∃ es, encodeEntries es = .ok c ∧ (es.map Prod.fst).Nodup ∧
      (∀ kv ∈ es, kv.1.headD 256 = 0x08) ∧
      ∀ t : PsbtInput, t.final_script_witness = [] →
        List.foldlM PsbtInput.decodeStep t es
          = .ok { t with final_script_witness := s.final_script_witness } := by
  by_cases hne : s.final_script_witness ≠ []
  · rw [inChunk8, if_pos hne] at h
    cases hw : witness_serialize s.final_script_witness with
    | error e' => rw [hw] at h; simp only [error_bind] at h; cases h
    | ok wit =>
    rw [hw] at h
    simp only [ok_bind] at h
    cases hl : varint.encode wit.length with
    | error e' => rw [hl] at h; simp only [error_bind] at h; cases h
    | ok l =>
    rw [hl] at h
    simp only [ok_bind, pure_eq_ok, Except.ok.injEq] at h
    subst h
    have hdes : witness_deserialize wit = .ok s.final_script_witness :=
      witness_deserialize_serialize hw
    have h1 : varint.encode 1 = .ok [1] := rfl
    refine ⟨[([0x08], wit)], ?_, by simp, by simp, fun t _ => ?_⟩
    · simp [encodeEntries, encodeEntry, h1, hl]
    · simp only [List.foldlM]
      rw [decodeStep_in_fsw t wit hdes]
      simp
  · rw [inChunk8, if_neg hne] at h
    simp only [pure_eq_ok, Except.ok.injEq] at h
    subst h
    have hnil : s.final_script_witness = [] := not_not.mp hne
    refine ⟨[], rfl, by simp, by simp, fun t ht => ?_⟩
    rw [hnil, ← ht]
    rfl

theorem inChunk9_codes {s : PsbtInput} {c : Bytes}
    (hwf : s.por_commitment ≠ some []) (h : inChunk9 s = .ok c) :
    ∃ es, encodeEntries es = .ok c ∧ (es.map Prod.fst).Nodup ∧
      (∀ kv ∈ es, kv.1.headD 256 = 0x09) ∧
      ∀ t : PsbtInput, t.por_commitment = none →
        List.foldlM PsbtInput.decodeStep t es
          = .ok { t with por_commitment := s.por_commitment } := by
  by_cases htr : bytesOptTruthy s.por_commitment
  · rw [inChunk9, if_pos htr] at h
    have h2 : (do
        let l ← varint.encode (s.por_commitment.getD []).length
        pure ([0x01, 0x09] ++ l ++ s.por_commitment.getD []))
        = Except.ok c := h
    clear h
    cases hl : varint.encode (s.por_commitment.getD []).length with
    | error e' => rw [hl] at h2; simp only [error_bind] at h2; cases h2
    | ok l =>
    rw [hl] at h2
    simp only [ok_bind, pure_eq_ok, Except.ok.injEq] at h2
    subst h2
    have hsome : s.por_commitment = some (s.por_commitment.getD []) := by
      cases hp : s.por_commitment with
      | none => rw [hp] at htr; cases htr
      | some cb => rfl
    have h1 : varint.encode 1 = .ok [1] := rfl
    refine ⟨[([0x09], s.por_commitment.getD [])], ?_, by simp, by simp,
      fun t _ => ?_⟩
    · simp [encodeEntries, encodeEntry, h1, hl]
    · simp only [List.foldlM]
      rw [decodeStep_in_por t (s.por_commitment.getD [])]
      rw [← hsome]
      simp
  · rw [inChunk9, if_neg htr] at h
    simp only [pure_eq_ok, Except.ok.injEq] at h
    subst h
    have hnone : s.por_commitment = none := by
      cases hp : s.por_commitment with
      | none => rfl
      | some cb =>
        rw [hp] at htr
        have hcb : cb = [] := by simpa [bytesOptTruthy] using htr
        exact absurd (hp.trans (by rw [hcb])) hwf
    refine ⟨[], rfl, by simp, by simp, fun t ht => ?_⟩
    rw [hnone, ← ht]
    rfl

theorem inChunk2_codes {s : PsbtInput} {c : Bytes}
    (hlen : ∀ kv ∈ s.partial_sigs, kv.1.length = 33)
    (hnd : keysNodup s.partial_sigs)
    (h : sigsBytes s.partial_sigs = .ok c) :
    ∃ es, encodeEntries es = .ok c ∧ (es.map Prod.fst).Nodup ∧
      (∀ kv ∈ es, kv.1.headD 256 = 0x02) ∧
      ∀ t : PsbtInput, t.partial_sigs = [] →
        List.foldlM PsbtInput.decodeStep t es
          = .ok { t with partial_sigs := s.partial_sigs } := by
  refine ⟨s.partial_sigs.map (fun kv => (0x02 :: kv.1, kv.2)),
    sigsBytes_entries hlen h, ?_, ?_, ?_⟩
  · rw [List.map_map]
    rw [show (Prod.fst ∘ fun kv : Bytes × Bytes =>
        ((0x02 :: kv.1 : Bytes), kv.2))
      = (fun k : Bytes => 0x02 :: k) ∘ Prod.fst from rfl]
    rw [← List.map_map]
    refine List.Nodup.map ?_ hnd
    intro a b hab
    injection hab
  · intro kv hkv
    obtain ⟨kv0, _, hkv0⟩ := List.mem_map.mp hkv
    rw [← hkv0]
    rfl
  · intro t ht
    rw [fold_in_sigs t hlen (by rw [ht]; simpa [keysNodup] using hnd), ht]
    simp

theorem inChunk6_codes {s : PsbtInput} {c : Bytes}
    (hwfh : ∀ h ∈ s.hd_keypaths, h.xpub.length = 33 ∧
      h.fingerprint.length = 4 ∧ h.derivation_path.length % 4 = 0)
    (hnd : (s.hd_keypaths.map HdKeypath.xpub).Nodup)
    (h : hdBytes [0x22, 0x06] s.hd_keypaths = .ok c) :
    ∃ es, encodeEntries es = .ok c ∧ (es.map Prod.fst).Nodup ∧
      (∀ kv ∈ es, kv.1.headD 256 = 0x06) ∧
      ∀ t : PsbtInput, t.hd_keypaths = [] →
        List.foldlM PsbtInput.decodeStep t es
          = .ok { t with hd_keypaths := s.hd_keypaths } := by
  have hkl : varint.encode (33 + 1) = .ok [0x22] := rfl
  refine ⟨s.hd_keypaths.map (fun h =>
      (0x06 :: h.xpub, h.fingerprint ++ h.derivation_path)),
    hdBytes_entries (fun u hu => (hwfh u hu).1) hkl h, ?_, ?_, ?_⟩
  · rw [List.map_map]
    rw [show (Prod.fst ∘ fun h : HdKeypath =>
        ((0x06 :: h.xpub : Bytes), h.fingerprint ++ h.derivation_path))
      = (fun k : Bytes => 0x06 :: k) ∘ HdKeypath.xpub from rfl]
    rw [← List.map_map]
    refine List.Nodup.map ?_ hnd
    intro a b hab
    injection hab
  · intro kv hkv
    obtain ⟨h0, _, hkv0⟩ := List.mem_map.mp hkv
    rw [← hkv0]
    rfl
  · intro t ht
    rw [fold_in_hd t hwfh, ht]
    simp

theorem propEntries_keys {props : List (Nat × List (Bytes × Bytes))} :
    ∀ {es}, propEntries props = .ok es →
    ∀ kv ∈ es, ∃ o ob k, o ∈ props.map Prod.fst ∧
      varint.encode o = .ok ob ∧ kv.1 = 0xfc :: (ob ++ k) := by
  induction props with
  | nil =>
    intro es hes
    simp only [propEntries, Except.ok.injEq] at hes
    subst hes
    intro kv hkv
    cases hkv
  | cons p rest ih =>
    cases p with
    | mk o inner =>
      intro es hes
      simp only [propEntries] at hes
      cases hob : varint.encode o with
      | error e' => rw [hob] at hes; simp only [error_bind] at hes; cases hes
      | ok ob =>
      rw [hob] at hes
      simp only [ok_bind] at hes
      cases hT : propEntries rest with
      | error e' => rw [hT] at hes; simp only [error_bind] at hes; cases hes
      | ok tes =>
      rw [hT] at hes
      simp only [ok_bind, pure_eq_ok, Except.ok.injEq] at hes
      subst hes
      intro kv hkv
      cases List.mem_append.mp hkv with
      | inl hm =>
        obtain ⟨kv0, _, hkv0⟩ := List.mem_map.mp hm
        exact ⟨o, ob, kv0.1, by simp, hob, by rw [← hkv0]⟩
      | inr hm =>
        obtain ⟨o2, ob2, k2, ho2, hob2, hk2⟩ := ih hT kv hm
        exact ⟨o2, ob2, k2, by simp [ho2], hob2, hk2⟩

theorem propEntries_keys_nodup {props : List (Nat × List (Bytes × Bytes))} :
    ∀ {es}, propEntries props = .ok es →
    (props.map Prod.fst).Nodup → (∀ q ∈ props, keysNodup q.2) →
    (es.map Prod.fst).Nodup := by
  induction props with
  | nil =>
    intro es hes _ _
    simp only [propEntries, Except.ok.injEq] at hes
    subst hes
    simp
  | cons p rest ih =>
    cases p with
    | mk o inner =>
      intro es hes hnd hinner
      simp only [propEntries] at hes
      cases hob : varint.encode o with
      | error e' => rw [hob] at hes; simp only [error_bind] at hes; cases hes
      | ok ob =>
      rw [hob] at hes
      simp only [ok_bind] at hes
      cases hT : propEntries rest with
      | error e' => rw [hT] at hes; simp only [error_bind] at hes; cases hes
      | ok tes =>
      rw [hT] at hes
      simp only [ok_bind, pure_eq_ok, Except.ok.injEq] at hes
      subst hes
      rw [List.map_append]
      refine List.Nodup.append ?_ ?_ ?_
      · rw [List.map_map]
        rw [show (Prod.fst ∘ fun kv : Bytes × Bytes =>
            ((0xfc :: (ob ++ kv.1) : Bytes), kv.2))
          = (fun k : Bytes => 0xfc :: (ob ++ k)) ∘ Prod.fst from rfl]
        rw [← List.map_map]
        refine List.Nodup.map ?_ (hinner (o, inner) (List.mem_cons_self _ _))
        intro a b hab
        have hab2 : ob ++ a = ob ++ b := by injection hab
        exact List.append_cancel_left hab2
      · exact ih hT (List.nodup_cons.mp hnd).2
          (fun q hq => hinner q (List.mem_cons_of_mem _ hq))
      · intro a ha hb
        rw [List.map_map] at ha
        obtain ⟨kv0, _, hkv0⟩ := List.mem_map.mp ha
        obtain ⟨kv1, hkv1mem, hkv1⟩ := List.mem_map.mp hb
        obtain ⟨o2, ob2, k2, ho2, hob2, hk2⟩ := propEntries_keys hT kv1 hkv1mem
        have hxa : (0xfc :: (ob ++ kv0.1) : Bytes) = a := hkv0
        have hkeys : (0xfc :: (ob ++ kv0.1) : Bytes) = 0xfc :: (ob2 ++ k2) := by
          rw [hxa, ← hk2]
          exact hkv1.symm
        have happ : ob ++ kv0.1 = ob2 ++ k2 := by injection hkeys
        have ho : o = o2 := (varint.encode_prefix_eq hob hob2 happ).1
        exact (List.nodup_cons.mp hnd).1 (ho ▸ ho2)

theorem inChunk10_codes {s : PsbtInput} {c : Bytes}
    (hwfp : ∀ q ∈ s.proprietary, q.2 ≠ [] ∧ keysNodup q.2)
    (hnd : (s.proprietary.map Prod.fst).Nodup)
    (h : propBytes s.proprietary = .ok c) :
    ∃ es, encodeEntries es = .ok c ∧ (es.map Prod.fst).Nodup ∧
      (∀ kv ∈ es, kv.1.headD 256 = 0xFC) ∧
      ∀ t : PsbtInput, t.proprietary = [] →
        List.foldlM PsbtInput.decodeStep t es
          = .ok { t with proprietary := s.proprietary } := by
  obtain ⟨es, hes, henc⟩ := propBytes_entries (fun q hq => (hwfp q hq).1) h
  refine ⟨es, henc, propEntries_keys_nodup hes hnd
    (fun q hq => (hwfp q hq).2), ?_, ?_⟩
  · intro kv hkv
    obtain ⟨o2, ob2, k2, _, _, hk2⟩ := propEntries_keys hes kv hkv
    rw [hk2]
    rfl
  · intro t ht
    rw [fold_in_prop es t hes hwfp (by rw [ht]; simpa using hnd), ht]
    simp

theorem inChunk11_codes {s : PsbtInput} {c : Bytes}
    (hkey : ∀ kv ∈ s.unknown, inputUnknownKey kv.1)
    (hnd : keysNodup s.unknown)
    (h : unknownBytes s.unknown = .ok c) :
    ∃ es, encodeEntries es = .ok c ∧ (es.map Prod.fst).Nodup ∧
      (∀ kv ∈ es, inputUnknownKey kv.1) ∧
      ∀ t : PsbtInput, t.unknown = [] →
        List.foldlM PsbtInput.decodeStep t es
          = .ok { t with unknown := s.unknown } := by
  refine ⟨s.unknown, unknownBytes_entries h, hnd, hkey, ?_⟩
  intro t ht
  rw [fold_in_unknown t hkey (by rw [ht]; simpa [keysNodup] using hnd), ht]
  simp

/-- Well-formedness of a `PsbtInput` record for the serializer
roundtrip: component codecs apply, falsy-but-present corner values are
excluded, and the Python-dict unique-keys invariants hold. -/
def wfPsbtInput (s : PsbtInput) : Prop :=
  optWf wfTx s.non_witness_utxo ∧ optWf wfTxOut s.witness_utxo ∧
  (∀ kv ∈ s.partial_sigs, kv.1.length = 33) ∧ keysNodup s.partial_sigs ∧
  s.sighash.isSome ∧ wfScript s.redeem_script ∧ wfScript s.witness_script ∧
  (∀ h ∈ s.hd_keypaths, h.xpub.length = 33 ∧ h.fingerprint.length = 4 ∧
    h.derivation_path.length % 4 = 0) ∧
  (s.hd_keypaths.map HdKeypath.xpub).Nodup ∧
  wfScript s.final_script_sig ∧ s.por_commitment ≠ some [] ∧
  (∀ q ∈ s.proprietary, q.2 ≠ [] ∧ keysNodup q.2) ∧
  (s.proprietary.map Prod.fst).Nodup ∧
  (∀ kv ∈ s.unknown, inputUnknownKey kv.1) ∧ keysNodup s.unknown

instance : DecidablePred wfPsbtInput := fun s => by
  unfold wfPsbtInput
  infer_instance

theorem inputUnknownKey_headD {x : Bytes} (h : inputUnknownKey x) :
    x.headD 256 ≠ 0x00 ∧ x.headD 256 ≠ 0x01 ∧ x.headD 256 ≠ 0x02 ∧
    x.headD 256 ≠ 0x03 ∧ x.headD 256 ≠ 0x04 ∧ x.headD 256 ≠ 0x05 ∧
    x.headD 256 ≠ 0x06 ∧ x.headD 256 ≠ 0x07 ∧ x.headD 256 ≠ 0x08 ∧
    x.headD 256 ≠ 0x09 ∧ x.headD 256 ≠ 0xFC := by
  match x with
  | [] => cases h
  | b :: t => exact h

theorem inputUnknownKey_ne_nil {x : Bytes} (h : inputUnknownKey x) :
    x ≠ [] := by
  match x with
  | [] => cases h
  | b :: t => exact List.cons_ne_nil _ _

theorem ne_nil_of_headD {x : Bytes} {t : Nat} (h : x.headD 256 = t)
    (ht : t < 256) : x ≠ [] := by
  match x with
  | [] => simp only [List.headD_nil] at h; omega
  | b :: r => exact List.cons_ne_nil _ _

theorem input_keys_nodup {K0 K1 K2 K3 K4 K5 K6 K7 K8 K9 K10 K11 : List Bytes}
    (n0 : K0.Nodup)
    (n1 : K1.Nodup)
    (n2 : K2.Nodup)
    (n3 : K3.Nodup)
    (n4 : K4.Nodup)
    (n5 : K5.Nodup)
    (n6 : K6.Nodup)
    (n7 : K7.Nodup)
    (n8 : K8.Nodup)
    (n9 : K9.Nodup)
    (n10 : K10.Nodup)
    (n11 : K11.Nodup)
    (h0 : ∀ x ∈ K0, x.headD 256 = 0x00)
    (h1 : ∀ x ∈ K1, x.headD 256 = 0x01)
    (h2 : ∀ x ∈ K2, x.headD 256 = 0x02)
    (h3 : ∀ x ∈ K3, x.headD 256 = 0x03)
    (h4 : ∀ x ∈ K4, x.headD 256 = 0x04)
    (h5 : ∀ x ∈ K5, x.headD 256 = 0x05)
    (h6 : ∀ x ∈ K6, x.headD 256 = 0x06)
    (h7 : ∀ x ∈ K7, x.headD 256 = 0x07)
    (h8 : ∀ x ∈ K8, x.headD 256 = 0x08)
    (h9 : ∀ x ∈ K9, x.headD 256 = 0x09)
    (h10 : ∀ x ∈ K10, x.headD 256 = 0xFC)
    (h11 : ∀ x ∈ K11, inputUnknownKey x) :
    (K0 ++ (K1 ++ (K2 ++ (K3 ++ (K4 ++ (K5 ++ (K6 ++ (K7 ++ (K8 ++ (K9 ++ (K10 ++ (K11)))))))))))).Nodup := by
  have f0 : ∀ x ∈ K1 ++ (K2 ++ (K3 ++ (K4 ++ (K5 ++ (K6 ++ (K7 ++ (K8 ++ (K9 ++ (K10 ++ (K11)))))))))), x.headD 256 ≠ 0x00 :=
    (forall_mem_append (fun x hx => by rw [h1 x hx]; decide)
      (forall_mem_append (fun x hx => by rw [h2 x hx]; decide)
      (forall_mem_append (fun x hx => by rw [h3 x hx]; decide)
      (forall_mem_append (fun x hx => by rw [h4 x hx]; decide)
      (forall_mem_append (fun x hx => by rw [h5 x hx]; decide)
      (forall_mem_append (fun x hx => by rw [h6 x hx]; decide)
      (forall_mem_append (fun x hx => by rw [h7 x hx]; decide)
      (forall_mem_append (fun x hx => by rw [h8 x hx]; decide)
      (forall_mem_append (fun x hx => by rw [h9 x hx]; decide)
      (forall_mem_append (fun x hx => by rw [h10 x hx]; decide)
      (fun x hx => (inputUnknownKey_headD (h11 x hx)).1)))))))))))
  have f1 : ∀ x ∈ K2 ++ (K3 ++ (K4 ++ (K5 ++ (K6 ++ (K7 ++ (K8 ++ (K9 ++ (K10 ++ (K11))))))))), x.headD 256 ≠ 0x01 :=
    (forall_mem_append (fun x hx => by rw [h2 x hx]; decide)
      (forall_mem_append (fun x hx => by rw [h3 x hx]; decide)
      (forall_mem_append (fun x hx => by rw [h4 x hx]; decide)
      (forall_mem_append (fun x hx => by rw [h5 x hx]; decide)
      (forall_mem_append (fun x hx => by rw [h6 x hx]; decide)
      (forall_mem_append (fun x hx => by rw [h7 x hx]; decide)
      (forall_mem_append (fun x hx => by rw [h8 x hx]; decide)
      (forall_mem_append (fun x hx => by rw [h9 x hx]; decide)
      (forall_mem_append (fun x hx => by rw [h10 x hx]; decide)
      (fun x hx => (inputUnknownKey_headD (h11 x hx)).2.1))))))))))
  have f2 : ∀ x ∈ K3 ++ (K4 ++ (K5 ++ (K6 ++ (K7 ++ (K8 ++ (K9 ++ (K10 ++ (K11)))))))), x.headD 256 ≠ 0x02 :=
    (forall_mem_append (fun x hx => by rw [h3 x hx]; decide)
      (forall_mem_append (fun x hx => by rw [h4 x hx]; decide)
      (forall_mem_append (fun x hx => by rw [h5 x hx]; decide)
      (forall_mem_append (fun x hx => by rw [h6 x hx]; decide)
      (forall_mem_append (fun x hx => by rw [h7 x hx]; decide)
      (forall_mem_append (fun x hx => by rw [h8 x hx]; decide)
      (forall_mem_append (fun x hx => by rw [h9 x hx]; decide)
      (forall_mem_append (fun x hx => by rw [h10 x hx]; decide)
      (fun x hx => (inputUnknownKey_headD (h11 x hx)).2.2.1)))))))))
  have f3 : ∀ x ∈ K4 ++ (K5 ++ (K6 ++ (K7 ++ (K8 ++ (K9 ++ (K10 ++ (K11))))))), x.headD 256 ≠ 0x03 :=
    (forall_mem_append (fun x hx => by rw [h4 x hx]; decide)
      (forall_mem_append (fun x hx => by rw [h5 x hx]; decide)
      (forall_mem_append (fun x hx => by rw [h6 x hx]; decide)
      (forall_mem_append (fun x hx => by rw [h7 x hx]; decide)
      (forall_mem_append (fun x hx => by rw [h8 x hx]; decide)
      (forall_mem_append (fun x hx => by rw [h9 x hx]; decide)
      (forall_mem_append (fun x hx => by rw [h10 x hx]; decide)
      (fun x hx => (inputUnknownKey_headD (h11 x hx)).2.2.2.1))))))))
  have f4 : ∀ x ∈ K5 ++ (K6 ++ (K7 ++ (K8 ++ (K9 ++ (K10 ++ (K11)))))), x.headD 256 ≠ 0x04 :=
    (forall_mem_append (fun x hx => by rw [h5 x hx]; decide)
      (forall_mem_append (fun x hx => by rw [h6 x hx]; decide)
      (forall_mem_append (fun x hx => by rw [h7 x hx]; decide)
      (forall_mem_append (fun x hx => by rw [h8 x hx]; decide)
      (forall_mem_append (fun x hx => by rw [h9 x hx]; decide)
      (forall_mem_append (fun x hx => by rw [h10 x hx]; decide)
      (fun x hx => (inputUnknownKey_headD (h11 x hx)).2.2.2.2.1)))))))
  have f5 : ∀ x ∈ K6 ++ (K7 ++ (K8 ++ (K9 ++ (K10 ++ (K11))))), x.headD 256 ≠ 0x05 :=
    (forall_mem_append (fun x hx => by rw [h6 x hx]; decide)
      (forall_mem_append (fun x hx => by rw [h7 x hx]; decide)
      (forall_mem_append (fun x hx => by rw [h8 x hx]; decide)
      (forall_mem_append (fun x hx => by rw [h9 x hx]; decide)
      (forall_mem_append (fun x hx => by rw [h10 x hx]; decide)
      (fun x hx => (inputUnknownKey_headD (h11 x hx)).2.2.2.2.2.1))))))
  have f6 : ∀ x ∈ K7 ++ (K8 ++ (K9 ++ (K10 ++ (K11)))), x.headD 256 ≠ 0x06 :=
    (forall_mem_append (fun x hx => by rw [h7 x hx]; decide)
      (forall_mem_append (fun x hx => by rw [h8 x hx]; decide)
      (forall_mem_append (fun x hx => by rw [h9 x hx]; decide)
      (forall_mem_append (fun x hx => by rw [h10 x hx]; decide)
      (fun x hx => (inputUnknownKey_headD (h11 x hx)).2.2.2.2.2.2.1)))))
  have f7 : ∀ x ∈ K8 ++ (K9 ++ (K10 ++ (K11))), x.headD 256 ≠ 0x07 :=
    (forall_mem_append (fun x hx => by rw [h8 x hx]; decide)
      (forall_mem_append (fun x hx => by rw [h9 x hx]; decide)
      (forall_mem_append (fun x hx => by rw [h10 x hx]; decide)
      (fun x hx => (inputUnknownKey_headD (h11 x hx)).2.2.2.2.2.2.2.1))))
  have f8 : ∀ x ∈ K9 ++ (K10 ++ (K11)), x.headD 256 ≠ 0x08 :=
    (forall_mem_append (fun x hx => by rw [h9 x hx]; decide)
      (forall_mem_append (fun x hx => by rw [h10 x hx]; decide)
      (fun x hx => (inputUnknownKey_headD (h11 x hx)).2.2.2.2.2.2.2.2.1)))
  have f9 : ∀ x ∈ K10 ++ (K11), x.headD 256 ≠ 0x09 :=
    (forall_mem_append (fun x hx => by rw [h10 x hx]; decide)
      (fun x hx => (inputUnknownKey_headD (h11 x hx)).2.2.2.2.2.2.2.2.2.1))
  have f10 : ∀ x ∈ K11, x.headD 256 ≠ 0xFC :=
    (fun x hx => (inputUnknownKey_headD (h11 x hx)).2.2.2.2.2.2.2.2.2.2)
  have N11 : (K11).Nodup := n11
  have N10 : (K10 ++ (K11)).Nodup :=
    List.Nodup.append n10 N11 (fun a ha hb => f10 a hb (h10 a ha))
  have N9 : (K9 ++ (K10 ++ (K11))).Nodup :=
    List.Nodup.append n9 N10 (fun a ha hb => f9 a hb (h9 a ha))
  have N8 : (K8 ++ (K9 ++ (K10 ++ (K11)))).Nodup :=
    List.Nodup.append n8 N9 (fun a ha hb => f8 a hb (h8 a ha))
  have N7 : (K7 ++ (K8 ++ (K9 ++ (K10 ++ (K11))))).Nodup :=
    List.Nodup.append n7 N8 (fun a ha hb => f7 a hb (h7 a ha))
  have N6 : (K6 ++ (K7 ++ (K8 ++ (K9 ++ (K10 ++ (K11)))))).Nodup :=
    List.Nodup.append n6 N7 (fun a ha hb => f6 a hb (h6 a ha))
  have N5 : (K5 ++ (K6 ++ (K7 ++ (K8 ++ (K9 ++ (K10 ++ (K11))))))).Nodup :=
    List.Nodup.append n5 N6 (fun a ha hb => f5 a hb (h5 a ha))
  have N4 : (K4 ++ (K5 ++ (K6 ++ (K7 ++ (K8 ++ (K9 ++ (K10 ++ (K11)))))))).Nodup :=
    List.Nodup.append n4 N5 (fun a ha hb => f4 a hb (h4 a ha))
  have N3 : (K3 ++ (K4 ++ (K5 ++ (K6 ++ (K7 ++ (K8 ++ (K9 ++ (K10 ++ (K11))))))))).Nodup :=
    List.Nodup.append n3 N4 (fun a ha hb => f3 a hb (h3 a ha))
  have N2 : (K2 ++ (K3 ++ (K4 ++ (K5 ++ (K6 ++ (K7 ++ (K8 ++ (K9 ++ (K10 ++ (K11)))))))))).Nodup :=
    List.Nodup.append n2 N3 (fun a ha hb => f2 a hb (h2 a ha))
  have N1 : (K1 ++ (K2 ++ (K3 ++ (K4 ++ (K5 ++ (K6 ++ (K7 ++ (K8 ++ (K9 ++ (K10 ++ (K11))))))))))).Nodup :=
    List.Nodup.append n1 N2 (fun a ha hb => f1 a hb (h1 a ha))
  have N0 : (K0 ++ (K1 ++ (K2 ++ (K3 ++ (K4 ++ (K5 ++ (K6 ++ (K7 ++ (K8 ++ (K9 ++ (K10 ++ (K11)))))))))))).Nodup :=
    List.Nodup.append n0 N1 (fun a ha hb => f0 a hb (h0 a ha))
  exact N0

theorem psbtInput_codes {s : PsbtInput} {b : Bytes}
    (hwf : wfPsbtInput s) (h : PsbtInput.serialize s = .ok b) :
    ∃ es, encodeEntries es = .ok b ∧ (∀ kv ∈ es, kv.1 ≠ []) ∧
      (es.map Prod.fst).Nodup ∧ PsbtInput.decode es = .ok s := by
  obtain ⟨hw0, hw1, hw2len, hw2nd, hw3, hw4, hw5, hw6, hw6nd, hw7, hw9,
    hw10, hw10nd, hw11k, hw11nd⟩ := hwf
  rw [PsbtInput.serialize] at h
  cases hc0 : inChunk0 s with
  | error e => rw [hc0] at h; simp only [error_bind] at h; cases h
  | ok c0 =>
  rw [hc0] at h
  simp only [ok_bind] at h
  cases hc1 : inChunk1 s with
  | error e => rw [hc1] at h; simp only [error_bind] at h; cases h
  | ok c1 =>
  rw [hc1] at h
  simp only [ok_bind] at h
  cases hc2 : sigsBytes s.partial_sigs with
  | error e => rw [hc2] at h; simp only [error_bind] at h; cases h
  | ok c2 =>
  rw [hc2] at h
  simp only [ok_bind] at h
  cases hc3 : inChunk3 s with
  | error e => rw [hc3] at h; simp only [error_bind] at h; cases h
  | ok c3 =>
  rw [hc3] at h
  simp only [ok_bind] at h
  cases hc4 : inChunk4 s with
  | error e => rw [hc4] at h; simp only [error_bind] at h; cases h
  | ok c4 =>
  rw [hc4] at h
  simp only [ok_bind] at h
  cases hc5 : inChunk5 s with
  | error e => rw [hc5] at h; simp only [error_bind] at h; cases h
  | ok c5 =>
  rw [hc5] at h
  simp only [ok_bind] at h
  cases hc6 : hdBytes [0x22, 0x06] s.hd_keypaths with
  | error e => rw [hc6] at h; simp only [error_bind] at h; cases h
  | ok c6 =>
  rw [hc6] at h
  simp only [ok_bind] at h
  cases hc7 : inChunk7 s with
  | error e => rw [hc7] at h; simp only [error_bind] at h; cases h
  | ok c7 =>
  rw [hc7] at h
  simp only [ok_bind] at h
  cases hc8 : inChunk8 s with
  | error e => rw [hc8] at h; simp only [error_bind] at h; cases h
  | ok c8 =>
  rw [hc8] at h
  simp only [ok_bind] at h
  cases hc9 : inChunk9 s with
  | error e => rw [hc9] at h; simp only [error_bind] at h; cases h
  | ok c9 =>
  rw [hc9] at h
  simp only [ok_bind] at h
  cases hc10 : propBytes s.proprietary with
  | error e => rw [hc10] at h; simp only [error_bind] at h; cases h
  | ok c10 =>
  rw [hc10] at h
  simp only [ok_bind] at h
  cases hc11 : unknownBytes s.unknown with
  | error e => rw [hc11] at h; simp only [error_bind] at h; cases h
  | ok c11 =>
  rw [hc11] at h
  simp only [ok_bind] at h
  simp only [pure_eq_ok, Except.ok.injEq] at h
  subst h
  obtain ⟨es0, henc0, hnd0, hhd0, hfold0⟩ := inChunk0_codes hw0 hc0
  obtain ⟨es1, henc1, hnd1, hhd1, hfold1⟩ := inChunk1_codes hw1 hc1
  obtain ⟨es2, henc2, hnd2, hhd2, hfold2⟩ := inChunk2_codes hw2len hw2nd hc2
  obtain ⟨es3, henc3, hnd3, hhd3, hfold3⟩ := inChunk3_codes hw3 hc3
  obtain ⟨es4, henc4, hnd4, hhd4, hfold4⟩ := inChunk4_codes hw4 hc4
  obtain ⟨es5, henc5, hnd5, hhd5, hfold5⟩ := inChunk5_codes hw5 hc5
  obtain ⟨es6, henc6, hnd6, hhd6, hfold6⟩ := inChunk6_codes hw6 hw6nd hc6
  obtain ⟨es7, henc7, hnd7, hhd7, hfold7⟩ := inChunk7_codes hw7 hc7
  obtain ⟨es8, henc8, hnd8, hhd8, hfold8⟩ := inChunk8_codes hc8
  obtain ⟨es9, henc9, hnd9, hhd9, hfold9⟩ := inChunk9_codes hw9 hc9
  obtain ⟨es10, henc10, hnd10, hhd10, hfold10⟩ := inChunk10_codes hw10 hw10nd hc10
  obtain ⟨es11, henc11, hnd11, hhd11, hfold11⟩ := inChunk11_codes hw11k hw11nd hc11
  refine ⟨es0 ++ (es1 ++ (es2 ++ (es3 ++ (es4 ++ (es5 ++ (es6 ++ (es7 ++ (es8 ++ (es9 ++ (es10 ++ (es11))))))))))), ?_, ?_, ?_, ?_⟩
  · have hE :=
      (encodeEntries_append henc0
      (encodeEntries_append henc1
      (encodeEntries_append henc2
      (encodeEntries_append henc3
      (encodeEntries_append henc4
      (encodeEntries_append henc5
      (encodeEntries_append henc6
      (encodeEntries_append henc7
      (encodeEntries_append henc8
      (encodeEntries_append henc9
      (encodeEntries_append henc10
      henc11)))))))))))
    rw [hE]
    simp [List.append_assoc]
  · have hne11 : ∀ kv ∈ es11, kv.1 ≠ [] :=
      fun kv hkv => inputUnknownKey_ne_nil (hhd11 kv hkv)
    have hne0 : ∀ kv ∈ es0, kv.1 ≠ [] :=
      fun kv hkv => ne_nil_of_headD (hhd0 kv hkv) (by norm_num)
    have hne1 : ∀ kv ∈ es1, kv.1 ≠ [] :=
      fun kv hkv => ne_nil_of_headD (hhd1 kv hkv) (by norm_num)
    have hne2 : ∀ kv ∈ es2, kv.1 ≠ [] :=
      fun kv hkv => ne_nil_of_headD (hhd2 kv hkv) (by norm_num)
    have hne3 : ∀ kv ∈ es3, kv.1 ≠ [] :=
      fun kv hkv => ne_nil_of_headD (hhd3 kv hkv) (by norm_num)
    have hne4 : ∀ kv ∈ es4, kv.1 ≠ [] :=
      fun kv hkv => ne_nil_of_headD (hhd4 kv hkv) (by norm_num)
    have hne5 : ∀ kv ∈ es5, kv.1 ≠ [] :=
      fun kv hkv => ne_nil_of_headD (hhd5 kv hkv) (by norm_num)
    have hne6 : ∀ kv ∈ es6, kv.1 ≠ [] :=
      fun kv hkv => ne_nil_of_headD (hhd6 kv hkv) (by norm_num)
    have hne7 : ∀ kv ∈ es7, kv.1 ≠ [] :=
      fun kv hkv => ne_nil_of_headD (hhd7 kv hkv) (by norm_num)
    have hne8 : ∀ kv ∈ es8, kv.1 ≠ [] :=
      fun kv hkv => ne_nil_of_headD (hhd8 kv hkv) (by norm_num)
    have hne9 : ∀ kv ∈ es9, kv.1 ≠ [] :=
      fun kv hkv => ne_nil_of_headD (hhd9 kv hkv) (by norm_num)
    have hne10 : ∀ kv ∈ es10, kv.1 ≠ [] :=
      fun kv hkv => ne_nil_of_headD (hhd10 kv hkv) (by norm_num)
    exact
      (forall_mem_append hne0
      (forall_mem_append hne1
      (forall_mem_append hne2
      (forall_mem_append hne3
      (forall_mem_append hne4
      (forall_mem_append hne5
      (forall_mem_append hne6
      (forall_mem_append hne7
      (forall_mem_append hne8
      (forall_mem_append hne9
      (forall_mem_append hne10
      hne11)))))))))))
  · have hmapeq : ((es0 ++ (es1 ++ (es2 ++ (es3 ++ (es4 ++ (es5 ++ (es6 ++ (es7 ++ (es8 ++ (es9 ++ (es10 ++ (es11)))))))))))).map Prod.fst)
      = es0.map Prod.fst ++ (es1.map Prod.fst ++ (es2.map Prod.fst ++ (es3.map Prod.fst ++ (es4.map Prod.fst ++ (es5.map Prod.fst ++ (es6.map Prod.fst ++ (es7.map Prod.fst ++ (es8.map Prod.fst ++ (es9.map Prod.fst ++ (es10.map Prod.fst ++ (es11.map Prod.fst))))))))))) := by
      simp [List.map_append]
    rw [hmapeq]
    have g0 : ∀ x ∈ es0.map Prod.fst, x.headD 256 = 0x00 := by
      intro x hx
      obtain ⟨kv, hkv, hkveq⟩ := List.mem_map.mp hx
      rw [← hkveq]
      exact hhd0 kv hkv
    have g1 : ∀ x ∈ es1.map Prod.fst, x.headD 256 = 0x01 := by
      intro x hx
      obtain ⟨kv, hkv, hkveq⟩ := List.mem_map.mp hx
      rw [← hkveq]
      exact hhd1 kv hkv
    have g2 : ∀ x ∈ es2.map Prod.fst, x.headD 256 = 0x02 := by
      intro x hx
      obtain ⟨kv, hkv, hkveq⟩ := List.mem_map.mp hx
      rw [← hkveq]
      exact hhd2 kv hkv
    have g3 : ∀ x ∈ es3.map Prod.fst, x.headD 256 = 0x03 := by
      intro x hx
      obtain ⟨kv, hkv, hkveq⟩ := List.mem_map.mp hx
      rw [← hkveq]
      exact hhd3 kv hkv
    have g4 : ∀ x ∈ es4.map Prod.fst, x.headD 256 = 0x04 := by
      intro x hx
      obtain ⟨kv, hkv, hkveq⟩ := List.mem_map.mp hx
      rw [← hkveq]
      exact hhd4 kv hkv
    have g5 : ∀ x ∈ es5.map Prod.fst, x.headD 256 = 0x05 := by
      intro x hx
      obtain ⟨kv, hkv, hkveq⟩ := List.mem_map.mp hx
      rw [← hkveq]
      exact hhd5 kv hkv
    have g6 : ∀ x ∈ es6.map Prod.fst, x.headD 256 = 0x06 := by
      intro x hx
      obtain ⟨kv, hkv, hkveq⟩ := List.mem_map.mp hx
      rw [← hkveq]
      exact hhd6 kv hkv
    have g7 : ∀ x ∈ es7.map Prod.fst, x.headD 256 = 0x07 := by
      intro x hx
      obtain ⟨kv, hkv, hkveq⟩ := List.mem_map.mp hx
      rw [← hkveq]
      exact hhd7 kv hkv
    have g8 : ∀ x ∈ es8.map Prod.fst, x.headD 256 = 0x08 := by
      intro x hx
      obtain ⟨kv, hkv, hkveq⟩ := List.mem_map.mp hx
      rw [← hkveq]
      exact hhd8 kv hkv
    have g9 : ∀ x ∈ es9.map Prod.fst, x.headD 256 = 0x09 := by
      intro x hx
      obtain ⟨kv, hkv, hkveq⟩ := List.mem_map.mp hx
      rw [← hkveq]
      exact hhd9 kv hkv
    have g10 : ∀ x ∈ es10.map Prod.fst, x.headD 256 = 0xFC := by
      intro x hx
      obtain ⟨kv, hkv, hkveq⟩ := List.mem_map.mp hx
      rw [← hkveq]
      exact hhd10 kv hkv
    have g11 : ∀ x ∈ es11.map Prod.fst, inputUnknownKey x := by
      intro x hx
      obtain ⟨kv, hkv, hkveq⟩ := List.mem_map.mp hx
      rw [← hkveq]
      exact hhd11 kv hkv
    exact input_keys_nodup hnd0 hnd1 hnd2 hnd3 hnd4 hnd5 hnd6 hnd7 hnd8 hnd9 hnd10 hnd11
      g0 g1 g2 g3 g4 g5 g6 g7 g8 g9 g10 g11
  · rw [PsbtInput.decode]
    have F0 : List.foldlM PsbtInput.decodeStep
        PsbtInput.init es0
        = .ok (⟨s.non_witness_utxo, none, [], some 0, [], [], [], [], [], none, [], []⟩ : PsbtInput) :=
      hfold0 _ rfl
    have F1 : List.foldlM PsbtInput.decodeStep
        (⟨s.non_witness_utxo, none, [], some 0, [], [], [], [], [], none, [], []⟩ : PsbtInput) es1
        = .ok (⟨s.non_witness_utxo, s.witness_utxo, [], some 0, [], [], [], [], [], none, [], []⟩ : PsbtInput) :=
      hfold1 _ rfl
    have F2 : List.foldlM PsbtInput.decodeStep
        (⟨s.non_witness_utxo, s.witness_utxo, [], some 0, [], [], [], [], [], none, [], []⟩ : PsbtInput) es2
        = .ok (⟨s.non_witness_utxo, s.witness_utxo, s.partial_sigs, some 0, [], [], [], [], [], none, [], []⟩ : PsbtInput) :=
      hfold2 _ rfl
    have F3 : List.foldlM PsbtInput.decodeStep
        (⟨s.non_witness_utxo, s.witness_utxo, s.partial_sigs, some 0, [], [], [], [], [], none, [], []⟩ : PsbtInput) es3
        = .ok (⟨s.non_witness_utxo, s.witness_utxo, s.partial_sigs, s.sighash, [], [], [], [], [], none, [], []⟩ : PsbtInput) :=
      hfold3 _ rfl
    have F4 : List.foldlM PsbtInput.decodeStep
        (⟨s.non_witness_utxo, s.witness_utxo, s.partial_sigs, s.sighash, [], [], [], [], [], none, [], []⟩ : PsbtInput) es4
        = .ok (⟨s.non_witness_utxo, s.witness_utxo, s.partial_sigs, s.sighash, s.redeem_script, [], [], [], [], none, [], []⟩ : PsbtInput) :=
      hfold4 _ rfl
    have F5 : List.foldlM PsbtInput.decodeStep
        (⟨s.non_witness_utxo, s.witness_utxo, s.partial_sigs, s.sighash, s.redeem_script, [], [], [], [], none, [], []⟩ : PsbtInput) es5
        = .ok (⟨s.non_witness_utxo, s.witness_utxo, s.partial_sigs, s.sighash, s.redeem_script, s.witness_script, [], [], [], none, [], []⟩ : PsbtInput) :=
      hfold5 _ rfl
    have F6 : List.foldlM PsbtInput.decodeStep
        (⟨s.non_witness_utxo, s.witness_utxo, s.partial_sigs, s.sighash, s.redeem_script, s.witness_script, [], [], [], none, [], []⟩ : PsbtInput) es6
        = .ok (⟨s.non_witness_utxo, s.witness_utxo, s.partial_sigs, s.sighash, s.redeem_script, s.witness_script, s.hd_keypaths, [], [], none, [], []⟩ : PsbtInput) :=
      hfold6 _ rfl
    have F7 : List.foldlM PsbtInput.decodeStep
        (⟨s.non_witness_utxo, s.witness_utxo, s.partial_sigs, s.sighash, s.redeem_script, s.witness_script, s.hd_keypaths, [], [], none, [], []⟩ : PsbtInput) es7
        = .ok (⟨s.non_witness_utxo, s.witness_utxo, s.partial_sigs, s.sighash, s.redeem_script, s.witness_script, s.hd_keypaths, s.final_script_sig, [], none, [], []⟩ : PsbtInput) :=
      hfold7 _ rfl
    have F8 : List.foldlM PsbtInput.decodeStep
        (⟨s.non_witness_utxo, s.witness_utxo, s.partial_sigs, s.sighash, s.redeem_script, s.witness_script, s.hd_keypaths, s.final_script_sig, [], none, [], []⟩ : PsbtInput) es8
        = .ok (⟨s.non_witness_utxo, s.witness_utxo, s.partial_sigs, s.sighash, s.redeem_script, s.witness_script, s.hd_keypaths, s.final_script_sig, s.final_script_witness, none, [], []⟩ : PsbtInput) :=
      hfold8 _ rfl
    have F9 : List.foldlM PsbtInput.decodeStep
        (⟨s.non_witness_utxo, s.witness_utxo, s.partial_sigs, s.sighash, s.redeem_script, s.witness_script, s.hd_keypaths, s.final_script_sig, s.final_script_witness, none, [], []⟩ : PsbtInput) es9
        = .ok (⟨s.non_witness_utxo, s.witness_utxo, s.partial_sigs, s.sighash, s.redeem_script, s.witness_script, s.hd_keypaths, s.final_script_sig, s.final_script_witness, s.por_commitment, [], []⟩ : PsbtInput) :=
      hfold9 _ rfl
    have F10 : List.foldlM PsbtInput.decodeStep
        (⟨s.non_witness_utxo, s.witness_utxo, s.partial_sigs, s.sighash, s.redeem_script, s.witness_script, s.hd_keypaths, s.final_script_sig, s.final_script_witness, s.por_commitment, [], []⟩ : PsbtInput) es10
        = .ok (⟨s.non_witness_utxo, s.witness_utxo, s.partial_sigs, s.sighash, s.redeem_script, s.witness_script, s.hd_keypaths, s.final_script_sig, s.final_script_witness, s.por_commitment, s.proprietary, []⟩ : PsbtInput) :=
      hfold10 _ rfl
    have F11 : List.foldlM PsbtInput.decodeStep
        (⟨s.non_witness_utxo, s.witness_utxo, s.partial_sigs, s.sighash, s.redeem_script, s.witness_script, s.hd_keypaths, s.final_script_sig, s.final_script_witness, s.por_commitment, s.proprietary, []⟩ : PsbtInput) es11
        = .ok (⟨s.non_witness_utxo, s.witness_utxo, s.partial_sigs, s.sighash, s.redeem_script, s.witness_script, s.hd_keypaths, s.final_script_sig, s.final_script_witness, s.por_commitment, s.proprietary, s.unknown⟩ : PsbtInput) :=
      hfold11 _ rfl
    rw [foldlM_append, F0]
    simp only [ok_bind]
    rw [foldlM_append, F1]
    simp only [ok_bind]
    rw [foldlM_append, F2]
    simp only [ok_bind]
    rw [foldlM_append, F3]
    simp only [ok_bind]
    rw [foldlM_append, F4]
    simp only [ok_bind]
    rw [foldlM_append, F5]
    simp only [ok_bind]
    rw [foldlM_append, F6]
    simp only [ok_bind]
    rw [foldlM_append, F7]
    simp only [ok_bind]
    rw [foldlM_append, F8]
    simp only [ok_bind]
    rw [foldlM_append, F9]
    simp only [ok_bind]
    rw [foldlM_append, F10]
    simp only [ok_bind]
    rw [F11]

theorem decodeStep_out_rs (s : PsbtOutput) (v : Bytes) {ts : List Token}
    (h : script.decode v = .ok ts) :
    PsbtOutput.decodeStep s ([0x00], v)
      = .ok { s with redeem_script := ts } := by
  simp [PsbtOutput.decodeStep, h]

theorem decodeStep_out_ws (s : PsbtOutput) (v : Bytes) {ts : List Token}
    (h : script.decode v = .ok ts) :
    PsbtOutput.decodeStep s ([0x01], v)
      = .ok { s with witness_script := ts } := by
  simp [PsbtOutput.decodeStep, h]

theorem decodeStep_out_hd (s : PsbtOutput) {xpub fp path : Bytes}
    (hx : xpub.length = 33) (hf : fp.length = 4) (hp : path.length % 4 = 0) :
    PsbtOutput.decodeStep s (0x02 :: xpub, fp ++ path)
      = .ok { s with hd_keypaths := s.hd_keypaths ++ [⟨xpub, fp, path⟩] } := by
  have hlen : (fp.length + path.length) % 4 = 0 := by
    rw [hf]
    omega
  simp [PsbtOutput.decodeStep, hx, hlen, take_append_length hf,
    drop_append_length hf]

theorem decodeStep_out_prop (s : PsbtOutput) {o : Nat} {ob : Bytes}
    (k v : Bytes) (hob : varint.encode o = .ok ob) :
    PsbtOutput.decodeStep s (0xfc :: (ob ++ k), v)
      = .ok { s with proprietary := propInsert s.proprietary o k v } := by
  have hd : varint.decode (ob ++ k) = .ok o := varint.decode_encode hob k
  have hdrop : (0xfc :: (ob ++ k)).drop (1 + ob.length) = k := by
    rw [Nat.add_comm, List.drop_succ_cons, drop_append_length rfl]
  simp [PsbtOutput.decodeStep, hd, hob, hdrop]

theorem decodeStep_out_unknown (s : PsbtOutput) {k : Bytes} (v : Bytes)
    (hk : outputUnknownKey k) :
    PsbtOutput.decodeStep s (k, v)
      = .ok { s with unknown := dictInsert s.unknown k v } := by
  match k with
  | [] => cases hk
  | h :: kt =>
    obtain ⟨h0, h1, h2, hfc⟩ := hk
    simp [PsbtOutput.decodeStep, h0, h1, h2, hfc]

theorem fold_out_hd {hds : List HdKeypath} :
    ∀ s : PsbtOutput,
    (∀ h ∈ hds, h.xpub.length = 33 ∧ h.fingerprint.length = 4 ∧
      h.derivation_path.length % 4 = 0) →
    List.foldlM PsbtOutput.decodeStep s
      (hds.map (fun h => (0x02 :: h.xpub, h.fingerprint ++ h.derivation_path)))
      = .ok { s with hd_keypaths := s.hd_keypaths ++ hds } := by
  induction hds with
  | nil => intro s _; simp [List.foldlM]
  | cons hd rest ih =>
    intro s hwf
    obtain ⟨hx, hf, hp⟩ := hwf hd (List.mem_cons_self _ _)
    simp only [List.map_cons, List.foldlM]
    rw [decodeStep_out_hd s hx hf hp]
    simp only [ok_bind]
    rw [ih _ (fun u hu => hwf u (List.mem_cons_of_mem _ hu))]
    simp [List.append_assoc]

theorem fold_out_unknown {unk : List (Bytes × Bytes)} :
    ∀ s : PsbtOutput, (∀ kv ∈ unk, outputUnknownKey kv.1) →
    (s.unknown.map Prod.fst ++ unk.map Prod.fst).Nodup →
    List.foldlM PsbtOutput.decodeStep s unk
      = .ok { s with unknown := s.unknown ++ unk } := by
  induction unk with
  | nil => intro s _ _; simp [List.foldlM]
  | cons kv rest ih =>
    cases kv with
    | mk k v =>
      intro s hk hnd
      simp only [List.foldlM]
      rw [decodeStep_out_unknown s v (hk (k, v) (List.mem_cons_self _ _))]
      simp only [ok_bind]
      have hfresh : k ∉ s.unknown.map Prod.fst := by
        rw [List.nodup_append] at hnd
        exact fun hm => hnd.2.2 hm (by simp)
      rw [dictInsert_fresh v hfresh]
      rw [ih { s with unknown := s.unknown ++ [(k, v)] }
        (fun u hu => hk u (List.mem_cons_of_mem _ hu))
        (by simpa [List.append_assoc] using hnd)]
      simp [List.append_assoc]

theorem fold_out_prop_inner {o : Nat} {ob : Bytes}
    (hob : varint.encode o = .ok ob) {todo : List (Bytes × Bytes)} :
    ∀ (done : List (Bytes × Bytes))
      (prior : List (Nat × List (Bytes × Bytes))) (s : PsbtOutput),
    s.proprietary = prior ++ [(o, done)] →
    o ∉ prior.map Prod.fst →
    (done.map Prod.fst ++ todo.map Prod.fst).Nodup →
    List.foldlM PsbtOutput.decodeStep s
      (todo.map (fun kv => (0xfc :: (ob ++ kv.1), kv.2)))
      = .ok { s with proprietary := prior ++ [(o, done ++ todo)] } := by
  induction todo with
  | nil =>
    intro done prior s hs _ _
    simp [List.foldlM, ← hs]
  | cons kv rest ih =>
    cases kv with
    | mk k v =>
      intro done prior s hs hfresh hnd
      simp only [List.map_cons, List.foldlM]
      rw [decodeStep_out_prop s k v hob]
      simp only [ok_bind]
      rw [hs, propInsert_last done k v hfresh]
      have hkfresh : k ∉ done.map Prod.fst := by
        rw [List.nodup_append] at hnd
        exact fun hm => hnd.2.2 hm (by simp)
      rw [dictInsert_fresh v hkfresh]
      rw [ih (done ++ [(k, v)]) prior _ rfl hfresh
        (by simpa [List.append_assoc] using hnd)]
      simp [List.append_assoc]

theorem fold_out_prop {props : List (Nat × List (Bytes × Bytes))} :
    ∀ es (s : PsbtOutput), propEntries props = .ok es →
    (∀ q ∈ props, q.2 ≠ [] ∧ keysNodup q.2) →
    (s.proprietary.map Prod.fst ++ props.map Prod.fst).Nodup →
    List.foldlM PsbtOutput.decodeStep s es
      = .ok { s with proprietary := s.proprietary ++ props } := by
  induction props with
  | nil =>
    intro es s hes _ _
    simp only [propEntries, Except.ok.injEq] at hes
    subst hes
    simp [List.foldlM]
  | cons p rest ih =>
    cases p with
    | mk o inner =>
      intro es s hes hwf hnd
      simp only [propEntries] at hes
      cases hob : varint.encode o with
      | error e' => rw [hob] at hes; simp only [error_bind] at hes; cases hes
      | ok ob =>
      rw [hob] at hes
      simp only [ok_bind] at hes
      cases hT : propEntries rest with
      | error e' => rw [hT] at hes; simp only [error_bind] at hes; cases hes
      | ok tes =>
      rw [hT] at hes
      simp only [ok_bind, pure_eq_ok, Except.ok.injEq] at hes
      subst hes
      rw [foldlM_append]
      obtain ⟨hne, hknd⟩ := hwf (o, inner) (List.mem_cons_self _ _)
      obtain ⟨kv0, irest, hinner⟩ := List.exists_cons_of_ne_nil hne
      subst hinner
      cases kv0 with
      | mk k0 v0 =>
        simp only [List.map_cons, List.foldlM]
        rw [decodeStep_out_prop s k0 v0 hob]
        simp only [ok_bind]
        have hofresh : o ∉ s.proprietary.map Prod.fst := by
          rw [List.nodup_append] at hnd
          exact fun hm => hnd.2.2 hm (by simp)
        rw [propInsert_fresh k0 v0 hofresh]
        rw [fold_out_prop_inner hob [(k0, v0)] s.proprietary _ rfl hofresh
          (by simpa only [keysNodup, List.map_cons, List.map_nil,
            List.singleton_append] using hknd)]
        simp only [ok_bind, List.singleton_append]
        rw [ih tes { s with proprietary :=
            s.proprietary ++ [(o, (k0, v0) :: irest)] } hT
          (fun q hq => hwf q (List.mem_cons_of_mem _ hq))
          (by simpa [List.append_assoc] using hnd)]
        simp [List.append_assoc]

theorem outChunk0_codes {s : PsbtOutput} {c : Bytes}
    (hwf : wfScript s.redeem_script) (h : outChunk0 s = .ok c) :
    ∃ es, encodeEntries es = .ok c ∧ (es.map Prod.fst).Nodup ∧
      (∀ kv ∈ es, kv.1.headD 256 = 0x00) ∧
      ∀ t : PsbtOutput, t.redeem_script = [] →
        List.foldlM PsbtOutput.decodeStep t es
          = .ok { t with redeem_script := s.redeem_script } := by
  by_cases hne : s.redeem_script ≠ []
  · rw [outChunk0, if_pos hne] at h
    cases hb : script.serialize s.redeem_script with
    | error e' => rw [hb] at h; simp only [error_bind] at h; cases h
    | ok b =>
    rw [hb] at h
    simp only [ok_bind, pure_eq_ok, Except.ok.injEq] at h
    subst h
    obtain ⟨e, l, he, hl, hbe⟩ := script.serialize_ok hb
    subst hbe
    have hdec : script.decode e = .ok s.redeem_script :=
      script.decode_encode_tokens hwf he
    have h1 : varint.encode 1 = .ok [1] := rfl
    refine ⟨[([0x00], e)], ?_, by simp, by simp, fun t _ => ?_⟩
    · simp [encodeEntries, encodeEntry, h1, hl]
    · simp only [List.foldlM]
      rw [decodeStep_out_rs t e hdec]
      simp
  · rw [outChunk0, if_neg hne] at h
    simp only [pure_eq_ok, Except.ok.injEq] at h
    subst h
    have hnil : s.redeem_script = [] := not_not.mp hne
    refine ⟨[], rfl, by simp, by simp, fun t ht => ?_⟩
    rw [hnil, ← ht]
    rfl

theorem outChunk1_codes {s : PsbtOutput} {c : Bytes}
    (hwf : wfScript s.witness_script) (h : outChunk1 s = .ok c) :
    ∃ es, encodeEntries es = .ok c ∧ (es.map Prod.fst).Nodup ∧
      (∀ kv ∈ es, kv.1.headD 256 = 0x01) ∧
      ∀ t : PsbtOutput, t.witness_script = [] →
        List.foldlM PsbtOutput.decodeStep t es
          = .ok { t with witness_script := s.witness_script } := by
  by_cases hne : s.witness_script ≠ []
  · rw [outChunk1, if_pos hne] at h
    cases hb : script.serialize s.witness_script with
    | error e' => rw [hb] at h; simp only [error_bind] at h; cases h
    | ok b =>
    rw [hb] at h
    simp only [ok_bind, pure_eq_ok, Except.ok.injEq] at h
    subst h
    obtain ⟨e, l, he, hl, hbe⟩ := script.serialize_ok hb
    subst hbe
    have hdec : script.decode e = .ok s.witness_script :=
      script.decode_encode_tokens hwf he
    have h1 : varint.encode 1 = .ok [1] := rfl
    refine ⟨[([0x01], e)], ?_, by simp, by simp, fun t _ => ?_⟩
    · simp [encodeEntries, encodeEntry, h1, hl]
    · simp only [List.foldlM]
      rw [decodeStep_out_ws t e hdec]
      simp
  · rw [outChunk1, if_neg hne] at h
    simp only [pure_eq_ok, Except.ok.injEq] at h
    subst h
    have hnil : s.witness_script = [] := not_not.mp hne
    refine ⟨[], rfl, by simp, by simp, fun t ht => ?_⟩
    rw [hnil, ← ht]
    rfl

theorem outChunk2_codes {s : PsbtOutput} {c : Bytes}
    (hwfh : ∀ h ∈ s.hd_keypaths, h.xpub.length = 33 ∧
      h.fingerprint.length = 4 ∧ h.derivation_path.length % 4 = 0)
    (hnd : (s.hd_keypaths.map HdKeypath.xpub).Nodup)
    (h : hdBytes [0x22, 0x02] s.hd_keypaths = .ok c) :
    ∃ es, encodeEntries es = .ok c ∧ (es.map Prod.fst).Nodup ∧
      (∀ kv ∈ es, kv.1.headD 256 = 0x02) ∧
      ∀ t : PsbtOutput, t.hd_keypaths = [] →
        List.foldlM PsbtOutput.decodeStep t es
          = .ok { t with hd_keypaths := s.hd_keypaths } := by
  have hkl : varint.encode (33 + 1) = .ok [0x22] := rfl
  refine ⟨s.hd_keypaths.map (fun h =>
      (0x02 :: h.xpub, h.fingerprint ++ h.derivation_path)),
    hdBytes_entries (fun u hu => (hwfh u hu).1) hkl h, ?_, ?_, ?_⟩
  · rw [List.map_map]
    rw [show (Prod.fst ∘ fun h : HdKeypath =>
        ((0x02 :: h.xpub : Bytes), h.fingerprint ++ h.derivation_path))
      = (fun k : Bytes => 0x02 :: k) ∘ HdKeypath.xpub from rfl]
    rw [← List.map_map]
    refine List.Nodup.map ?_ hnd
    intro a b hab
    injection hab
  · intro kv hkv
    obtain ⟨h0, _, hkv0⟩ := List.mem_map.mp hkv
    rw [← hkv0]
    rfl
  · intro t ht
    rw [fold_out_hd t hwfh, ht]
    simp

theorem outChunk3_codes {s : PsbtOutput} {c : Bytes}
    (hwfp : ∀ q ∈ s.proprietary, q.2 ≠ [] ∧ keysNodup q.2)
    (hnd : (s.proprietary.map Prod.fst).Nodup)
    (h : propBytes s.proprietary = .ok c) :
    ∃ es, encodeEntries es = .ok c ∧ (es.map Prod.fst).Nodup ∧
      (∀ kv ∈ es, kv.1.headD 256 = 0xFC) ∧
      ∀ t : PsbtOutput, t.proprietary = [] →
        List.foldlM PsbtOutput.decodeStep t es
          = .ok { t with proprietary := s.proprietary } := by
  obtain ⟨es, hes, henc⟩ := propBytes_entries (fun q hq => (hwfp q hq).1) h
  refine ⟨es, henc, propEntries_keys_nodup hes hnd
    (fun q hq => (hwfp q hq).2), ?_, ?_⟩
  · intro kv hkv
    obtain ⟨o2, ob2, k2, _, _, hk2⟩ := propEntries_keys hes kv hkv
    rw [hk2]
    rfl
  · intro t ht
    rw [fold_out_prop es t hes hwfp (by rw [ht]; simpa using hnd), ht]
    simp

theorem outChunk4_codes {s : PsbtOutput} {c : Bytes}
    (hkey : ∀ kv ∈ s.unknown, outputUnknownKey kv.1)
    (hnd : keysNodup s.unknown)
    (h : unknownBytes s.unknown = .ok c) :
    ∃ es, encodeEntries es = .ok c ∧ (es.map Prod.fst).Nodup ∧
      (∀ kv ∈ es, outputUnknownKey kv.1) ∧
      ∀ t : PsbtOutput, t.unknown = [] →
        List.foldlM PsbtOutput.decodeStep t es
          = .ok { t with unknown := s.unknown } := by
  refine ⟨s.unknown, unknownBytes_entries h, hnd, hkey, ?_⟩
  intro t ht
  rw [fold_out_unknown t hkey (by rw [ht]; simpa [keysNodup] using hnd), ht]
  simp

theorem outputUnknownKey_headD {x : Bytes} (h : outputUnknownKey x) :
    x.headD 256 ≠ 0x00 ∧ x.headD 256 ≠ 0x01 ∧ x.headD 256 ≠ 0x02 ∧
    x.headD 256 ≠ 0xFC := by
  match x with
  | [] => cases h
  | b :: t => exact h

theorem outputUnknownKey_ne_nil {x : Bytes} (h : outputUnknownKey x) :
    x ≠ [] := by
  match x with
  | [] => cases h
  | b :: t => exact List.cons_ne_nil _ _

theorem output_keys_nodup {K0 K1 K2 K3 K4 : List Bytes}
    (n0 : K0.Nodup) (n1 : K1.Nodup) (n2 : K2.Nodup) (n3 : K3.Nodup)
    (n4 : K4.Nodup)
    (h0 : ∀ x ∈ K0, x.headD 256 = 0x00)
    (h1 : ∀ x ∈ K1, x.headD 256 = 0x01)
    (h2 : ∀ x ∈ K2, x.headD 256 = 0x02)
    (h3 : ∀ x ∈ K3, x.headD 256 = 0xFC)
    (h4 : ∀ x ∈ K4, outputUnknownKey x) :
    (K0 ++ (K1 ++ (K2 ++ (K3 ++ K4)))).Nodup := by
  have f3 : ∀ x ∈ K4, x.headD 256 ≠ 0xFC :=
    fun x hx => (outputUnknownKey_headD (h4 x hx)).2.2.2
  have f2 : ∀ x ∈ K3 ++ K4, x.headD 256 ≠ 0x02 :=
    forall_mem_append (fun x hx => by rw [h3 x hx]; decide)
      (fun x hx => (outputUnknownKey_headD (h4 x hx)).2.2.1)
  have f1 : ∀ x ∈ K2 ++ (K3 ++ K4), x.headD 256 ≠ 0x01 :=
    forall_mem_append (fun x hx => by rw [h2 x hx]; decide)
      (forall_mem_append (fun x hx => by rw [h3 x hx]; decide)
        (fun x hx => (outputUnknownKey_headD (h4 x hx)).2.1))
  have f0 : ∀ x ∈ K1 ++ (K2 ++ (K3 ++ K4)), x.headD 256 ≠ 0x00 :=
    forall_mem_append (fun x hx => by rw [h1 x hx]; decide)
      (forall_mem_append (fun x hx => by rw [h2 x hx]; decide)
        (forall_mem_append (fun x hx => by rw [h3 x hx]; decide)
          (fun x hx => (outputUnknownKey_headD (h4 x hx)).1)))
  have N3 : (K3 ++ K4).Nodup :=
    List.Nodup.append n3 n4 (fun a ha hb => f3 a hb (h3 a ha))
  have N2 : (K2 ++ (K3 ++ K4)).Nodup :=
    List.Nodup.append n2 N3 (fun a ha hb => f2 a hb (h2 a ha))
  have N1 : (K1 ++ (K2 ++ (K3 ++ K4))).Nodup :=
    List.Nodup.append n1 N2 (fun a ha hb => f1 a hb (h1 a ha))
  exact List.Nodup.append n0 N1 (fun a ha hb => f0 a hb (h0 a ha))

/-- Well-formedness of a `PsbtOutput` record for the serializer
roundtrip. -/
def wfPsbtOutput (s : PsbtOutput) : Prop :=
  wfScript s.redeem_script ∧ wfScript s.witness_script ∧
  (∀ h ∈ s.hd_keypaths, h.xpub.length = 33 ∧ h.fingerprint.length = 4 ∧
    h.derivation_path.length % 4 = 0) ∧
  (s.hd_keypaths.map HdKeypath.xpub).Nodup ∧
  (∀ q ∈ s.proprietary, q.2 ≠ [] ∧ keysNodup q.2) ∧
  (s.proprietary.map Prod.fst).Nodup ∧
  (∀ kv ∈ s.unknown, outputUnknownKey kv.1) ∧ keysNodup s.unknown

instance : DecidablePred wfPsbtOutput := fun s => by
  unfold wfPsbtOutput
  infer_instance

theorem psbtOutput_codes {s : PsbtOutput} {b : Bytes}
    (hwf : wfPsbtOutput s) (h : PsbtOutput.serialize s = .ok b) :
    ∃ es, encodeEntries es = .ok b ∧ (∀ kv ∈ es, kv.1 ≠ []) ∧
      (es.map Prod.fst).Nodup ∧ PsbtOutput.decode es = .ok s := by
  obtain ⟨hw0, hw1, hw2, hw2nd, hw3, hw3nd, hw4k, hw4nd⟩ := hwf
  rw [PsbtOutput.serialize] at h
  cases hc0 : outChunk0 s with
  | error e => rw [hc0] at h; simp only [error_bind] at h; cases h
  | ok c0 =>
  rw [hc0] at h
  simp only [ok_bind] at h
  cases hc1 : outChunk1 s with
  | error e => rw [hc1] at h; simp only [error_bind] at h; cases h
  | ok c1 =>
  rw [hc1] at h
  simp only [ok_bind] at h
  cases hc2 : hdBytes [0x22, 0x02] s.hd_keypaths with
  | error e => rw [hc2] at h; simp only [error_bind] at h; cases h
  | ok c2 =>
  rw [hc2] at h
  simp only [ok_bind] at h
  cases hc3 : propBytes s.proprietary with
  | error e => rw [hc3] at h; simp only [error_bind] at h; cases h
  | ok c3 =>
  rw [hc3] at h
  simp only [ok_bind] at h
  cases hc4 : unknownBytes s.unknown with
  | error e => rw [hc4] at h; simp only [error_bind] at h; cases h
  | ok c4 =>
  rw [hc4] at h
  simp only [ok_bind, pure_eq_ok, Except.ok.injEq] at h
  subst h
  obtain ⟨es0, henc0, hnd0, hhd0, hfold0⟩ := outChunk0_codes hw0 hc0
  obtain ⟨es1, henc1, hnd1, hhd1, hfold1⟩ := outChunk1_codes hw1 hc1
  obtain ⟨es2, henc2, hnd2, hhd2, hfold2⟩ := outChunk2_codes hw2 hw2nd hc2
  obtain ⟨es3, henc3, hnd3, hhd3, hfold3⟩ := outChunk3_codes hw3 hw3nd hc3
  obtain ⟨es4, henc4, hnd4, hhd4, hfold4⟩ := outChunk4_codes hw4k hw4nd hc4
  refine ⟨es0 ++ (es1 ++ (es2 ++ (es3 ++ es4))), ?_, ?_, ?_, ?_⟩
  · have hE := encodeEntries_append henc0 (encodeEntries_append henc1
      (encodeEntries_append henc2 (encodeEntries_append henc3 henc4)))
    rw [hE]
    simp [List.append_assoc]
  · have hne4 : ∀ kv ∈ es4, kv.1 ≠ [] :=
      fun kv hkv => outputUnknownKey_ne_nil (hhd4 kv hkv)
    have hne0 : ∀ kv ∈ es0, kv.1 ≠ [] :=
      fun kv hkv => ne_nil_of_headD (hhd0 kv hkv) (by norm_num)
    have hne1 : ∀ kv ∈ es1, kv.1 ≠ [] :=
      fun kv hkv => ne_nil_of_headD (hhd1 kv hkv) (by norm_num)
    have hne2 : ∀ kv ∈ es2, kv.1 ≠ [] :=
      fun kv hkv => ne_nil_of_headD (hhd2 kv hkv) (by norm_num)
    have hne3 : ∀ kv ∈ es3, kv.1 ≠ [] :=
      fun kv hkv => ne_nil_of_headD (hhd3 kv hkv) (by norm_num)
    exact forall_mem_append hne0 (forall_mem_append hne1
      (forall_mem_append hne2 (forall_mem_append hne3 hne4)))
  · have hmapeq : ((es0 ++ (es1 ++ (es2 ++ (es3 ++ es4)))).map Prod.fst)
        = es0.map Prod.fst ++ (es1.map Prod.fst ++ (es2.map Prod.fst
          ++ (es3.map Prod.fst ++ es4.map Prod.fst))) := by
      simp [List.map_append]
    rw [hmapeq]
    have g0 : ∀ x ∈ es0.map Prod.fst, x.headD 256 = 0x00 := by
      intro x hx
      obtain ⟨kv, hkv, hkveq⟩ := List.mem_map.mp hx
      rw [← hkveq]
      exact hhd0 kv hkv
    have g1 : ∀ x ∈ es1.map Prod.fst, x.headD 256 = 0x01 := by
      intro x hx
      obtain ⟨kv, hkv, hkveq⟩ := List.mem_map.mp hx
      rw [← hkveq]
      exact hhd1 kv hkv
    have g2 : ∀ x ∈ es2.map Prod.fst, x.headD 256 = 0x02 := by
      intro x hx
      obtain ⟨kv, hkv, hkveq⟩ := List.mem_map.mp hx
      rw [← hkveq]
      exact hhd2 kv hkv
    have g3 : ∀ x ∈ es3.map Prod.fst, x.headD 256 = 0xFC := by
      intro x hx
      obtain ⟨kv, hkv, hkveq⟩ := List.mem_map.mp hx
      rw [← hkveq]
      exact hhd3 kv hkv
    have g4 : ∀ x ∈ es4.map Prod.fst, outputUnknownKey x := by
      intro x hx
      obtain ⟨kv, hkv, hkveq⟩ := List.mem_map.mp hx
      rw [← hkveq]
      exact hhd4 kv hkv
    exact output_keys_nodup hnd0 hnd1 hnd2 hnd3 hnd4 g0 g1 g2 g3 g4
  · rw [PsbtOutput.decode]
    have F0 : List.foldlM PsbtOutput.decodeStep PsbtOutput.init es0
        = .ok (⟨s.redeem_script, [], [], [], []⟩ : PsbtOutput) :=
      hfold0 _ rfl
    have F1 : List.foldlM PsbtOutput.decodeStep
        (⟨s.redeem_script, [], [], [], []⟩ : PsbtOutput) es1
        = .ok (⟨s.redeem_script, s.witness_script, [], [], []⟩ : PsbtOutput) :=
      hfold1 _ rfl
    have F2 : List.foldlM PsbtOutput.decodeStep
        (⟨s.redeem_script, s.witness_script, [], [], []⟩ : PsbtOutput) es2
        = .ok (⟨s.redeem_script, s.witness_script, s.hd_keypaths, [], []⟩
          : PsbtOutput) :=
      hfold2 _ rfl
    have F3 : List.foldlM PsbtOutput.decodeStep
        (⟨s.redeem_script, s.witness_script, s.hd_keypaths, [], []⟩
          : PsbtOutput) es3
        = .ok (⟨s.redeem_script, s.witness_script, s.hd_keypaths,
          s.proprietary, []⟩ : PsbtOutput) :=
      hfold3 _ rfl
    have F4 : List.foldlM PsbtOutput.decodeStep
        (⟨s.redeem_script, s.witness_script, s.hd_keypaths, s.proprietary,
          []⟩ : PsbtOutput) es4
        = .ok (⟨s.redeem_script, s.witness_script, s.hd_keypaths,
          s.proprietary, s.unknown⟩ : PsbtOutput) :=
      hfold4 _ rfl
    rw [foldlM_append, F0]
    simp only [ok_bind]
    rw [foldlM_append, F1]
    simp only [ok_bind]
    rw [foldlM_append, F2]
    simp only [ok_bind]
    rw [foldlM_append, F3]
    simp only [ok_bind]
    rw [F4]

theorem glStep_tx (s : GlobalState) (v : Bytes) {u : Tx}
    (h : Tx.deserialize v true = .ok u) :
    globalStep s ([0x00], v) = .ok { s with tx := some u } := by
  simp [globalStep, h]

theorem glStep_hd (s : GlobalState) {xpub fp path : Bytes}
    (hx : xpub.length = 78) (hf : fp.length = 4) (hp : path.length % 4 = 0) :
    globalStep s (0x01 :: xpub, fp ++ path)
      = .ok { s with hd_keypaths := s.hd_keypaths ++ [⟨xpub, fp, path⟩] } := by
  have hlen : (fp.length + path.length) % 4 = 0 := by
    rw [hf]
    omega
  simp [globalStep, hx, hlen, take_append_length hf, drop_append_length hf]

theorem glStep_version (s : GlobalState) {v : Bytes} (hv : v.length = 4) :
    globalStep s ([0xFB], v) = .ok { s with version := fromLE v } := by
  simp [globalStep, hv]

theorem glStep_prop (s : GlobalState) {o : Nat} {ob : Bytes}
    (k v : Bytes) (hob : varint.encode o = .ok ob) :
    globalStep s (0xfc :: (ob ++ k), v)
      = .ok { s with proprietary := propInsert s.proprietary o k v } := by
  have hd : varint.decode (ob ++ k) = .ok o := varint.decode_encode hob k
  have hdrop : (0xfc :: (ob ++ k)).drop (1 + ob.length) = k := by
    rw [Nat.add_comm, List.drop_succ_cons, drop_append_length rfl]
  simp [globalStep, hd, hob, hdrop]

theorem glStep_unknown (s : GlobalState) {k : Bytes} (v : Bytes)
    (hk : globalUnknownKey k) :
    globalStep s (k, v)
      = .ok { s with unknown := dictInsert s.unknown k v } := by
  match k with
  | [] => cases hk
  | h :: kt =>
    obtain ⟨h0, h1, hfb, hfc⟩ := hk
    simp [globalStep, h0, h1, hfb, hfc]

theorem fold_gl_hd {hds : List HdKeypath} :
    ∀ s : GlobalState,
    (∀ h ∈ hds, h.xpub.length = 78 ∧ h.fingerprint.length = 4 ∧
      h.derivation_path.length % 4 = 0) →
    List.foldlM globalStep s
      (hds.map (fun h => (0x01 :: h.xpub, h.fingerprint ++ h.derivation_path)))
      = .ok { s with hd_keypaths := s.hd_keypaths ++ hds } := by
  induction hds with
  | nil => intro s _; simp [List.foldlM]
  | cons hd rest ih =>
    intro s hwf
    obtain ⟨hx, hf, hp⟩ := hwf hd (List.mem_cons_self _ _)
    simp only [List.map_cons, List.foldlM]
    rw [glStep_hd s hx hf hp]
    simp only [ok_bind]
    rw [ih _ (fun u hu => hwf u (List.mem_cons_of_mem _ hu))]
    simp [List.append_assoc]

theorem fold_gl_unknown {unk : List (Bytes × Bytes)} :
    ∀ s : GlobalState, (∀ kv ∈ unk, globalUnknownKey kv.1) →
    (s.unknown.map Prod.fst ++ unk.map Prod.fst).Nodup →
    List.foldlM globalStep s unk
      = .ok { s with unknown := s.unknown ++ unk } := by
  induction unk with
  | nil => intro s _ _; simp [List.foldlM]
  | cons kv rest ih =>
    cases kv with
    | mk k v =>
      intro s hk hnd
      simp only [List.foldlM]
      rw [glStep_unknown s v (hk (k, v) (List.mem_cons_self _ _))]
      simp only [ok_bind]
      have hfresh : k ∉ s.unknown.map Prod.fst := by
        rw [List.nodup_append] at hnd
        exact fun hm => hnd.2.2 hm (by simp)
      rw [dictInsert_fresh v hfresh]
      rw [ih { s with unknown := s.unknown ++ [(k, v)] }
        (fun u hu => hk u (List.mem_cons_of_mem _ hu))
        (by simpa [List.append_assoc] using hnd)]
      simp [List.append_assoc]

theorem fold_gl_prop_inner {o : Nat} {ob : Bytes}
    (hob : varint.encode o = .ok ob) {todo : List (Bytes × Bytes)} :
    ∀ (done : List (Bytes × Bytes))
      (prior : List (Nat × List (Bytes × Bytes))) (s : GlobalState),
    s.proprietary = prior ++ [(o, done)] →
    o ∉ prior.map Prod.fst →
    (done.map Prod.fst ++ todo.map Prod.fst).Nodup →
    List.foldlM globalStep s
      (todo.map (fun kv => (0xfc :: (ob ++ kv.1), kv.2)))
      = .ok { s with proprietary := prior ++ [(o, done ++ todo)] } := by
  induction todo with
  | nil =>
    intro done prior s hs _ _
    simp [List.foldlM, ← hs]
  | cons kv rest ih =>
    cases kv with
    | mk k v =>
      intro done prior s hs hfresh hnd
      simp only [List.map_cons, List.foldlM]
      rw [glStep_prop s k v hob]
      simp only [ok_bind]
      rw [hs, propInsert_last done k v hfresh]
      have hkfresh : k ∉ done.map Prod.fst := by
        rw [List.nodup_append] at hnd
        exact fun hm => hnd.2.2 hm (by simp)
      rw [dictInsert_fresh v hkfresh]
      rw [ih (done ++ [(k, v)]) prior _ rfl hfresh
        (by simpa [List.append_assoc] using hnd)]
      simp [List.append_assoc]

theorem fold_gl_prop {props : List (Nat × List (Bytes × Bytes))} :
    ∀ es (s : GlobalState), propEntries props = .ok es →
    (∀ q ∈ props, q.2 ≠ [] ∧ keysNodup q.2) →
    (s.proprietary.map Prod.fst ++ props.map Prod.fst).Nodup →
    List.foldlM globalStep s es
      = .ok { s with proprietary := s.proprietary ++ props } := by
  induction props with
  | nil =>
    intro es s hes _ _
    simp only [propEntries, Except.ok.injEq] at hes
    subst hes
    simp [List.foldlM]
  | cons p rest ih =>
    cases p with
    | mk o inner =>
      intro es s hes hwf hnd
      simp only [propEntries] at hes
      cases hob : varint.encode o with
      | error e' => rw [hob] at hes; simp only [error_bind] at hes; cases hes
      | ok ob =>
      rw [hob] at hes
      simp only [ok_bind] at hes
      cases hT : propEntries rest with
      | error e' => rw [hT] at hes; simp only [error_bind] at hes; cases hes
      | ok tes =>
      rw [hT] at hes
      simp only [ok_bind, pure_eq_ok, Except.ok.injEq] at hes
      subst hes
      rw [foldlM_append]
      obtain ⟨hne, hknd⟩ := hwf (o, inner) (List.mem_cons_self _ _)
      obtain ⟨kv0, irest, hinner⟩ := List.exists_cons_of_ne_nil hne
      subst hinner
      cases kv0 with
      | mk k0 v0 =>
        simp only [List.map_cons, List.foldlM]
        rw [glStep_prop s k0 v0 hob]
        simp only [ok_bind]
        have hofresh : o ∉ s.proprietary.map Prod.fst := by
          rw [List.nodup_append] at hnd
          exact fun hm => hnd.2.2 hm (by simp)
        rw [propInsert_fresh k0 v0 hofresh]
        rw [fold_gl_prop_inner hob [(k0, v0)] s.proprietary _ rfl hofresh
          (by simpa only [keysNodup, List.map_cons, List.map_nil,
            List.singleton_append] using hknd)]
        simp only [ok_bind, List.singleton_append]
        rw [ih tes { s with proprietary :=
            s.proprietary ++ [(o, (k0, v0) :: irest)] } hT
          (fun q hq => hwf q (List.mem_cons_of_mem _ hq))
          (by simpa [List.append_assoc] using hnd)]
        simp [List.append_assoc]

theorem glHd_codes {p : Psbt} {c : Bytes}
    (hwfh : ∀ h ∈ p.hd_keypaths, h.xpub.length = 78 ∧
      h.fingerprint.length = 4 ∧ h.derivation_path.length % 4 = 0)
    (hnd : (p.hd_keypaths.map HdKeypath.xpub).Nodup)
    (h : hdBytes [0x4f, 0x01] p.hd_keypaths = .ok c) :
    ∃ es, encodeEntries es = .ok c ∧ (es.map Prod.fst).Nodup ∧
      (∀ kv ∈ es, kv.1.headD 256 = 0x01) ∧
      ∀ t : GlobalState, t.hd_keypaths = [] →
        List.foldlM globalStep t es
          = .ok { t with hd_keypaths := p.hd_keypaths } := by
  have hkl : varint.encode (78 + 1) = .ok [0x4f] := rfl
  refine ⟨p.hd_keypaths.map (fun h =>
      (0x01 :: h.xpub, h.fingerprint ++ h.derivation_path)),
    hdBytes_entries (fun u hu => (hwfh u hu).1) hkl h, ?_, ?_, ?_⟩
  · rw [List.map_map]
    rw [show (Prod.fst ∘ fun h : HdKeypath =>
        ((0x01 :: h.xpub : Bytes), h.fingerprint ++ h.derivation_path))
      = (fun k : Bytes => 0x01 :: k) ∘ HdKeypath.xpub from rfl]
    rw [← List.map_map]
    refine List.Nodup.map ?_ hnd
    intro a b hab
    injection hab
  · intro kv hkv
    obtain ⟨h0, _, hkv0⟩ := List.mem_map.mp hkv
    rw [← hkv0]
    rfl
  · intro t ht
    rw [fold_gl_hd t hwfh, ht]
    simp

theorem glChunkV_codes {p : Psbt} {c : Bytes} (hwf : p.version.isSome)
    (h : glChunkV p = .ok c) :
    ∃ es, encodeEntries es = .ok c ∧ (es.map Prod.fst).Nodup ∧
      (∀ kv ∈ es, kv.1.headD 256 = 0xFB) ∧
      ∀ t : GlobalState, t.version = 0 →
        List.foldlM globalStep t es
          = .ok { t with version := p.version.getD 0 } := by
  by_cases htr : natOptTruthy p.version
  · rw [glChunkV, if_pos htr] at h
    cases hb : to_bytes (p.version.getD 0) 4 with
    | error e' => rw [hb] at h; simp only [error_bind] at h; cases h
    | ok b =>
    rw [hb] at h
    simp only [ok_bind, pure_eq_ok, Except.ok.injEq] at h
    subst h
    obtain ⟨hble, hlt⟩ := to_bytes_ok hb
    subst hble
    have hv4 : (toLE 4 (p.version.getD 0)).length = 4 := toLE_length 4 _
    have h1 : varint.encode 1 = .ok [1] := rfl
    refine ⟨[([0xFB], toLE 4 (p.version.getD 0))], ?_, by simp, by simp,
      fun t _ => ?_⟩
    · have hvl : varint.encode (toLE 4 (p.version.getD 0)).length
          = .ok [0x04] := by rw [hv4]; rfl
      simp [encodeEntries, encodeEntry, h1, hvl]
    · simp only [List.foldlM]
      rw [glStep_version t hv4]
      rw [fromLE_toLE hlt]
      simp
  · rw [glChunkV, if_neg htr] at h
    simp only [pure_eq_ok, Except.ok.injEq] at h
    subst h
    have hzero : p.version.getD 0 = 0 := by
      cases hs : p.version with
      | none => rfl
      | some v =>
        rw [hs] at htr
        have hv0 : v = 0 := by simpa [natOptTruthy] using htr
        rw [hv0]
        rfl
    refine ⟨[], rfl, by simp, by simp, fun t ht => ?_⟩
    rw [hzero, ← ht]
    rfl

theorem glProp_codes {p : Psbt} {c : Bytes}
    (hwfp : ∀ q ∈ p.proprietary, q.2 ≠ [] ∧ keysNodup q.2)
    (hnd : (p.proprietary.map Prod.fst).Nodup)
    (h : propBytes p.proprietary = .ok c) :
    ∃ es, encodeEntries es = .ok c ∧ (es.map Prod.fst).Nodup ∧
      (∀ kv ∈ es, kv.1.headD 256 = 0xFC) ∧
      ∀ t : GlobalState, t.proprietary = [] →
        List.foldlM globalStep t es
          = .ok { t with proprietary := p.proprietary } := by
  obtain ⟨es, hes, henc⟩ := propBytes_entries (fun q hq => (hwfp q hq).1) h
  refine ⟨es, henc, propEntries_keys_nodup hes hnd
    (fun q hq => (hwfp q hq).2), ?_, ?_⟩
  · intro kv hkv
    obtain ⟨o2, ob2, k2, _, _, hk2⟩ := propEntries_keys hes kv hkv
    rw [hk2]
    rfl
  · intro t ht
    rw [fold_gl_prop es t hes hwfp (by rw [ht]; simpa using hnd), ht]
    simp

theorem glUnknown_codes {p : Psbt} {c : Bytes}
    (hkey : ∀ kv ∈ p.unknown, globalUnknownKey kv.1)
    (hnd : keysNodup p.unknown)
    (h : unknownBytes p.unknown = .ok c) :
    ∃ es, encodeEntries es = .ok c ∧ (es.map Prod.fst).Nodup ∧
      (∀ kv ∈ es, globalUnknownKey kv.1) ∧
      ∀ t : GlobalState, t.unknown = [] →
        List.foldlM globalStep t es
          = .ok { t with unknown := p.unknown } := by
  refine ⟨p.unknown, unknownBytes_entries h, hnd, hkey, ?_⟩
  intro t ht
  rw [fold_gl_unknown t hkey (by rw [ht]; simpa [keysNodup] using hnd), ht]
  simp

theorem globalUnknownKey_headD {x : Bytes} (h : globalUnknownKey x) :
    x.headD 256 ≠ 0x00 ∧ x.headD 256 ≠ 0x01 ∧ x.headD 256 ≠ 0xFB ∧
    x.headD 256 ≠ 0xFC := by
  match x with
  | [] => cases h
  | b :: t => exact h

theorem globalUnknownKey_ne_nil {x : Bytes} (h : globalUnknownKey x) :
    x ≠ [] := by
  match x with
  | [] => cases h
  | b :: t => exact List.cons_ne_nil _ _

theorem global_keys_nodup {K0 K1 K2 K3 K4 : List Bytes}
    (n0 : K0.Nodup) (n1 : K1.Nodup) (n2 : K2.Nodup) (n3 : K3.Nodup)
    (n4 : K4.Nodup)
    (h0 : ∀ x ∈ K0, x.headD 256 = 0x00)
    (h1 : ∀ x ∈ K1, x.headD 256 = 0x01)
    (h2 : ∀ x ∈ K2, x.headD 256 = 0xFB)
    (h3 : ∀ x ∈ K3, x.headD 256 = 0xFC)
    (h4 : ∀ x ∈ K4, globalUnknownKey x) :
    (K0 ++ (K1 ++ (K2 ++ (K3 ++ K4)))).Nodup := by
  have f3 : ∀ x ∈ K4, x.headD 256 ≠ 0xFC :=
    fun x hx => (globalUnknownKey_headD (h4 x hx)).2.2.2
  have f2 : ∀ x ∈ K3 ++ K4, x.headD 256 ≠ 0xFB :=
    forall_mem_append (fun x hx => by rw [h3 x hx]; decide)
      (fun x hx => (globalUnknownKey_headD (h4 x hx)).2.2.1)
  have f1 : ∀ x ∈ K2 ++ (K3 ++ K4), x.headD 256 ≠ 0x01 :=
    forall_mem_append (fun x hx => by rw [h2 x hx]; decide)
      (forall_mem_append (fun x hx => by rw [h3 x hx]; decide)
        (fun x hx => (globalUnknownKey_headD (h4 x hx)).2.1))
  have f0 : ∀ x ∈ K1 ++ (K2 ++ (K3 ++ K4)), x.headD 256 ≠ 0x00 :=
    forall_mem_append (fun x hx => by rw [h1 x hx]; decide)
      (forall_mem_append (fun x hx => by rw [h2 x hx]; decide)
        (forall_mem_append (fun x hx => by rw [h3 x hx]; decide)
          (fun x hx => (globalUnknownKey_headD (h4 x hx)).1)))
  have N3 : (K3 ++ K4).Nodup :=
    List.Nodup.append n3 n4 (fun a ha hb => f3 a hb (h3 a ha))
  have N2 : (K2 ++ (K3 ++ K4)).Nodup :=
    List.Nodup.append n2 N3 (fun a ha hb => f2 a hb (h2 a ha))
  have N1 : (K1 ++ (K2 ++ (K3 ++ K4))).Nodup :=
    List.Nodup.append n1 N2 (fun a ha hb => f1 a hb (h1 a ha))
  exact List.Nodup.append n0 N1 (fun a ha hb => f0 a hb (h0 a ha))

theorem psbtGlobal_codes {p : Psbt} {txB txl g1 g2 g3 g4 : Bytes}
    (hwftx : wfTx p.tx) (hver : p.version.isSome)
    (hwfh : ∀ h ∈ p.hd_keypaths, h.xpub.length = 78 ∧
      h.fingerprint.length = 4 ∧ h.derivation_path.length % 4 = 0)
    (hhnd : (p.hd_keypaths.map HdKeypath.xpub).Nodup)
    (hwfp : ∀ q ∈ p.proprietary, q.2 ≠ [] ∧ keysNodup q.2)
    (hpnd : (p.proprietary.map Prod.fst).Nodup)
    (hukey : ∀ kv ∈ p.unknown, globalUnknownKey kv.1)
    (hund : keysNodup p.unknown)
    (htx : p.tx.serialize true true = .ok txB)
    (htxl : varint.encode txB.length = .ok txl)
    (hg1 : hdBytes [0x4f, 0x01] p.hd_keypaths = .ok g1)
    (hg2 : glChunkV p = .ok g2)
    (hg3 : propBytes p.proprietary = .ok g3)
    (hg4 : unknownBytes p.unknown = .ok g4) :
    ∃ es, encodeEntries es
        = .ok ([0x01, 0x00] ++ txl ++ txB ++ g1 ++ g2 ++ g3 ++ g4) ∧
      (∀ kv ∈ es, kv.1 ≠ []) ∧ (es.map Prod.fst).Nodup ∧
      List.foldlM globalStep (⟨none, 0, [], [], []⟩ : GlobalState) es
        = .ok ⟨some p.tx, p.version.getD 0, p.hd_keypaths, p.proprietary,
            p.unknown⟩ := by
  have h1 : varint.encode 1 = .ok [1] := rfl
  have henc0 : encodeEntries [([0x00], txB)]
      = .ok ([0x01, 0x00] ++ (txl ++ txB)) := by
    simp [encodeEntries, encodeEntry, h1, htxl]
  have hdes : Tx.deserialize txB true = .ok p.tx :=
    tx_exact_roundtrip hwftx htx
  have hfold0 : ∀ t : GlobalState,
      List.foldlM globalStep t [([0x00], txB)]
        = .ok { t with tx := some p.tx } := by
    intro t
    simp only [List.foldlM]
    rw [glStep_tx t txB hdes]
    simp
  obtain ⟨es1, henc1, hnd1, hhd1, hfold1⟩ := glHd_codes hwfh hhnd hg1
  obtain ⟨es2, henc2, hnd2, hhd2, hfold2⟩ := glChunkV_codes hver hg2
  obtain ⟨es3, henc3, hnd3, hhd3, hfold3⟩ := glProp_codes hwfp hpnd hg3
  obtain ⟨es4, henc4, hnd4, hhd4, hfold4⟩ := glUnknown_codes hukey hund hg4
  refine ⟨[([0x00], txB)] ++ (es1 ++ (es2 ++ (es3 ++ es4))), ?_, ?_, ?_, ?_⟩
  · have hE := encodeEntries_append henc0 (encodeEntries_append henc1
      (encodeEntries_append henc2 (encodeEntries_append henc3 henc4)))
    rw [hE]
    simp [List.append_assoc]
  · have hne0 : ∀ kv ∈ [(([0x00] : Bytes), txB)], kv.1 ≠ [] := by
      intro kv hkv
      simp only [List.mem_singleton] at hkv
      rw [hkv]
      simp
    have hne1 : ∀ kv ∈ es1, kv.1 ≠ [] :=
      fun kv hkv => ne_nil_of_headD (hhd1 kv hkv) (by norm_num)
    have hne2 : ∀ kv ∈ es2, kv.1 ≠ [] :=
      fun kv hkv => ne_nil_of_headD (hhd2 kv hkv) (by norm_num)
    have hne3 : ∀ kv ∈ es3, kv.1 ≠ [] :=
      fun kv hkv => ne_nil_of_headD (hhd3 kv hkv) (by norm_num)
    have hne4 : ∀ kv ∈ es4, kv.1 ≠ [] :=
      fun kv hkv => globalUnknownKey_ne_nil (hhd4 kv hkv)
    exact forall_mem_append hne0 (forall_mem_append hne1
      (forall_mem_append hne2 (forall_mem_append hne3 hne4)))
  · have hmapeq : ((([(([0x00] : Bytes), txB)]
        ++ (es1 ++ (es2 ++ (es3 ++ es4)))).map Prod.fst))
        = [[0x00]] ++ (es1.map Prod.fst ++ (es2.map Prod.fst
          ++ (es3.map Prod.fst ++ es4.map Prod.fst))) := by
      simp [List.map_append]
    rw [hmapeq]
    have g0 : ∀ x ∈ [([0x00] : Bytes)], x.headD 256 = 0x00 := by
      intro x hx
      simp only [List.mem_singleton] at hx
      rw [hx]
      rfl
    have g1f : ∀ x ∈ es1.map Prod.fst, x.headD 256 = 0x01 := by
      intro x hx
      obtain ⟨kv, hkv, hkveq⟩ := List.mem_map.mp hx
      rw [← hkveq]
      exact hhd1 kv hkv
    have g2f : ∀ x ∈ es2.map Prod.fst, x.headD 256 = 0xFB := by
      intro x hx
      obtain ⟨kv, hkv, hkveq⟩ := List.mem_map.mp hx
      rw [← hkveq]
      exact hhd2 kv hkv
    have g3f : ∀ x ∈ es3.map Prod.fst, x.headD 256 = 0xFC := by
      intro x hx
      obtain ⟨kv, hkv, hkveq⟩ := List.mem_map.mp hx
      rw [← hkveq]
      exact hhd3 kv hkv
    have g4f : ∀ x ∈ es4.map Prod.fst, globalUnknownKey x := by
      intro x hx
      obtain ⟨kv, hkv, hkveq⟩ := List.mem_map.mp hx
      rw [← hkveq]
      exact hhd4 kv hkv
    exact global_keys_nodup (by simp) hnd1 hnd2 hnd3 hnd4 g0 g1f g2f g3f g4f
  · have F0 : List.foldlM globalStep (⟨none, 0, [], [], []⟩ : GlobalState)
        [([0x00], txB)]
        = .ok (⟨some p.tx, 0, [], [], []⟩ : GlobalState) :=
      hfold0 _
    have F1 : List.foldlM globalStep
        (⟨some p.tx, 0, [], [], []⟩ : GlobalState) es1
        = .ok (⟨some p.tx, 0, p.hd_keypaths, [], []⟩ : GlobalState) :=
      hfold1 _ rfl
    have F2 : List.foldlM globalStep
        (⟨some p.tx, 0, p.hd_keypaths, [], []⟩ : GlobalState) es2
        = .ok (⟨some p.tx, p.version.getD 0, p.hd_keypaths, [], []⟩
          : GlobalState) :=
      hfold2 _ rfl
    have F3 : List.foldlM globalStep
        (⟨some p.tx, p.version.getD 0, p.hd_keypaths, [], []⟩
          : GlobalState) es3
        = .ok (⟨some p.tx, p.version.getD 0, p.hd_keypaths, p.proprietary,
          []⟩ : GlobalState) :=
      hfold3 _ rfl
    have F4 : List.foldlM globalStep
        (⟨some p.tx, p.version.getD 0, p.hd_keypaths, p.proprietary, []⟩
          : GlobalState) es4
        = .ok (⟨some p.tx, p.version.getD 0, p.hd_keypaths, p.proprietary,
          p.unknown⟩ : GlobalState) :=
      hfold4 _ rfl
    rw [foldlM_append, F0]
    simp only [ok_bind]
    rw [foldlM_append, F1]
    simp only [ok_bind]
    rw [foldlM_append, F2]
    simp only [ok_bind]
    rw [foldlM_append, F3]
    simp only [ok_bind]
    rw [F4]

theorem readRecordMaps_records {α : Type}
    {dec : List (Bytes × Bytes) → Except String α}
    {ser : α → Except String Bytes} :
    ∀ {records : List α} {bs : Bytes},
    recordsBytes ser records = .ok bs →
    (∀ r ∈ records, ∀ b2, ser r = .ok b2 →
      ∃ es, encodeEntries es = .ok b2 ∧ (∀ kv ∈ es, kv.1 ≠ []) ∧
        (es.map Prod.fst).Nodup ∧ dec es = .ok r) →
    ∀ rest, readRecordMaps dec records.length (bs ++ rest)
      = .ok (records, rest) := by
  intro records
  induction records with
  | nil =>
    intro bs h _ rest
    simp only [recordsBytes, Except.ok.injEq] at h
    subst h
    simp [readRecordMaps]
  | cons r rs ih =>
    intro bs h hall rest
    simp only [recordsBytes] at h
    cases hb : ser r with
    | error e' => rw [hb] at h; simp only [error_bind] at h; cases h
    | ok b =>
    rw [hb] at h
    simp only [ok_bind] at h
    cases hT : recordsBytes ser rs with
    | error e' => rw [hT] at h; simp only [error_bind] at h; cases h
    | ok tail =>
    rw [hT] at h
    simp only [ok_bind, pure_eq_ok, Except.ok.injEq] at h
    subst h
    obtain ⟨es, henc, hne, hnd, hdec⟩ := hall r (List.mem_cons_self _ _) b hb
    have hmap := deserialize_map_entries hne henc hnd (tail ++ rest)
    have hbytes : (b ++ [0x00] ++ tail) ++ rest
        = b ++ 0x00 :: (tail ++ rest) := by
      simp [List.append_assoc]
    rw [List.length_cons, hbytes, readRecordMaps, hmap]
    simp only [ok_bind]
    rw [hdec]
    simp only [ok_bind]
    rw [ih hT (fun u hu => hall u (List.mem_cons_of_mem _ hu)) rest]
    simp

/-- Syntactic validity of a container for the roundtrip: record counts
match the skeleton, every record is well-formed, and the global-section
invariants hold. -/
def wfPsbt (p : Psbt) : Prop :=
  wfTx p.tx ∧ p.inputs.length = p.tx.vin.length ∧
  p.outputs.length = p.tx.vout.length ∧
  (∀ i ∈ p.inputs, wfPsbtInput i) ∧ (∀ o ∈ p.outputs, wfPsbtOutput o) ∧
  p.version.isSome ∧
  (∀ h ∈ p.hd_keypaths, h.xpub.length = 78 ∧ h.fingerprint.length = 4 ∧
    h.derivation_path.length % 4 = 0) ∧
  (p.hd_keypaths.map HdKeypath.xpub).Nodup ∧
  (∀ q ∈ p.proprietary, q.2 ≠ [] ∧ keysNodup q.2) ∧
  (p.proprietary.map Prod.fst).Nodup ∧
  (∀ kv ∈ p.unknown, globalUnknownKey kv.1) ∧ keysNodup p.unknown

instance : DecidablePred wfPsbt := fun p => by
  unfold wfPsbt
  infer_instance

/-- **C1** (amended: for well-formed containers that pass the
validator, and excluding falsy-but-present corner values such as an
empty proof-of-reserves commitment) Deserializing the bytes produced
by `Psbt.serialize` yields the original container field-for-field,
including the unknown and proprietary maps. -/
theorem c1_serialize_deserialize (p : Psbt) (s : Bytes)
    (hwf : wfPsbt p) (hav : Psbt.assert_valid p = .ok ())
    (hs : Psbt.serialize p = .ok s) :
    Psbt.deserialize s = .ok p := by
  obtain ⟨hwftx, hlin, hlout, hwfin, hwfout, hver, hwfh, hhnd, hwfp, hpnd,
    hukey, hund⟩ := hwf
  rw [Psbt.serialize] at hs
  cases htx : p.tx.serialize true true with
  | error e => rw [htx] at hs; simp only [error_bind] at hs; cases hs
  | ok txB =>
  rw [htx] at hs
  simp only [ok_bind] at hs
  cases htxl : varint.encode txB.length with
  | error e => rw [htxl] at hs; simp only [error_bind] at hs; cases hs
  | ok txl =>
  rw [htxl] at hs
  simp only [ok_bind] at hs
  cases hg1 : hdBytes [0x4f, 0x01] p.hd_keypaths with
  | error e => rw [hg1] at hs; simp only [error_bind] at hs; cases hs
  | ok g1 =>
  rw [hg1] at hs
  simp only [ok_bind] at hs
  cases hg2 : glChunkV p with
  | error e => rw [hg2] at hs; simp only [error_bind] at hs; cases hs
  | ok g2 =>
  rw [hg2] at hs
  simp only [ok_bind] at hs
  cases hg3 : propBytes p.proprietary with
  | error e => rw [hg3] at hs; simp only [error_bind] at hs; cases hs
  | ok g3 =>
  rw [hg3] at hs
  simp only [ok_bind] at hs
  cases hg4 : unknownBytes p.unknown with
  | error e => rw [hg4] at hs; simp only [error_bind] at hs; cases hs
  | ok g4 =>
  rw [hg4] at hs
  simp only [ok_bind] at hs
  cases hins : recordsBytes PsbtInput.serialize p.inputs with
  | error e => rw [hins] at hs; simp only [error_bind] at hs; cases hs
  | ok ins =>
  rw [hins] at hs
  simp only [ok_bind] at hs
  cases houts : recordsBytes PsbtOutput.serialize p.outputs with
  | error e => rw [houts] at hs; simp only [error_bind] at hs; cases hs
  | ok outs =>
  rw [houts] at hs
  simp only [ok_bind, pure_eq_ok, Except.ok.injEq] at hs
  obtain ⟨ges, hgenc, hgne, hgnd, hgfold⟩ := psbtGlobal_codes hwftx hver
    hwfh hhnd hwfp hpnd hukey hund htx htxl hg1 hg2 hg3 hg4
  have hseq2 : s = [0x70, 0x73, 0x62, 0x74, 0xff]
      ++ (([0x01, 0x00] ++ txl ++ txB ++ g1 ++ g2 ++ g3 ++ g4)
        ++ 0x00 :: (ins ++ outs)) := by
    rw [← hs]
    simp [List.append_assoc]
  have hmapG := deserialize_map_entries hgne hgenc hgnd (ins ++ outs)
  have hrrIn := readRecordMaps_records hins
    (fun r hr b2 hb2 => psbtInput_codes (hwfin r hr) hb2) outs
  have hrrOut0 := readRecordMaps_records houts
    (fun r hr b2 hb2 => psbtOutput_codes (hwfout r hr) hb2) []
  have hrrOut : readRecordMaps PsbtOutput.decode p.outputs.length outs
      = .ok (p.outputs, []) := by
    rw [← List.append_nil outs]
    exact hrrOut0
  have hvs : some (p.version.getD 0) = p.version := by
    cases hv : p.version with
    | none => rw [hv] at hver; cases hver
    | some v => rfl
  have hm5 : ([0x70, 0x73, 0x62, 0x74, 0xff] : Bytes).length = 5 := rfl
  rw [Psbt.deserialize, hseq2, take_append_length hm5, if_pos rfl,
    drop_append_length hm5, hmapG]
  simp only [ok_bind]
  rw [hgfold]
  simp only [ok_bind]
  rw [show p.tx.vin.length = p.inputs.length from hlin.symm, hrrIn]
  simp only [ok_bind]
  rw [show p.tx.vout.length = p.outputs.length from hlout.symm, hrrOut]
  simp only [ok_bind]
  rw [hvs]
  rw [show (⟨p.tx, p.inputs, p.outputs, p.version, p.hd_keypaths,
    p.proprietary, p.unknown⟩ : Psbt) = p from rfl]
  rw [hav]
  rfl

/-- A container whose input record carries an empty (falsy)
proof-of-reserves commitment. -/
def psbtC1 : Psbt := { psbt9 with inputs :=
  [{ PsbtInput.init with por_commitment := some [] }] }

/-- `psbtC1` passes the validator, yet serializing drops the falsy
empty por commitment, so deserializing the result yields a container
whose record has no commitment at all — the roundtrip is not the
identity on every validator-accepted container. -/
theorem c1_counterexample :
    Psbt.assert_valid psbtC1 = .ok () ∧
    Psbt.serialize psbtC1 = .ok blob9 ∧
    Psbt.deserialize blob9 ≠ .ok psbtC1 :=
  ⟨by decide, by decide, by decide⟩

/-- A container exercising partial signatures, a sighash type, a por
commitment, a proprietary map, record-level and global unknown
entries, and a container version. -/
def inpRich : PsbtInput := { PsbtInput.init with
  partial_sigs := [(List.replicate 33 7, [0x30, 1])],
  sighash := some 1,
  por_commitment := some [0x50],
  proprietary := [(5, [([6], [7])])],
  unknown := [([0x42], [0x43])] }

def psbtRich : Psbt := { psbt9 with
  inputs := [inpRich],
  version := some 1,
  unknown := [([0x21], [0x22])] }

/-- The serialized form of `psbtRich`. -/
def blobRich : Bytes :=
  [0x70, 0x73, 0x62, 0x74, 0xff] ++ [1, 0] ++ [60] ++ txBytes0
    ++ [1, 0xfb, 4, 1, 0, 0, 0] ++ [1, 0x21, 1, 0x22]
    ++ [0]
    ++ ([0x22, 2] ++ List.replicate 33 7 ++ [2, 0x30, 1]
      ++ [1, 3, 4, 1, 0, 0, 0]
      ++ [1, 9, 1, 0x50]
      ++ [3, 0xfc, 5, 6, 1, 7]
      ++ [1, 0x42, 1, 0x43] ++ [0])
    ++ [0]

theorem c1_witness :
    Psbt.serialize psbtRich = .ok blobRich ∧
    Psbt.deserialize blobRich = .ok psbtRich :=
  ⟨by decide, c1_serialize_deserialize psbtRich blobRich (by decide)
    (by decide) (by decide)⟩
